import Mathlib

/-!
# goit — session state machine of the multi-pane terminal editor

A shallow embedding of `main.go`: the package-level variables (`zones`, `store`,
`text`, `isPresent`), the save prompt (`modelTextInput`), the session (`model`) with
its `Update`, `sizeInputs`, `updateKeybindings` and the zone bookkeeping of `View`.

External collaborators are modelled only as far as the program observes them:

* the text-area widget is a record of the attributes the program reads or sets
  (lines, cursor row and column, focus flag, requested width and height); its own
  event handling `Update` is a parameter of the embedding (`Env.taUpdate`);
* the single-line filename input likewise (`Env.tiUpdate`);
* the zone manager is a table from zone identifiers to rectangles, filled by the
  render pass from a parameter (`Env.scan`) that stands for the layout engine;
* the file system is a table from files to contents; which file a path names, whether
  `os.Create` and `os.WriteFile` succeed and what a failed write leaves in the file are
  decided by the environment (`Env.resolve`, `Env.createOk`, `Env.writeOk`,
  `Env.writeLeft`).

Go `int` is 64 bit.  Indices and lengths cannot overflow (a slice is never longer than
the largest `int`); the subtractions on coordinates and on the terminal height wrap
(`wrap64`).  A Go run-time panic and a loop that does not return are results of type
`Fault`.
-/

namespace Goit

/-! ## Constants and helpers -/

def initialInputs : Nat := 1
def maxInputs : Nat := 6
def minInputs : Nat := 1
def helpHeight : Int := 5

/-- Two's-complement wrap-around of a 64-bit signed integer. -/
def wrap64 (i : Int) : Int := (i + 2 ^ 63) % 2 ^ 64 - 2 ^ 63

def max (a b : Int) : Int := if a > b then a else b

def min (a b : Int) : Int := if a < b then a else b

/-- How a handler can fail to return: a run-time panic (index or slice bound out of
range), or a loop that is still running when the fuel is spent. -/
inductive Fault where
  | panic
  | outOfFuel
  deriving DecidableEq, Repr

/-- Element at a Go `int` index; `none` where Go panics. -/
def getAt {α : Type} (l : List α) (i : Int) : Option α :=
  if 0 ≤ i then l[i.toNat]? else none

/-- In-place update `l[i].f()`; `none` where Go panics. -/
def modifyAt {α : Type} (f : α → α) (l : List α) (i : Int) : Option (List α) :=
  match getAt l i with
  | some a => some (l.set i.toNat (f a))
  | none => none

/-- Slice expression `append(l[:i], l[i+1:]...)`; `none` where Go panics
(`i < 0`, or `i + 1` beyond the length). -/
def removeAt {α : Type} (l : List α) (i : Int) : Option (List α) :=
  if 0 ≤ i ∧ i < l.length then some (l.take i.toNat ++ l.drop (i.toNat + 1)) else none

/-! ## Events -/

inductive KeyType where
  | KeyCtrlC | KeyEsc | KeyEnter | KeyTab | KeyShiftTab
  | KeyCtrlN | KeyCtrlW | KeyCtrlS
  | KeyUp | KeyDown | KeyBackspace
  | KeyRunes
  deriving DecidableEq, Repr

/-- A key press (`tea.KeyMsg`). -/
structure Key where
  typ : KeyType
  Runes : List Char
  Alt : Bool
  deriving DecidableEq, Repr

def keyNames : KeyType → String
  | .KeyCtrlC => "ctrl+c"
  | .KeyEsc => "esc"
  | .KeyEnter => "enter"
  | .KeyTab => "tab"
  | .KeyShiftTab => "shift+tab"
  | .KeyCtrlN => "ctrl+n"
  | .KeyCtrlW => "ctrl+w"
  | .KeyCtrlS => "ctrl+s"
  | .KeyUp => "up"
  | .KeyDown => "down"
  | .KeyBackspace => "backspace"
  | .KeyRunes => ""

/-- Printable name of a key press, the text `key.Matches` compares. -/
def Key.String (k : Key) : String :=
  (if k.Alt then "alt+" else "") ++
    (if k.typ = .KeyRunes then String.mk k.Runes else keyNames k.typ)

inductive MouseEventType where
  | MouseUnknown | MouseLeft | MouseRight | MouseMiddle | MouseRelease
  | MouseWheelUp | MouseWheelDown | MouseMotion
  deriving DecidableEq, Repr

structure MouseEvent where
  X : Int
  Y : Int
  typ : MouseEventType
  deriving DecidableEq, Repr

/-- Messages delivered by the event loop (`tea.Msg`). -/
inductive Msg where
  | KeyMsg (k : Key)
  | WindowSizeMsg (Width Height : Int)
  | MouseMsg (e : MouseEvent)
  | Other (tag : Nat)
  deriving DecidableEq, Repr

/-- Commands returned to the event loop; only `Quit` is told apart. -/
inductive Cmd where
  | nil
  | Quit
  | Batch
  deriving DecidableEq, Repr

/-! ## Key bindings -/

structure Binding where
  keys : List String
  help : String × String
  disabled : Bool
  deriving DecidableEq, Repr

def NewBinding (keys : List String) (helpKey helpDesc : String) : Binding :=
  { keys := keys, help := (helpKey, helpDesc), disabled := false }

def Binding.SetEnabled (b : Binding) (v : Bool) : Binding :=
  { b with disabled := !v }

def Binding.Enabled (b : Binding) : Bool :=
  !b.disabled && !b.keys.isEmpty

/-- Library function `key.Matches`: the key's name is one of the binding's keys and the
binding is enabled. -/
def Matches (k : Key) (b : Binding) : Bool :=
  b.keys.any (fun v => k.String == v && b.Enabled)

structure keymap where
  next : Binding
  prev : Binding
  add : Binding
  remove : Binding
  quit : Binding
  save : Binding
  deriving DecidableEq, Repr

/-! ## Text-area widget -/

/-- What the program observes of one `textarea.Model`: the lines of the buffer, the
cursor, the focus flag and the size last requested.  Styling is left out. -/
structure Textarea where
  value : List (List Char)
  row : Int
  col : Int
  focus : Bool
  width : Int
  height : Int
  deriving DecidableEq, Repr

namespace Textarea

/-- Widget constructor `textarea.New()`: one empty line, cursor at the origin, default size. -/
def New : Textarea :=
  { value := [[]], row := 0, col := 0, focus := false, width := 40, height := 6 }

def Blur (t : Textarea) : Textarea := { t with focus := false }

def Focus (t : Textarea) : Textarea := { t with focus := true }

def Focused (t : Textarea) : Bool := t.focus

/-- Buffer content: the lines joined by a newline. -/
def Value (t : Textarea) : String :=
  "\n".intercalate (t.value.map String.mk)

def LineCount (t : Textarea) : Int := t.value.length

def Line (t : Textarea) : Int := t.row

/-- One line down: raises the row by one while below the last line. -/
def CursorDown (t : Textarea) : Textarea :=
  if t.row < t.LineCount - 1 then { t with row := t.row + 1 } else t

/-- One line up: lowers the row by one while above row 0. -/
def CursorUp (t : Textarea) : Textarea :=
  if 0 < t.row then { t with row := t.row - 1 } else t

/-- Library helper `clamp(v, low, high)` of the widget. -/
def clamp (v low high : Int) : Int :=
  if high < low then min low (max high v) else min high (max low v)

/-- Widget method `SetCursor`: `m.col = clamp(col, 0, len(m.value[m.row]))`, the column
is brought into `[0, length of the cursor line]`.  The widget keeps its cursor row on a
line of the buffer; a row outside the buffer counts as an empty line here. -/
def SetCursor (t : Textarea) (c : Int) : Textarea :=
  { t with col := clamp c 0 ((getAt t.value t.row).getD []).length }

def SetWidth (t : Textarea) (w : Int) : Textarea := { t with width := w }

def SetHeight (t : Textarea) (h : Int) : Textarea := { t with height := h }

end Textarea

def newTextarea : Textarea := Textarea.New.Blur

/-! ## Filename input and save prompt -/

structure TextInput where
  value : String
  Placeholder : String
  focus : Bool
  CharLimit : Int
  Width : Int
  deriving DecidableEq, Repr

namespace TextInput

def New : TextInput :=
  { value := "", Placeholder := "", focus := false, CharLimit := 0, Width := 0 }

def Focus (t : TextInput) : TextInput := { t with focus := true }

def Value (t : TextInput) : String := t.value

end TextInput

structure modelTextInput where
  textInput : TextInput
  err : Option String
  idx : Int
  deriving DecidableEq, Repr

def initialModel (idx : Int) : modelTextInput :=
  let ti := TextInput.New
  let ti := { ti with Placeholder := "Filename" }
  let ti := ti.Focus
  let ti := { ti with CharLimit := 156 }
  let ti := { ti with Width := 20 }
  { textInput := ti, err := none, idx := idx }

/-! ## Zones -/

abbrev ZoneId := Nat

structure ZoneInfo where
  StartX : Int
  StartY : Int
  EndX : Int
  EndY : Int
  deriving DecidableEq, Repr

/-- Library method `InBounds`; an unknown zone (`none`) contains no point. -/
def InBounds (z : Option ZoneInfo) (e : MouseEvent) : Bool :=
  match z with
  | none => false
  | some z =>
    if z.StartX > z.EndX ∨ z.StartY > z.EndY then false
    else if e.X < z.StartX ∨ e.Y < z.StartY then false
    else if e.X > z.EndX ∨ e.Y > z.EndY then false
    else true

/-- Library method `Pos`: the offset of the event from the zone's top-left corner,
`(-1, -1)` outside the zone. -/
def Pos (z : Option ZoneInfo) (e : MouseEvent) : Int × Int :=
  match z with
  | none => (-1, -1)
  | some zi =>
    if InBounds z e then (wrap64 (e.X - zi.StartX), wrap64 (e.Y - zi.StartY)) else (-1, -1)

/-! ## File system -/

/-- A file on disk, as opposed to the paths that name it: `out.txt` and `./out.txt`
are two paths of one file.  A file is identified by its canonical path. -/
structure FileId where
  canonical : String
  deriving DecidableEq, Repr

/-- Files by identity; the content of a file is the byte string it holds. -/
structure FileSystem where
  files : List (FileId × String)
  deriving DecidableEq, Repr

def FileSystem.read (fs : FileSystem) (file : FileId) : Option String :=
  fs.files.lookup file

/-- The file now holds exactly `data`, replacing what was there. -/
def FileSystem.put (fs : FileSystem) (file : FileId) (data : String) : FileSystem :=
  { files := (file, data) :: fs.files.filter (fun p => p.1 != file) }

/-! ## Session -/

structure model where
  width : Int
  height : Int
  keymap : keymap
  inputs : List Textarea
  focus : Int
  deriving DecidableEq, Repr

/-- The package-level variables, the zone manager and the file system. -/
structure World where
  zones : List ZoneId
  store : modelTextInput
  text : String
  isPresent : Bool
  zoneSeq : Nat
  zoneMgr : List (ZoneId × ZoneInfo)
  fs : FileSystem
  deriving DecidableEq, Repr

/-- Library function `zone.Get`. -/
def World.Get (w : World) (id : ZoneId) : Option ZoneInfo := w.zoneMgr.lookup id

/-- The parts of the environment the program calls into. -/
structure Env where
  /-- Event handling of the text-area widget (`textarea.Model.Update`). -/
  taUpdate : Textarea → Msg → Textarea
  /-- Event handling of the filename input (`textinput.Model.Update`). -/
  tiUpdate : TextInput → Msg → TextInput
  /-- Rectangle the layout engine finds for the `i`-th marked pane of a frame. -/
  scan : List Textarea → Nat → Option ZoneInfo
  /-- The file a path names: path resolution of the operating system. -/
  resolve : String → FileId
  /-- Whether `os.Create` succeeds on a path. -/
  createOk : FileSystem → String → Bool
  /-- Whether `os.WriteFile` succeeds on a path. -/
  writeOk : FileSystem → String → String → Bool
  /-- What a failing `os.WriteFile` leaves behind: `none` when the file could not be
  opened, and then nothing has changed; `some left` when it was opened, and thereby
  truncated, and `left` is what had reached the file when the write or the close failed. -/
  writeLeft : FileSystem → String → String → Option String

/-- System call `os.Create`: opens the file the path names with `O_CREATE|O_TRUNC`, so on
success the file exists and is empty; nothing happens on failure.  The program drops the
handle and the error. -/
def osCreate (E : Env) (fs : FileSystem) (name : String) : FileSystem :=
  if E.createOk fs name then fs.put (E.resolve name) "" else fs

/-- System call `os.WriteFile`: opens the file the path names with `O_CREATE|O_TRUNC`,
writes the data and closes the file.  On success the file holds the data.  On failure
either the file could not be opened and nothing has changed, or it was opened and holds
what had been written when the call failed. -/
def osWriteFile (E : Env) (fs : FileSystem) (name data : String) : FileSystem :=
  if E.writeOk fs name data then fs.put (E.resolve name) data
  else
    match E.writeLeft fs name data with
    | none => fs
    | some left => fs.put (E.resolve name) left

/-- Handler `modelTextInput.Update`: escape and ctrl+c close the prompt, enter writes
`text` to the file named by the input and closes the prompt. -/
def modelTextInput.Update (E : Env) (w : World) (s : modelTextInput) (msg : Msg) :
    World × modelTextInput × Cmd :=
  match msg with
  | .KeyMsg k =>
    match k.typ with
    | .KeyCtrlC => ({ w with isPresent := false }, s, .nil)
    | .KeyEsc => ({ w with isPresent := false }, s, .nil)
    | .KeyEnter =>
      let filename := s.textInput.Value
      let fs1 := osCreate E w.fs filename
      let fs2 := osWriteFile E fs1 filename w.text
      ({ w with fs := fs2, isPresent := false }, s, .nil)
    | _ => (w, s, .nil)
  | _ => (w, s, .nil)

def model.updateKeybindings (m : model) : model :=
  { m with keymap :=
      { m.keymap with
        add := m.keymap.add.SetEnabled (decide (m.inputs.length < maxInputs)),
        remove := m.keymap.remove.SetEnabled (decide (m.inputs.length > minInputs)) } }

def model.sizeInputs (m : model) : model :=
  { m with inputs := m.inputs.map (fun t =>
      (t.SetWidth (Int.tdiv m.width m.inputs.length)).SetHeight (wrap64 (m.height - helpHeight))) }

def newModel : model :=
  let m : model :=
    { width := 0, height := 0,
      inputs := List.replicate initialInputs newTextarea,
      focus := 0,
      keymap :=
        { next := NewBinding ["tab"] "tab" "next",
          prev := NewBinding ["shift+tab"] "shift+tab" "prev",
          add := NewBinding ["ctrl+n"] "ctrl+n" "add an editor",
          remove := NewBinding ["ctrl+w"] "ctrl+w" "remove an editor",
          quit := NewBinding ["esc", "ctrl+c"] "esc" "quit",
          save := NewBinding ["ctrl+s"] "ctrl+s" "save file" } }
  let m := { m with inputs := (modifyAt Textarea.Focus m.inputs m.focus).getD m.inputs }
  m.updateKeybindings

/-- The package-level variables at program start, over a given file system. -/
def initWorld (fs : FileSystem) : World :=
  { zones := [], store := { textInput := TextInput.New, err := none, idx := 0 },
    text := "", isPresent := false, zoneSeq := 0, zoneMgr := [], fs := fs }

/-! ## The session's event handler -/

/-- The code after the `switch` of `model.Update`: refresh the key bindings, resize the
panes and, unless the save prompt has just been opened, hand the event to every pane. -/
def model.finish (E : Env) (w : World) (m : model) (msg : Msg) : World × model × Cmd :=
  let m := m.updateKeybindings
  let m := m.sizeInputs
  let m := if !w.isPresent then
      { m with inputs := m.inputs.map (fun t => E.taUpdate t msg) }
    else m
  (w, m, .Batch)

/-- Loop `for m.inputs[m.focus].Line() < y { CursorDown() }`. -/
def cursorDownLoop : Nat → Textarea → Int → Except Fault Textarea
  | 0, t, y => if t.Line < y then .error .outOfFuel else .ok t
  | fuel + 1, t, y => if t.Line < y then cursorDownLoop fuel t.CursorDown y else .ok t

/-- Loop `for y < m.inputs[m.focus].Line() { CursorUp() }`. -/
def cursorUpLoop : Nat → Textarea → Int → Except Fault Textarea
  | 0, t, y => if y < t.Line then .error .outOfFuel else .ok t
  | fuel + 1, t, y => if y < t.Line then cursorUpLoop fuel t.CursorUp y else .ok t

/-- Left click inside the zone of the focused pane (`i == m.focus`): move the cursor to
the clicked row by single steps, then set the column. -/
def model.clickFocused (fuel : Nat) (m : model) (z : Option ZoneInfo) (e : MouseEvent) :
    Except Fault (model × Cmd) :=
  let (x, y) := Pos z e
  let y := wrap64 (y - 1)
  match getAt m.inputs m.focus with
  | none => .error .panic
  | some t =>
    let y := min (max 0 y) (t.LineCount - 1)
    match cursorDownLoop fuel t y with
    | .error f => .error f
    | .ok t1 =>
      match cursorUpLoop fuel t1 y with
      | .error f => .error f
      | .ok t2 =>
        .ok ({ m with inputs := m.inputs.set m.focus.toNat (t2.SetCursor (wrap64 (x - 4))) }, .nil)

/-- Left click inside the zone of another pane: blur the focused pane, focus pane `i`. -/
def model.clickOther (m : model) (i : Nat) : Except Fault (model × Cmd) :=
  match modifyAt Textarea.Blur m.inputs m.focus with
  | none => .error .panic
  | some inputs1 =>
    match modifyAt Textarea.Focus inputs1 i with
    | none => .error .panic
    | some inputs2 => .ok ({ m with inputs := inputs2, focus := i }, .Batch)

/-- Loop `for i, id := range zones` of the left-click case, from position `i` on;
`none` when no zone contains the click. -/
def model.clickZones (fuel : Nat) (w : World) (m : model) (e : MouseEvent) :
    List ZoneId → Nat → Except Fault (Option (model × Cmd))
  | [], _ => .ok none
  | id :: rest, i =>
    if InBounds (w.Get id) e then
      match (if (i : Int) = m.focus then m.clickFocused fuel (w.Get id) e else m.clickOther i) with
      | .error f => .error f
      | .ok r => .ok (some r)
    else model.clickZones fuel w m e rest (i + 1)

/-- Case `tea.KeyMsg` of `model.Update`. -/
def model.updateKey (E : Env) (w : World) (m : model) (k : Key) :
    Except Fault (World × model × Cmd) :=
  if Matches k m.keymap.quit then
    .ok (w, { m with inputs := m.inputs.map Textarea.Blur }, .Quit)
  else if Matches k m.keymap.next then
    match modifyAt Textarea.Blur m.inputs m.focus with
    | none => .error .panic
    | some inputs1 =>
      let focus1 := m.focus + 1
      let focus2 := if focus1 > (inputs1.length : Int) - 1 then 0 else focus1
      match modifyAt Textarea.Focus inputs1 focus2 with
      | none => .error .panic
      | some inputs2 => .ok (model.finish E w { m with inputs := inputs2, focus := focus2 } (.KeyMsg k))
  else if Matches k m.keymap.prev then
    match modifyAt Textarea.Blur m.inputs m.focus with
    | none => .error .panic
    | some inputs1 =>
      let focus1 := m.focus - 1
      let focus2 := if focus1 < 0 then (inputs1.length : Int) - 1 else focus1
      match modifyAt Textarea.Focus inputs1 focus2 with
      | none => .error .panic
      | some inputs2 => .ok (model.finish E w { m with inputs := inputs2, focus := focus2 } (.KeyMsg k))
  else if Matches k m.keymap.add then
    .ok (model.finish E w { m with inputs := m.inputs ++ [newTextarea] } (.KeyMsg k))
  else if Matches k m.keymap.remove then
    if m.inputs.length > 1 then
      let idx := m.focus
      match removeAt m.inputs idx with
      | none => .error .panic
      | some inputs1 =>
        match removeAt w.zones idx with
        | none => .error .panic
        | some zones1 =>
          let focus1 := Int.tmod m.focus inputs1.length
          match modifyAt Textarea.Focus inputs1 focus1 with
          | none => .error .panic
          | some inputs2 =>
            .ok (model.finish E { w with zones := zones1 }
              { m with inputs := inputs2, focus := focus1 } (.KeyMsg k))
    else .ok (model.finish E w m (.KeyMsg k))
  else if Matches k m.keymap.save then
    match getAt m.inputs m.focus with
    | none => .error .panic
    | some t =>
      .ok (model.finish E
        { w with store := initialModel m.focus, isPresent := true, text := t.Value }
        m (.KeyMsg k))
  else .ok (model.finish E w m (.KeyMsg k))

/-- Case `tea.MouseMsg` of `model.Update`. -/
def model.updateMouse (E : Env) (fuel : Nat) (w : World) (m : model) (e : MouseEvent) :
    Except Fault (World × model × Cmd) :=
  if e.typ = .MouseWheelUp then
    match modifyAt Textarea.CursorUp m.inputs m.focus with
    | none => .error .panic
    | some inputs1 => .ok (w, { m with inputs := inputs1 }, .nil)
  else if e.typ = .MouseWheelDown then
    match modifyAt Textarea.CursorDown m.inputs m.focus with
    | none => .error .panic
    | some inputs1 => .ok (w, { m with inputs := inputs1 }, .nil)
  else if e.typ = .MouseLeft then
    match model.clickZones fuel w m e w.zones 0 with
    | .error f => .error f
    | .ok (some (m1, c)) => .ok (w, m1, c)
    | .ok none => .ok (model.finish E w m (.MouseMsg e))
  else .ok (model.finish E w m (.MouseMsg e))

/-- Handler `model.Update`.  While the save prompt is open the event goes to the prompt
only and the session is returned as it is. -/
def model.Update (E : Env) (fuel : Nat) (w : World) (m : model) (msg : Msg) :
    Except Fault (World × model × Cmd) :=
  if w.isPresent then
    let w1 := (modelTextInput.Update E w w.store msg).1
    let w2 := { w1 with store := { w1.store with textInput := E.tiUpdate w1.store.textInput msg } }
    .ok (w2, m, .nil)
  else
    match msg with
    | .KeyMsg k => model.updateKey E w m k
    | .WindowSizeMsg width height =>
      .ok (model.finish E w { m with height := height, width := width } msg)
    | .MouseMsg e => model.updateMouse E fuel w m e
    | .Other _ => .ok (model.finish E w m msg)

/-! ## Render pass and event loop -/

/-- Loop `for i := range m.inputs` of `View`: a fresh zone identifier for every pane,
registered with the rectangle the layout gives it. -/
def viewZones (E : Env) (inputs : List Textarea) : List Textarea → Nat → World → World
  | [], _, w => w
  | _ :: rest, i, w =>
    let zoneId := w.zoneSeq
    let w := { w with
      zoneSeq := w.zoneSeq + 1,
      zones := w.zones ++ [zoneId],
      zoneMgr := match E.scan inputs i with
        | some z => (zoneId, z) :: w.zoneMgr
        | none => w.zoneMgr }
    viewZones E inputs rest (i + 1) w

/-- Effect of `model.View` on the package state: the zone list is emptied and, unless
the save prompt is shown, rebuilt with one zone per pane.  The frame text is not modelled. -/
def model.View (E : Env) (w : World) (m : model) : World :=
  let w := { w with zones := [] }
  if w.isPresent then w
  else viewZones E m.inputs m.inputs 0 w

/-- One turn of the event loop: `Update`, then `View` on the returned session. -/
def step (E : Env) (fuel : Nat) (s : World × model) (msg : Msg) : Except Fault (World × model) :=
  match model.Update E fuel s.1 s.2 msg with
  | .error f => .error f
  | .ok (w, m, _) => .ok (model.View E w m, m)

/-- The event loop over a finite sequence of events.  Events after a `Quit` command are
still processed: the loop ends only when the quit message it causes is delivered, and
ending earlier leaves a prefix of the sequence. -/
def eventLoop (E : Env) (fuel : Nat) (s : World × model) : List Msg → Except Fault (World × model)
  | [] => .ok s
  | msg :: rest =>
    match step E fuel s msg with
    | .error f => .error f
    | .ok s1 => eventLoop E fuel s1 rest

/-! ## Predicates and sample data used in the statements -/

/-- The session is well formed: between 1 and 6 panes, the focus index inside the pane
list, and the add and remove bindings enabled according to the pane count. -/
structure model.WF (m : model) : Prop where
  len_pos : 1 ≤ m.inputs.length
  len_le : m.inputs.length ≤ maxInputs
  focus_nonneg : 0 ≤ m.focus
  focus_lt : m.focus < m.inputs.length
  add_flag : m.keymap.add.disabled = !decide (m.inputs.length < maxInputs)
  remove_flag : m.keymap.remove.disabled = !decide (m.inputs.length > minInputs)

/-- Row a click at zone-relative height `y` asks for in pane `t`. -/
def clickRow (t : Textarea) (y : Int) : Int :=
  min (max 0 (wrap64 (y - 1))) (t.LineCount - 1)

/-- A property of panes that every operation the session applies to a pane keeps. -/
structure PaneInv (E : Env) (P : Textarea → Prop) : Prop where
  blur : ∀ t, P t → P t.Blur
  focus : ∀ t, P t → P t.Focus
  up : ∀ t, P t → P t.CursorUp
  down : ∀ t, P t → P t.CursorDown
  setCursor : ∀ t c, P t → P (t.SetCursor c)
  setWidth : ∀ t c, P t → P (t.SetWidth c)
  setHeight : ∀ t c, P t → P (t.SetHeight c)
  update : ∀ t msg, P t → P (E.taUpdate t msg)
  fresh : P newTextarea

/-- The key lists of the six bindings are the ones `newModel` gives them. -/
def stdKeys (k : keymap) : Prop :=
  k.next.keys = ["tab"] ∧ k.prev.keys = ["shift+tab"] ∧ k.add.keys = ["ctrl+n"] ∧
  k.remove.keys = ["ctrl+w"] ∧ k.quit.keys = ["esc", "ctrl+c"] ∧ k.save.keys = ["ctrl+s"]

/-- The zone list is in step with the pane list, or still empty at program start. -/
def ZonesCover (w : World) (m : model) : Prop :=
  w.zones.length = m.inputs.length ∨ (w.zones = [] ∧ m.inputs.length = 1)

/-- Every pane holds at least one line. -/
def model.Lines (m : model) : Prop := ∀ t ∈ m.inputs, 1 ≤ t.LineCount

/-- The widget's own event handling never leaves a pane without a line. -/
def Env.KeepsLines (E : Env) : Prop :=
  ∀ t msg, 1 ≤ t.LineCount → 1 ≤ (E.taUpdate t msg).LineCount

/-- What holds of the session between two turns of the event loop. -/
structure LoopInv (s : World × model) : Prop where
  wf : s.2.WF
  zones : s.1.isPresent = false → ZonesCover s.1 s.2

/-- Appends typed characters to the line the cursor is on. -/
def typeRunes : List (List Char) → Nat → List Char → List (List Char)
  | [], _, _ => []
  | l :: rest, 0, rs => (l ++ rs) :: rest
  | l :: rest, n + 1, rs => l :: typeRunes rest n rs

/-- A small text-area handler for the worked examples: a focused pane appends typed
characters to the cursor line and opens a new last line on enter; anything else is ignored. -/
def demoTextarea (t : Textarea) (msg : Msg) : Textarea :=
  match msg with
  | .KeyMsg k =>
    if t.focus then
      match k.typ with
      | .KeyRunes => { t with value := typeRunes t.value t.row.toNat k.Runes,
                              col := t.col + k.Runes.length }
      | .KeyEnter => { t with value := t.value ++ [[]], row := t.value.length, col := 0 }
      | _ => t
    else t
  | _ => t

/-- A small filename-input handler for the worked examples: a focused input appends typed
characters; anything else is ignored. -/
def demoTextInput (t : TextInput) (msg : Msg) : TextInput :=
  match msg with
  | .KeyMsg k =>
    if t.focus then
      match k.typ with
      | .KeyRunes => { t with value := t.value ++ String.mk k.Runes }
      | _ => t
    else t
  | _ => t

/-- Path without the leading `./` segments. -/
def dropDotSlash : List Char → List Char
  | '.' :: '/' :: rest => dropDotSlash rest
  | cs => cs

/-- Environment of the worked examples: panes laid out side by side from column 0, each
as wide as requested, and an operating system in which a path names the file of the
same path without leading `./`, and which refuses only the empty path (no file is
opened for it). -/
def demoEnv : Env where
  taUpdate := demoTextarea
  tiUpdate := demoTextInput
  scan := fun inputs i =>
    match inputs[i]? with
    | some t => some { StartX := i * t.width, StartY := 0,
                       EndX := (i + 1) * t.width - 1, EndY := t.height + 1 }
    | none => none
  resolve := fun name => ⟨String.mk (dropDotSlash name.toList)⟩
  createOk := fun _ name => name != ""
  writeOk := fun _ name _ => name != ""
  writeLeft := fun _ _ _ => none

/-- Typed text, delivered as one key message. -/
def runes (s : String) : Msg := .KeyMsg { typ := .KeyRunes, Runes := s.toList, Alt := false }

/-- A key pressed on its own, without alt. -/
def plainKey (t : KeyType) : Key := { typ := t, Runes := [], Alt := false }

def press (t : KeyType) : Msg := .KeyMsg (plainKey t)

/-- State of the worked examples after the given events, from program start. -/
def after (msgs : List Msg) : World × model :=
  match eventLoop demoEnv 0 (initWorld ⟨[]⟩, newModel) msgs with
  | .ok s => s
  | .error _ => (initWorld ⟨[]⟩, newModel)

/-- The bindings are the ones `newModel` builds: the same keys, and next, previous, quit
and save enabled. -/
def keymap.Std (k : keymap) : Prop :=
  stdKeys k ∧ k.next.disabled = false ∧ k.prev.disabled = false ∧
    k.quit.disabled = false ∧ k.save.disabled = false

/-- Confirm key of the save prompt (enter). -/
def Msg.isConfirm : Msg → Bool
  | .KeyMsg k => decide (k.typ = .KeyEnter)
  | _ => false

/-- Cancel key of the save prompt (escape or ctrl+c). -/
def Msg.isCancel : Msg → Bool
  | .KeyMsg k => decide (k.typ = .KeyEsc ∨ k.typ = .KeyCtrlC)
  | _ => false

/-- Package state after one event handled while the save prompt is open. -/
def promptNext (E : Env) (w : World) (msg : Msg) : World :=
  let w1 := (modelTextInput.Update E w w.store msg).1
  { w1 with store := { w1.store with textInput := E.tiUpdate w1.store.textInput msg } }

/-- What a pane shows: its lines, its cursor and whether it has the focus. -/
def Textarea.shown (t : Textarea) : List (List Char) × Int × Int × Bool :=
  (t.value, t.row, t.col, t.focus)

/-- Every pane already has the size the layout pass would give it. -/
def model.Sized (m : model) : Prop :=
  ∀ t ∈ m.inputs, t.width = Int.tdiv m.width m.inputs.length ∧
    t.height = wrap64 (m.height - helpHeight)

/-- The worked example of the save scenario: program start, then `hello` typed. -/
def helloTyped : World × model := after [runes "hello"]

/-- States the event loop can be in after some events, starting from `newModel`. -/
def Reachable (E : Env) (s : World × model) : Prop :=
  ∃ fs msgs fuel, eventLoop E fuel (initWorld fs, newModel) msgs = .ok s

/-- The panes after the common tail of `Update`: each resized, then handed the event. -/
def model.passed (E : Env) (m : model) (msg : Msg) : List Textarea :=
  m.sizeInputs.inputs.map (fun t => E.taUpdate t msg)

/-- The text of a pane and its cursor position. -/
def Textarea.buffer (t : Textarea) : List (List Char) × Int × Int :=
  (t.value, t.row, t.col)

/-- Six panes: five add-pane presses after program start. -/
def sixPanes : World × model := after (List.replicate 5 (press .KeyCtrlN))

/-- Two panes on an 80 by 24 terminal, the first focused and holding three lines. -/
def twoPanes : World × model :=
  after [.WindowSizeMsg 80 24, press .KeyCtrlN, runes "ab", press .KeyEnter, runes "cd",
    press .KeyEnter, runes "ef"]

/-- Two panes on an 80 by 24 terminal, the first focused and holding three lines, the
third of eight characters. -/
def longLine : World × model :=
  after [.WindowSizeMsg 80 24, press .KeyCtrlN, runes "ab", press .KeyEnter, runes "cd",
    press .KeyEnter, runes "efghijkl"]

/-- The widget's own event handling does not change the size a pane was given. -/
def Env.KeepsSize (E : Env) : Prop :=
  ∀ t msg, (E.taUpdate t msg).width = t.width ∧ (E.taUpdate t msg).height = t.height

/-- The size last requested for a pane. -/
def Textarea.size (t : Textarea) : Int × Int := (t.width, t.height)

/-- Events after which an idle `Update` returns before its tail: a key that matches the
quit binding, the mouse wheel, and a left click inside some zone. -/
def earlyReturn (w : World) (m : model) : Msg → Bool
  | .KeyMsg k => Matches k m.keymap.quit
  | .MouseMsg e =>
    decide (e.typ = .MouseWheelUp) || decide (e.typ = .MouseWheelDown) ||
      (decide (e.typ = .MouseLeft) && w.zones.any (fun id => InBounds (w.Get id) e))
  | _ => false

/-- An operating system with a full disk: a file can be created or truncated, writing
to it fails with nothing written. -/
def fullDiskEnv : Env :=
  { demoEnv with
    createOk := fun _ _ => true, writeOk := fun _ _ _ => false, writeLeft := fun _ _ _ => some "" }

/-- Save prompt holding another path of `out.txt`: `hello` typed, save key, `./out.txt`
typed. -/
def promptDotSlash : World × model :=
  after [runes "hello", press .KeyCtrlS, runes "./out.txt"]

/-- A disk with two files. -/
def twoFiles : FileSystem := ⟨[(⟨"out.txt"⟩, "old"), (⟨"b.txt"⟩, "keep")]⟩

/-- Save prompt of the worked examples: `hello` typed, save key, `out.txt` typed. -/
def promptOpen : World × model := after [runes "hello", press .KeyCtrlS, runes "out.txt"]

/-- The down loop of the click handler with its calls of `CursorDown` counted. -/
def cursorDownCount : Nat → Textarea → Int → Except Fault (Textarea × Nat)
  | 0, t, y => if t.Line < y then .error .outOfFuel else .ok (t, 0)
  | fuel + 1, t, y =>
    if t.Line < y then
      match cursorDownCount fuel t.CursorDown y with
      | .error f => .error f
      | .ok (t1, n) => .ok (t1, n + 1)
    else .ok (t, 0)

/-- The up loop of the click handler with its calls of `CursorUp` counted. -/
def cursorUpCount : Nat → Textarea → Int → Except Fault (Textarea × Nat)
  | 0, t, y => if y < t.Line then .error .outOfFuel else .ok (t, 0)
  | fuel + 1, t, y =>
    if y < t.Line then
      match cursorUpCount fuel t.CursorUp y with
      | .error f => .error f
      | .ok (t1, n) => .ok (t1, n + 1)
    else .ok (t, 0)

/-- The widget's own event handling does not change the focus flag of a pane. -/
def Env.KeepsFocus (E : Env) : Prop := ∀ t msg, (E.taUpdate t msg).Focused = t.Focused

/-- Pane `j` of the list is focused and no other pane is. -/
def OnlyFocused (l : List Textarea) (j : Nat) : Prop :=
  ∀ i t, l[i]? = some t → (t.Focused = true ↔ i = j)

/-- No pane of the list is focused. -/
def AllBlurred (l : List Textarea) : Prop := ∀ t ∈ l, t.Focused = false

/-- The focused pane is the one at the focus index, and only that one. -/
def model.FocusOk (m : model) : Prop := 0 ≤ m.focus ∧ OnlyFocused m.inputs m.focus.toNat

/-- No event of the run is handled as the quit key: `Update` never returns `Quit`. -/
def quitFree (E : Env) (fuel : Nat) : World × model → List Msg → Bool
  | _, [] => true
  | s, msg :: rest =>
    match model.Update E fuel s.1 s.2 msg with
    | .ok (w, m, c) => decide (c ≠ .Quit) && quitFree E fuel (model.View E w m, m) rest
    | .error _ => false

/-- States the event loop can be in after events none of which is handled as the quit
key, starting from `newModel`. -/
def ReachableNoQuit (E : Env) (s : World × model) : Prop :=
  ∃ fs msgs fuel, quitFree E fuel (initWorld fs, newModel) msgs = true ∧
    eventLoop E fuel (initWorld fs, newModel) msgs = .ok s

/-- The program as the event loop runs it: the first frame is rendered, then each event
is handled and the frame rendered again. -/
def program (E : Env) (fuel : Nat) (fs : FileSystem) (msgs : List Msg) :
    Except Fault (World × model) :=
  eventLoop E fuel (model.View E (initWorld fs) newModel, newModel) msgs

/-- Six panes reached by the program: the first frame, then five add-pane presses. -/
def sixPanesRun : World × model :=
  match program demoEnv 0 ⟨[]⟩ (List.replicate 5 (press .KeyCtrlN)) with
  | .ok s => s
  | .error _ => (initWorld ⟨[]⟩, newModel)

/-! ## Lemmas and the claims -/

theorem getAt_eq_some {α : Type} {l : List α} {i : Int} {a : α} (h : getAt l i = some a) :
    0 ≤ i ∧ i < l.length ∧ l[i.toNat]? = some a := by
  unfold getAt at h
  split at h
  · rename_i h0
    have := List.getElem?_eq_some_iff.mp h
    obtain ⟨hlt, _⟩ := this
    refine ⟨h0, ?_, h⟩
    omega
  · simp at h

theorem getAt_of_bounds {α : Type} {l : List α} {i : Int} (h0 : 0 ≤ i) (h1 : i < l.length) :
    ∃ a, getAt l i = some a := by
  have hlt : i.toNat < l.length := by omega
  exact ⟨l[i.toNat], by simp [getAt, h0, List.getElem?_eq_getElem hlt]⟩

theorem modifyAt_eq_some {α : Type} {f : α → α} {l l1 : List α} {i : Int}
    (h : modifyAt f l i = some l1) :
    ∃ a, getAt l i = some a ∧ l1 = l.set i.toNat (f a) := by
  unfold modifyAt at h
  split at h
  · rename_i a ha
    exact ⟨a, ha, by simpa using h.symm⟩
  · simp at h

theorem modifyAt_length {α : Type} {f : α → α} {l l1 : List α} {i : Int}
    (h : modifyAt f l i = some l1) : l1.length = l.length := by
  obtain ⟨a, _, rfl⟩ := modifyAt_eq_some h
  simp

theorem modifyAt_of_bounds {α : Type} (f : α → α) {l : List α} {i : Int}
    (h0 : 0 ≤ i) (h1 : i < l.length) : ∃ l1, modifyAt f l i = some l1 := by
  obtain ⟨a, ha⟩ := getAt_of_bounds h0 h1
  exact ⟨l.set i.toNat (f a), by simp [modifyAt, ha]⟩

theorem removeAt_eq_some {α : Type} {l l1 : List α} {i : Int} (h : removeAt l i = some l1) :
    0 ≤ i ∧ i < l.length ∧ l1 = l.eraseIdx i.toNat := by
  unfold removeAt at h
  split at h
  · rename_i hb
    refine ⟨hb.1, hb.2, ?_⟩
    have := Option.some.inj h
    rw [← this, List.eraseIdx_eq_take_drop_succ]
  · simp at h

theorem removeAt_length {α : Type} {l l1 : List α} {i : Int} (h : removeAt l i = some l1) :
    l1.length + 1 = l.length := by
  obtain ⟨h0, h1, rfl⟩ := removeAt_eq_some h
  rw [List.length_eraseIdx]
  have : i.toNat < l.length := by omega
  simp [this]
  omega

theorem removeAt_of_bounds {α : Type} {l : List α} {i : Int} (h0 : 0 ≤ i) (h1 : i < l.length) :
    removeAt l i = some (l.eraseIdx i.toNat) := by
  simp [removeAt, h0, h1, List.eraseIdx_eq_take_drop_succ]

theorem Matches_enabled {k : Key} {b : Binding} (h : Matches k b = true) : b.disabled = false := by
  unfold Matches at h
  rw [List.any_eq_true] at h
  obtain ⟨v, _, hv⟩ := h
  simp [Binding.Enabled] at hv
  exact hv.2.1

theorem finish_world (E : Env) (w : World) (m : model) (msg : Msg) :
    (model.finish E w m msg).1 = w := rfl

theorem finish_length (E : Env) (w : World) (m : model) (msg : Msg) :
    (model.finish E w m msg).2.1.inputs.length = m.inputs.length := by
  unfold model.finish
  cases w.isPresent <;> simp [model.sizeInputs, model.updateKeybindings]

theorem finish_focus (E : Env) (w : World) (m : model) (msg : Msg) :
    (model.finish E w m msg).2.1.focus = m.focus := by
  unfold model.finish
  cases w.isPresent <;> simp [model.sizeInputs, model.updateKeybindings]

theorem finish_keymap (E : Env) (w : World) (m : model) (msg : Msg) :
    (model.finish E w m msg).2.1.keymap = m.updateKeybindings.keymap := by
  unfold model.finish
  cases w.isPresent <;> simp [model.sizeInputs, model.updateKeybindings]

theorem finish_WF (E : Env) (w : World) (m : model) (msg : Msg)
    (h1 : 1 ≤ m.inputs.length) (h2 : m.inputs.length ≤ maxInputs)
    (h3 : 0 ≤ m.focus) (h4 : m.focus < m.inputs.length) :
    (model.finish E w m msg).2.1.WF := by
  refine ⟨?_, ?_, ?_, ?_, ?_, ?_⟩
  · rw [finish_length]; exact h1
  · rw [finish_length]; exact h2
  · rw [finish_focus]; exact h3
  · rw [finish_focus, finish_length]; exact h4
  · rw [finish_keymap, finish_length]; simp [model.updateKeybindings, Binding.SetEnabled]
  · rw [finish_keymap, finish_length]; simp [model.updateKeybindings, Binding.SetEnabled]

theorem WF_of_fields {m m1 : model} (hwf : m.WF) (hl : m1.inputs.length = m.inputs.length)
    (hf : m1.focus = m.focus) (hk : m1.keymap = m.keymap) : m1.WF := by
  obtain ⟨a, b, c, d, e, f⟩ := hwf
  exact ⟨by rw [hl]; exact a, by rw [hl]; exact b, by rw [hf]; exact c, by rw [hf, hl]; exact d,
    by rw [hk, hl]; exact e, by rw [hk, hl]; exact f⟩

theorem finish_WF_of_eq {E : Env} {w w1 : World} {m m1 : model} {msg : Msg} {c : Cmd}
    (h : model.finish E w m msg = (w1, m1, c))
    (h1 : 1 ≤ m.inputs.length) (h2 : m.inputs.length ≤ maxInputs)
    (h3 : 0 ≤ m.focus) (h4 : m.focus < m.inputs.length) : m1.WF := by
  have hm : m1 = (model.finish E w m msg).2.1 := by rw [h]
  rw [hm]
  exact finish_WF E w m msg h1 h2 h3 h4

theorem updateKey_WF {E : Env} {w w1 : World} {m m1 : model} {k : Key} {c : Cmd}
    (hwf : m.WF) (h : model.updateKey E w m k = .ok (w1, m1, c)) : m1.WF := by
  have hmax : maxInputs = 6 := rfl
  have hmin : minInputs = 1 := rfl
  obtain ⟨h1, h2, h3, h4, h5, h6⟩ := hwf
  unfold model.updateKey at h
  split at h
  · -- quit
    simp only [Except.ok.injEq, Prod.mk.injEq] at h
    obtain ⟨-, rfl, -⟩ := h
    exact WF_of_fields ⟨h1, h2, h3, h4, h5, h6⟩ (by simp) rfl rfl
  split at h
  · -- next
    split at h
    · simp at h
    rename_i inputs1 hi1
    have hl1 := modifyAt_length hi1
    dsimp only at h
    split at h
    · simp at h
    rename_i inputs2 hi2
    have hl2 := modifyAt_length hi2
    simp only [Except.ok.injEq] at h
    refine finish_WF_of_eq h ?_ ?_ ?_ ?_
    · simp only; omega
    · simp only; omega
    · simp only; split <;> omega
    · simp only; split <;> omega
  split at h
  · -- prev
    split at h
    · simp at h
    rename_i inputs1 hi1
    have hl1 := modifyAt_length hi1
    dsimp only at h
    split at h
    · simp at h
    rename_i inputs2 hi2
    have hl2 := modifyAt_length hi2
    simp only [Except.ok.injEq] at h
    refine finish_WF_of_eq h ?_ ?_ ?_ ?_
    · simp only; omega
    · simp only; omega
    · simp only; split <;> omega
    · simp only; split <;> omega
  split at h
  · -- add
    rename_i hadd
    have hen := Matches_enabled hadd
    rw [h5] at hen
    simp at hen
    simp only [Except.ok.injEq] at h
    refine finish_WF_of_eq h ?_ ?_ ?_ ?_
    · simp
    · simp only [List.length_append, List.length_singleton]; omega
    · exact h3
    · simp only [List.length_append, List.length_singleton]; push_cast; omega
  split at h
  · -- remove
    split at h
    · rename_i hgt
      dsimp only at h
      split at h
      · simp at h
      rename_i inputs1 hi1
      have hl1 := removeAt_length hi1
      split at h
      · simp at h
      rename_i zones1 hz1
      split at h
      · simp at h
      rename_i inputs2 hi2
      have hl2 := modifyAt_length hi2
      simp only [Except.ok.injEq] at h
      have hpos : (0 : Int) < inputs1.length := by omega
      refine finish_WF_of_eq h ?_ ?_ ?_ ?_
      · simp only; omega
      · simp only; omega
      · simp only; exact Int.tmod_nonneg _ h3
      · simp only; rw [hl2]; exact Int.tmod_lt_of_pos _ hpos
    · simp only [Except.ok.injEq] at h
      exact finish_WF_of_eq h h1 h2 h3 h4
  split at h
  · -- save
    split at h
    · simp at h
    simp only [Except.ok.injEq] at h
    exact finish_WF_of_eq h h1 h2 h3 h4
  · simp only [Except.ok.injEq] at h
    exact finish_WF_of_eq h h1 h2 h3 h4

theorem clickFocused_fields {fuel : Nat} {m m1 : model} {z : Option ZoneInfo} {e : MouseEvent}
    {c : Cmd} (h : m.clickFocused fuel z e = .ok (m1, c)) :
    m1.inputs.length = m.inputs.length ∧ m1.focus = m.focus ∧ m1.keymap = m.keymap ∧
      m1.width = m.width ∧ m1.height = m.height := by
  unfold model.clickFocused at h
  split at h
  split at h
  · simp at h
  dsimp only at h
  split at h
  · simp at h
  split at h
  · simp at h
  simp only [Except.ok.injEq, Prod.mk.injEq] at h
  obtain ⟨rfl, -⟩ := h
  simp

theorem clickOther_fields {m m1 : model} {i : Nat} {c : Cmd}
    (h : m.clickOther i = .ok (m1, c)) :
    m1.inputs.length = m.inputs.length ∧ m1.focus = i ∧ i < m.inputs.length ∧
      m1.keymap = m.keymap ∧ m1.width = m.width ∧ m1.height = m.height := by
  unfold model.clickOther at h
  split at h
  · simp at h
  rename_i inputs1 hi1
  split at h
  · simp at h
  rename_i inputs2 hi2
  simp only [Except.ok.injEq, Prod.mk.injEq] at h
  obtain ⟨rfl, -⟩ := h
  have hl1 := modifyAt_length hi1
  have hl2 := modifyAt_length hi2
  obtain ⟨a, ha, -⟩ := modifyAt_eq_some hi2
  have hb := (getAt_eq_some ha).2.1
  refine ⟨by simp only; omega, rfl, ?_, rfl, rfl, rfl⟩
  omega

theorem clickZones_WF {fuel : Nat} {w : World} {m m1 : model} {e : MouseEvent} {c : Cmd}
    (hwf : m.WF) (zs : List ZoneId) (i : Nat)
    (h : model.clickZones fuel w m e zs i = .ok (some (m1, c))) : m1.WF := by
  induction zs generalizing i with
  | nil => simp [model.clickZones] at h
  | cons id rest ih =>
    unfold model.clickZones at h
    split at h
    · split at h
      · simp at h
      rename_i r hr
      simp only [Except.ok.injEq, Option.some.injEq] at h
      subst h
      split at hr
      · obtain ⟨a, b, c, -, -⟩ := clickFocused_fields hr
        exact WF_of_fields hwf a b c
      · obtain ⟨a, b, hlt, c, -, -⟩ := clickOther_fields hr
        obtain ⟨h1, h2, h3, h4, h5, h6⟩ := hwf
        exact ⟨by rw [a]; exact h1, by rw [a]; exact h2, by rw [b]; omega, by rw [a, b]; omega,
          by rw [c, a]; exact h5, by rw [c, a]; exact h6⟩
    · exact ih _ h

theorem modifyAt_WF {m : model} {f : Textarea → Textarea} {inputs1 : List Textarea}
    (hwf : m.WF) (h : modifyAt f m.inputs m.focus = some inputs1) :
    ({ m with inputs := inputs1 } : model).WF :=
  WF_of_fields hwf (modifyAt_length h) rfl rfl

theorem updateMouse_WF {E : Env} {fuel : Nat} {w w1 : World} {m m1 : model} {e : MouseEvent}
    {c : Cmd} (hwf : m.WF) (h : model.updateMouse E fuel w m e = .ok (w1, m1, c)) : m1.WF := by
  unfold model.updateMouse at h
  split at h
  · split at h
    · simp at h
    rename_i inputs1 hi1
    simp only [Except.ok.injEq, Prod.mk.injEq] at h
    obtain ⟨-, rfl, -⟩ := h
    exact modifyAt_WF hwf hi1
  split at h
  · split at h
    · simp at h
    rename_i inputs1 hi1
    simp only [Except.ok.injEq, Prod.mk.injEq] at h
    obtain ⟨-, rfl, -⟩ := h
    exact modifyAt_WF hwf hi1
  split at h
  · split at h
    · simp at h
    · rename_i m2 c2 hz
      simp only [Except.ok.injEq, Prod.mk.injEq] at h
      obtain ⟨-, rfl, -⟩ := h
      exact clickZones_WF hwf _ _ hz
    · simp only [Except.ok.injEq] at h
      exact finish_WF_of_eq h hwf.1 hwf.2 hwf.3 hwf.4
  · simp only [Except.ok.injEq] at h
    exact finish_WF_of_eq h hwf.1 hwf.2 hwf.3 hwf.4

theorem Update_WF {E : Env} {fuel : Nat} {w w1 : World} {m m1 : model} {msg : Msg}
    {c : Cmd} (hwf : m.WF) (h : model.Update E fuel w m msg = .ok (w1, m1, c)) : m1.WF := by
  unfold model.Update at h
  split at h
  · simp only [Except.ok.injEq, Prod.mk.injEq] at h
    obtain ⟨-, rfl, -⟩ := h
    exact hwf
  split at h
  · exact updateKey_WF hwf h
  · simp only [Except.ok.injEq] at h
    exact finish_WF_of_eq h hwf.1 hwf.2 hwf.3 hwf.4
  · exact updateMouse_WF hwf h
  · simp only [Except.ok.injEq] at h
    exact finish_WF_of_eq h hwf.1 hwf.2 hwf.3 hwf.4

theorem newModel_WF : newModel.WF := by
  refine ⟨?_, ?_, ?_, ?_, ?_, ?_⟩ <;> decide

theorem clamp_bounds (y n : Int) (hn : 1 ≤ n) :
    0 ≤ min (max 0 y) (n - 1) ∧ min (max 0 y) (n - 1) ≤ n - 1 := by
  unfold min max
  split <;> split <;> constructor <;> omega

theorem Textarea.eta_row (t : Textarea) : ({ t with row := t.row } : Textarea) = t := rfl

theorem cursorDownLoop_eq (fuel : Nat) (t : Textarea) (y : Int)
    (hy : y ≤ t.LineCount - 1) (hf : (y - t.row).toNat ≤ fuel) :
    cursorDownLoop fuel t y = .ok { t with row := max t.row y } := by
  induction fuel generalizing t with
  | zero =>
    have hle : y ≤ t.row := by omega
    have : ¬ (t.Line < y) := by simp only [Textarea.Line]; omega
    have e : max t.row y = t.row := by unfold max; split <;> omega
    simp only [cursorDownLoop, this, if_false, e]
  | succ n ih =>
    unfold cursorDownLoop
    by_cases hlt : t.Line < y
    · simp only [hlt, if_true]
      have hlt1 : t.row < y := hlt
      have hcd : t.CursorDown = { t with row := t.row + 1 } := by
        unfold Textarea.CursorDown
        rw [if_pos (by omega)]
      rw [hcd, ih]
      · have e1 : max (t.row + 1) y = y := by unfold max; split <;> omega
        have e2 : max t.row y = y := by unfold max; split <;> omega
        simp only [e1, e2]
      · simpa [Textarea.LineCount] using hy
      · simp only; omega
    · simp only [hlt, if_false]
      have hle : y ≤ t.row := by simp only [Textarea.Line] at hlt; omega
      have e : max t.row y = t.row := by unfold max; split <;> omega
      rw [e]

theorem cursorUpLoop_eq (fuel : Nat) (t : Textarea) (y : Int)
    (hy : 0 ≤ y) (hf : (t.row - y).toNat ≤ fuel) :
    cursorUpLoop fuel t y = .ok { t with row := min t.row y } := by
  induction fuel generalizing t with
  | zero =>
    have hle : t.row ≤ y := by omega
    have : ¬ (y < t.Line) := by simp only [Textarea.Line]; omega
    have e : min t.row y = t.row := by unfold min; split <;> omega
    simp only [cursorUpLoop, this, if_false, e]
  | succ n ih =>
    unfold cursorUpLoop
    by_cases hlt : y < t.Line
    · simp only [hlt, if_true]
      have hlt1 : y < t.row := hlt
      have hcd : t.CursorUp = { t with row := t.row - 1 } := by
        unfold Textarea.CursorUp
        rw [if_pos (by omega)]
      rw [hcd, ih]
      · have e1 : min (t.row - 1) y = y := by unfold min; split <;> omega
        have e2 : min t.row y = y := by unfold min; split <;> omega
        simp only [e1, e2]
      · simp only; omega
    · simp only [hlt, if_false]
      have hle : t.row ≤ y := by simp only [Textarea.Line] at hlt; omega
      have e : min t.row y = t.row := by unfold min; split <;> omega
      rw [e]

theorem clickFocused_eq (fuel : Nat) (m : model) (z : Option ZoneInfo) (e : MouseEvent)
    (t : Textarea) (ht : getAt m.inputs m.focus = some t) (hl : 1 ≤ t.LineCount)
    (hf : t.row.natAbs + t.value.length ≤ fuel) :
    m.clickFocused fuel z e =
      .ok ({ m with inputs := m.inputs.set m.focus.toNat (Textarea.SetCursor { t with row := clickRow t (Pos z e).2 } (wrap64 ((Pos z e).1 - 4))) }, .nil) := by
  have hb : 0 ≤ clickRow t (Pos z e).2 ∧ clickRow t (Pos z e).2 ≤ t.LineCount - 1 :=
    clamp_bounds (wrap64 ((Pos z e).2 - 1)) t.LineCount hl
  have hlc : t.LineCount = t.value.length := rfl
  have hcr : min (max 0 (wrap64 ((Pos z e).2 - 1))) (t.LineCount - 1) = clickRow t (Pos z e).2 := rfl
  unfold model.clickFocused
  simp only [ht, hcr]
  generalize clickRow t (Pos z e).2 = y at hb ⊢
  obtain ⟨hb0, hb1⟩ := hb
  have e1 : (max t.row y - y).toNat ≤ fuel := by unfold max; split <;> omega
  have e2 : min (max t.row y) y = y := by unfold min max; split <;> split <;> omega
  rw [cursorDownLoop_eq fuel t _ hb1 (by omega)]
  simp only
  rw [cursorUpLoop_eq fuel _ _ hb0 e1]
  simp only [e2]

theorem getAt_mem {α : Type} {l : List α} {i : Int} {a : α} (h : getAt l i = some a) : a ∈ l :=
  List.getElem?_mem (getAt_eq_some h).2.2

theorem modifyAt_forall {P : Textarea → Prop} {f : Textarea → Textarea} {l l1 : List Textarea}
    {i : Int} (hf : ∀ t, P t → P (f t)) (hl : ∀ t ∈ l, P t) (h : modifyAt f l i = some l1) :
    ∀ t ∈ l1, P t := by
  obtain ⟨a, ha, rfl⟩ := modifyAt_eq_some h
  intro t ht
  rcases List.mem_or_eq_of_mem_set ht with h1 | h1
  · exact hl t h1
  · rw [h1]; exact hf a (hl a (getAt_mem ha))

theorem removeAt_forall {P : Textarea → Prop} {l l1 : List Textarea} {i : Int}
    (hl : ∀ t ∈ l, P t) (h : removeAt l i = some l1) : ∀ t ∈ l1, P t := by
  obtain ⟨-, -, rfl⟩ := removeAt_eq_some h
  intro t ht
  exact hl t ((List.eraseIdx_sublist l _).subset ht)

theorem finish_forall {E : Env} {P : Textarea → Prop} (hP : PaneInv E P) {w w1 : World}
    {m m1 : model} {msg : Msg} {c : Cmd} (hl : ∀ t ∈ m.inputs, P t)
    (h : model.finish E w m msg = (w1, m1, c)) : ∀ t ∈ m1.inputs, P t := by
  have hm : m1 = (model.finish E w m msg).2.1 := by rw [h]
  rw [hm]
  unfold model.finish
  intro t ht
  cases hp : w.isPresent <;>
    simp only [hp, Bool.not_false, Bool.not_true, if_true, if_false, model.sizeInputs,
      model.updateKeybindings, List.mem_map, Bool.false_eq_true] at ht
  · obtain ⟨a, ⟨b, hb, rfl⟩, rfl⟩ := ht
    exact hP.update _ _ (hP.setHeight _ _ (hP.setWidth _ _ (hl b hb)))
  · obtain ⟨b, hb, rfl⟩ := ht
    exact hP.setHeight _ _ (hP.setWidth _ _ (hl b hb))

theorem cursorDownLoop_forall {E : Env} {P : Textarea → Prop} (hP : PaneInv E P) (fuel : Nat)
    (t t1 : Textarea) (y : Int) (ht : P t) (h : cursorDownLoop fuel t y = .ok t1) : P t1 := by
  induction fuel generalizing t with
  | zero =>
    unfold cursorDownLoop at h
    split at h
    · simp at h
    · simp only [Except.ok.injEq] at h; rw [← h]; exact ht
  | succ n ih =>
    unfold cursorDownLoop at h
    split at h
    · exact ih _ (hP.down t ht) h
    · simp only [Except.ok.injEq] at h; rw [← h]; exact ht

theorem cursorUpLoop_forall {E : Env} {P : Textarea → Prop} (hP : PaneInv E P) (fuel : Nat)
    (t t1 : Textarea) (y : Int) (ht : P t) (h : cursorUpLoop fuel t y = .ok t1) : P t1 := by
  induction fuel generalizing t with
  | zero =>
    unfold cursorUpLoop at h
    split at h
    · simp at h
    · simp only [Except.ok.injEq] at h; rw [← h]; exact ht
  | succ n ih =>
    unfold cursorUpLoop at h
    split at h
    · exact ih _ (hP.up t ht) h
    · simp only [Except.ok.injEq] at h; rw [← h]; exact ht

theorem clickFocused_forall {E : Env} {P : Textarea → Prop} (hP : PaneInv E P) {fuel : Nat}
    {m m1 : model} {z : Option ZoneInfo} {e : MouseEvent} {c : Cmd}
    (hl : ∀ t ∈ m.inputs, P t) (h : m.clickFocused fuel z e = .ok (m1, c)) :
    ∀ t ∈ m1.inputs, P t := by
  unfold model.clickFocused at h
  split at h
  split at h
  · simp at h
  rename_i t0 ht0
  dsimp only at h
  split at h
  · simp at h
  rename_i t1 ht1
  split at h
  · simp at h
  rename_i t2 ht2
  simp only [Except.ok.injEq, Prod.mk.injEq] at h
  obtain ⟨rfl, -⟩ := h
  intro t ht
  rcases List.mem_or_eq_of_mem_set ht with h1 | h1
  · exact hl t h1
  · rw [h1]
    exact hP.setCursor _ _ (cursorUpLoop_forall hP _ _ _ _
      (cursorDownLoop_forall hP _ _ _ _ (hl t0 (getAt_mem ht0)) ht1) ht2)

theorem clickOther_forall {E : Env} {P : Textarea → Prop} (hP : PaneInv E P)
    {m m1 : model} {i : Nat} {c : Cmd}
    (hl : ∀ t ∈ m.inputs, P t) (h : m.clickOther i = .ok (m1, c)) :
    ∀ t ∈ m1.inputs, P t := by
  unfold model.clickOther at h
  split at h
  · simp at h
  rename_i inputs1 hi1
  split at h
  · simp at h
  rename_i inputs2 hi2
  simp only [Except.ok.injEq, Prod.mk.injEq] at h
  obtain ⟨rfl, -⟩ := h
  exact modifyAt_forall hP.focus (modifyAt_forall hP.blur hl hi1) hi2

theorem clickZones_forall {E : Env} {P : Textarea → Prop} (hP : PaneInv E P) {fuel : Nat}
    {w : World} {m m1 : model} {e : MouseEvent} {c : Cmd}
    (hl : ∀ t ∈ m.inputs, P t) (zs : List ZoneId) (i : Nat)
    (h : model.clickZones fuel w m e zs i = .ok (some (m1, c))) : ∀ t ∈ m1.inputs, P t := by
  induction zs generalizing i with
  | nil => simp [model.clickZones] at h
  | cons id rest ih =>
    unfold model.clickZones at h
    split at h
    · split at h
      · simp at h
      rename_i r hr
      simp only [Except.ok.injEq, Option.some.injEq] at h
      subst h
      split at hr
      · exact clickFocused_forall hP hl hr
      · exact clickOther_forall hP hl hr
    · exact ih _ h

theorem updateKey_forall {E : Env} {P : Textarea → Prop} (hP : PaneInv E P)
    {w w1 : World} {m m1 : model} {k : Key} {c : Cmd}
    (hl : ∀ t ∈ m.inputs, P t) (h : model.updateKey E w m k = .ok (w1, m1, c)) :
    ∀ t ∈ m1.inputs, P t := by
  unfold model.updateKey at h
  split at h
  · simp only [Except.ok.injEq, Prod.mk.injEq] at h
    obtain ⟨-, rfl, -⟩ := h
    intro t ht
    simp only [List.mem_map] at ht
    obtain ⟨a, ha, rfl⟩ := ht
    exact hP.blur a (hl a ha)
  split at h
  · split at h
    · simp at h
    rename_i inputs1 hi1
    dsimp only at h
    split at h
    · simp at h
    rename_i inputs2 hi2
    simp only [Except.ok.injEq] at h
    exact finish_forall hP (modifyAt_forall hP.focus (modifyAt_forall hP.blur hl hi1) hi2) h
  split at h
  · split at h
    · simp at h
    rename_i inputs1 hi1
    dsimp only at h
    split at h
    · simp at h
    rename_i inputs2 hi2
    simp only [Except.ok.injEq] at h
    exact finish_forall hP (modifyAt_forall hP.focus (modifyAt_forall hP.blur hl hi1) hi2) h
  split at h
  · simp only [Except.ok.injEq] at h
    refine finish_forall hP ?_ h
    intro t ht
    simp only [List.mem_append, List.mem_singleton] at ht
    rcases ht with h1 | h1
    · exact hl t h1
    · rw [h1]; exact hP.fresh
  split at h
  · split at h
    · dsimp only at h
      split at h
      · simp at h
      rename_i inputs1 hi1
      split at h
      · simp at h
      split at h
      · simp at h
      rename_i inputs2 hi2
      simp only [Except.ok.injEq] at h
      exact finish_forall hP (modifyAt_forall hP.focus (removeAt_forall hl hi1) hi2) h
    · simp only [Except.ok.injEq] at h
      exact finish_forall hP hl h
  split at h
  · split at h
    · simp at h
    simp only [Except.ok.injEq] at h
    exact finish_forall hP hl h
  · simp only [Except.ok.injEq] at h
    exact finish_forall hP hl h

theorem updateMouse_forall {E : Env} {P : Textarea → Prop} (hP : PaneInv E P) {fuel : Nat}
    {w w1 : World} {m m1 : model} {e : MouseEvent} {c : Cmd}
    (hl : ∀ t ∈ m.inputs, P t) (h : model.updateMouse E fuel w m e = .ok (w1, m1, c)) :
    ∀ t ∈ m1.inputs, P t := by
  unfold model.updateMouse at h
  split at h
  · split at h
    · simp at h
    rename_i inputs1 hi1
    simp only [Except.ok.injEq, Prod.mk.injEq] at h
    obtain ⟨-, rfl, -⟩ := h
    exact modifyAt_forall hP.up hl hi1
  split at h
  · split at h
    · simp at h
    rename_i inputs1 hi1
    simp only [Except.ok.injEq, Prod.mk.injEq] at h
    obtain ⟨-, rfl, -⟩ := h
    exact modifyAt_forall hP.down hl hi1
  split at h
  · split at h
    · simp at h
    · rename_i m2 c2 hz
      simp only [Except.ok.injEq, Prod.mk.injEq] at h
      obtain ⟨-, rfl, -⟩ := h
      exact clickZones_forall hP hl _ _ hz
    · simp only [Except.ok.injEq] at h
      exact finish_forall hP hl h
  · simp only [Except.ok.injEq] at h
    exact finish_forall hP hl h

theorem Update_forall {E : Env} {P : Textarea → Prop} (hP : PaneInv E P) {fuel : Nat}
    {w w1 : World} {m m1 : model} {msg : Msg} {c : Cmd}
    (hl : ∀ t ∈ m.inputs, P t) (h : model.Update E fuel w m msg = .ok (w1, m1, c)) :
    ∀ t ∈ m1.inputs, P t := by
  unfold model.Update at h
  split at h
  · simp only [Except.ok.injEq, Prod.mk.injEq] at h
    obtain ⟨-, rfl, -⟩ := h
    exact hl
  split at h
  · exact updateKey_forall hP hl h
  · simp only [Except.ok.injEq] at h
    refine finish_forall hP ?_ h
    exact hl
  · exact updateMouse_forall hP hl h
  · simp only [Except.ok.injEq] at h
    exact finish_forall hP hl h

theorem Matches_iff (k : Key) (b : Binding) :
    Matches k b = true ↔ k.String ∈ b.keys ∧ b.disabled = false := by
  unfold Matches Binding.Enabled
  rw [List.any_eq_true]
  constructor
  · rintro ⟨v, hv, h⟩
    simp only [Bool.and_eq_true, beq_iff_eq, Bool.not_eq_true'] at h
    obtain ⟨rfl, hd, -⟩ := h
    exact ⟨hv, hd⟩
  · rintro ⟨hv, hd⟩
    refine ⟨k.String, hv, ?_⟩
    have hne : b.keys.isEmpty = false := by
      cases hk : b.keys with
      | nil => rw [hk] at hv; simp at hv
      | cons a l => rfl
    simp [hd, hne]

theorem updateKey_quit {E : Env} {w : World} {m : model} {k : Key}
    (hq : Matches k m.keymap.quit = true) :
    model.updateKey E w m k = .ok (w, { m with inputs := m.inputs.map Textarea.Blur }, .Quit) := by
  unfold model.updateKey
  rw [if_pos hq]

theorem updateKey_next {E : Env} {w : World} {m : model} {k : Key}
    (hq : Matches k m.keymap.quit = false) (hn : Matches k m.keymap.next = true)
    (h0 : 0 ≤ m.focus) (h1 : m.focus < m.inputs.length) :
    ∃ l1 l2, modifyAt Textarea.Blur m.inputs m.focus = some l1 ∧
      modifyAt Textarea.Focus l1 (if m.focus + 1 > (m.inputs.length : Int) - 1 then 0 else m.focus + 1)
        = some l2 ∧
      model.updateKey E w m k = .ok (model.finish E w { m with inputs := l2, focus := if m.focus + 1 > (m.inputs.length : Int) - 1 then 0 else m.focus + 1 } (.KeyMsg k)) := by
  obtain ⟨l1, hl1⟩ := modifyAt_of_bounds Textarea.Blur h0 h1
  have hlen := modifyAt_length hl1
  obtain ⟨l2, hl2⟩ := modifyAt_of_bounds Textarea.Focus (l := l1)
    (i := if m.focus + 1 > (m.inputs.length : Int) - 1 then 0 else m.focus + 1)
    (by split <;> omega) (by split <;> omega)
  refine ⟨l1, l2, hl1, hl2, ?_⟩
  unfold model.updateKey
  simp only [hq, hn, hl1, hlen, hl2, Bool.false_eq_true, if_false, if_true]

theorem updateKey_prev {E : Env} {w : World} {m : model} {k : Key}
    (hq : Matches k m.keymap.quit = false) (hn : Matches k m.keymap.next = false)
    (hp : Matches k m.keymap.prev = true)
    (h0 : 0 ≤ m.focus) (h1 : m.focus < m.inputs.length) :
    ∃ l1 l2, modifyAt Textarea.Blur m.inputs m.focus = some l1 ∧
      modifyAt Textarea.Focus l1 (if m.focus - 1 < 0 then (m.inputs.length : Int) - 1 else m.focus - 1)
        = some l2 ∧
      model.updateKey E w m k = .ok (model.finish E w { m with inputs := l2, focus := if m.focus - 1 < 0 then (m.inputs.length : Int) - 1 else m.focus - 1 } (.KeyMsg k)) := by
  obtain ⟨l1, hl1⟩ := modifyAt_of_bounds Textarea.Blur h0 h1
  have hlen := modifyAt_length hl1
  obtain ⟨l2, hl2⟩ := modifyAt_of_bounds Textarea.Focus (l := l1)
    (i := if m.focus - 1 < 0 then (m.inputs.length : Int) - 1 else m.focus - 1)
    (by split <;> omega) (by split <;> omega)
  refine ⟨l1, l2, hl1, hl2, ?_⟩
  unfold model.updateKey
  simp only [hq, hn, hp, hl1, hlen, hl2, Bool.false_eq_true, if_false, if_true]

theorem updateKey_add {E : Env} {w : World} {m : model} {k : Key}
    (hq : Matches k m.keymap.quit = false) (hn : Matches k m.keymap.next = false)
    (hp : Matches k m.keymap.prev = false) (ha : Matches k m.keymap.add = true) :
    model.updateKey E w m k =
      .ok (model.finish E w { m with inputs := m.inputs ++ [newTextarea] } (.KeyMsg k)) := by
  unfold model.updateKey
  simp only [hq, hn, hp, ha, Bool.false_eq_true, if_false, if_true]

theorem updateKey_remove {E : Env} {w : World} {m : model} {k : Key}
    (hq : Matches k m.keymap.quit = false) (hn : Matches k m.keymap.next = false)
    (hp : Matches k m.keymap.prev = false) (ha : Matches k m.keymap.add = false)
    (hr : Matches k m.keymap.remove = true) (hlen : 1 < m.inputs.length)
    (h0 : 0 ≤ m.focus) (h1 : m.focus < m.inputs.length) (hz : m.focus < w.zones.length) :
    ∃ l2, modifyAt Textarea.Focus (m.inputs.eraseIdx m.focus.toNat)
        (Int.tmod m.focus ((m.inputs.length : Int) - 1)) = some l2 ∧
      model.updateKey E w m k =
        .ok (model.finish E { w with zones := w.zones.eraseIdx m.focus.toNat }
          { m with inputs := l2, focus := Int.tmod m.focus ((m.inputs.length : Int) - 1) }
          (.KeyMsg k)) := by
  have hr1 := removeAt_of_bounds h0 h1
  have hr2 := removeAt_of_bounds h0 hz
  have hl := removeAt_length hr1
  have hlc : ((m.inputs.eraseIdx m.focus.toNat).length : Int) = (m.inputs.length : Int) - 1 := by
    omega
  have hpos : (0 : Int) < (m.inputs.length : Int) - 1 := by omega
  obtain ⟨l2, hl2⟩ := modifyAt_of_bounds Textarea.Focus (l := m.inputs.eraseIdx m.focus.toNat)
    (i := Int.tmod m.focus ((m.inputs.length : Int) - 1))
    (Int.tmod_nonneg _ h0) (by rw [hlc]; exact Int.tmod_lt_of_pos _ hpos)
  refine ⟨l2, hl2, ?_⟩
  unfold model.updateKey
  simp only [hq, hn, hp, ha, hr, hr1, hr2, hlc, hl2, Bool.false_eq_true, if_false, if_true,
    gt_iff_lt, hlen]

theorem updateKey_remove_single {E : Env} {w : World} {m : model} {k : Key}
    (hq : Matches k m.keymap.quit = false) (hn : Matches k m.keymap.next = false)
    (hp : Matches k m.keymap.prev = false) (ha : Matches k m.keymap.add = false)
    (hr : Matches k m.keymap.remove = true) (hlen : ¬ 1 < m.inputs.length) :
    model.updateKey E w m k = .ok (model.finish E w m (.KeyMsg k)) := by
  unfold model.updateKey
  simp only [hq, hn, hp, ha, hr, Bool.false_eq_true, if_false, if_true, gt_iff_lt, hlen]

theorem updateKey_save {E : Env} {w : World} {m : model} {k : Key}
    (hq : Matches k m.keymap.quit = false) (hn : Matches k m.keymap.next = false)
    (hp : Matches k m.keymap.prev = false) (ha : Matches k m.keymap.add = false)
    (hr : Matches k m.keymap.remove = false) (hs : Matches k m.keymap.save = true)
    {t : Textarea} (ht : getAt m.inputs m.focus = some t) :
    model.updateKey E w m k =
      .ok (model.finish E
        { w with store := initialModel m.focus, isPresent := true, text := t.Value }
        m (.KeyMsg k)) := by
  unfold model.updateKey
  simp only [hq, hn, hp, ha, hr, hs, ht, Bool.false_eq_true, if_false, if_true]

theorem updateKey_other {E : Env} {w : World} {m : model} {k : Key}
    (hq : Matches k m.keymap.quit = false) (hn : Matches k m.keymap.next = false)
    (hp : Matches k m.keymap.prev = false) (ha : Matches k m.keymap.add = false)
    (hr : Matches k m.keymap.remove = false) (hs : Matches k m.keymap.save = false) :
    model.updateKey E w m k = .ok (model.finish E w m (.KeyMsg k)) := by
  unfold model.updateKey
  simp only [hq, hn, hp, ha, hr, hs, Bool.false_eq_true, if_false]

theorem updateKey_total (E : Env) {w : World} {m : model} (k : Key)
    (hwf : m.WF) (hz : ZonesCover w m) : ∃ r, model.updateKey E w m k = .ok r := by
  obtain ⟨h1, h2, h3, h4, h5, h6⟩ := hwf
  cases hq : Matches k m.keymap.quit
  swap
  · exact ⟨_, updateKey_quit hq⟩
  cases hn : Matches k m.keymap.next
  swap
  · obtain ⟨l1, l2, -, -, h⟩ := updateKey_next (E := E) (w := w) hq hn h3 h4
    exact ⟨_, h⟩
  cases hp : Matches k m.keymap.prev
  swap
  · obtain ⟨l1, l2, -, -, h⟩ := updateKey_prev (E := E) (w := w) hq hn hp h3 h4
    exact ⟨_, h⟩
  cases ha : Matches k m.keymap.add
  swap
  · exact ⟨_, updateKey_add hq hn hp ha⟩
  cases hr : Matches k m.keymap.remove
  swap
  · by_cases hlen : 1 < m.inputs.length
    · have hzl : m.focus < w.zones.length := by
        rcases hz with hz | ⟨-, hz⟩
        · rw [hz]; exact h4
        · omega
      obtain ⟨l2, -, h⟩ := updateKey_remove (E := E) hq hn hp ha hr hlen h3 h4 hzl
      exact ⟨_, h⟩
    · exact ⟨_, updateKey_remove_single hq hn hp ha hr hlen⟩
  cases hs : Matches k m.keymap.save
  swap
  · obtain ⟨t, ht⟩ := getAt_of_bounds h3 h4
    exact ⟨_, updateKey_save hq hn hp ha hr hs ht⟩
  exact ⟨_, updateKey_other hq hn hp ha hr hs⟩

theorem linesInv {E : Env} (hE : E.KeepsLines) : PaneInv E (fun t => 1 ≤ t.LineCount) where
  blur := fun _ h => h
  focus := fun _ h => h
  up := fun t h => by
    unfold Textarea.CursorUp
    split
    · exact h
    · exact h
  down := fun t h => by
    unfold Textarea.CursorDown
    split
    · exact h
    · exact h
  setCursor := fun _ _ h => h
  setWidth := fun _ _ h => h
  setHeight := fun _ _ h => h
  update := hE
  fresh := by decide

theorem clickOther_total {m : model} (hwf : m.WF) {i : Nat} (hi : i < m.inputs.length) :
    ∃ r, m.clickOther i = .ok r := by
  obtain ⟨l1, hl1⟩ := modifyAt_of_bounds Textarea.Blur hwf.focus_nonneg hwf.focus_lt
  have hlen := modifyAt_length hl1
  obtain ⟨l2, hl2⟩ := modifyAt_of_bounds Textarea.Focus (l := l1) (i := (i : Int))
    (by omega) (by omega)
  unfold model.clickOther
  simp only [hl1, hl2]
  exact ⟨_, rfl⟩

theorem clickZones_total {w : World} {m : model} (e : MouseEvent) (hwf : m.WF)
    (hl : m.Lines) (zs : List ZoneId) (i : Nat) (hi : i + zs.length ≤ m.inputs.length) :
    ∃ N r, ∀ fuel, N ≤ fuel → model.clickZones fuel w m e zs i = .ok r := by
  induction zs generalizing i with
  | nil => exact ⟨0, none, fun _ _ => rfl⟩
  | cons id rest ih =>
    simp only [List.length_cons] at hi
    by_cases hb : InBounds (w.Get id) e = true
    · by_cases hf : (i : Int) = m.focus
      · obtain ⟨t, ht⟩ := getAt_of_bounds hwf.focus_nonneg hwf.focus_lt
        refine ⟨t.row.natAbs + t.value.length, some ({ m with inputs := m.inputs.set m.focus.toNat (Textarea.SetCursor { t with row := clickRow t (Pos (w.Get id) e).2 } (wrap64 ((Pos (w.Get id) e).1 - 4))) }, .nil), fun fuel hfuel => ?_⟩
        unfold model.clickZones
        simp only [hb, hf, if_true]
        rw [clickFocused_eq fuel m _ e t ht (hl t (getAt_mem ht)) hfuel]
      · obtain ⟨r, hr⟩ := clickOther_total hwf (i := i) (by omega)
        refine ⟨0, some r, fun fuel _ => ?_⟩
        unfold model.clickZones
        simp only [hb, hf, if_true, if_false, hr]
    · obtain ⟨N, r, h⟩ := ih (i + 1) (by omega)
      refine ⟨N, r, fun fuel hfuel => ?_⟩
      unfold model.clickZones
      simp only [hb, Bool.false_eq_true, if_false]
      exact h fuel hfuel

theorem updateMouse_total (E : Env) {w : World} {m : model} (e : MouseEvent) (hwf : m.WF)
    (hz : ZonesCover w m) (hl : m.Lines) :
    ∃ N r, ∀ fuel, N ≤ fuel → model.updateMouse E fuel w m e = .ok r := by
  unfold model.updateMouse
  by_cases h1 : e.typ = .MouseWheelUp
  · obtain ⟨l1, hl1⟩ := modifyAt_of_bounds Textarea.CursorUp hwf.focus_nonneg hwf.focus_lt
    simp only [if_pos h1, hl1]
    exact ⟨0, _, fun _ _ => rfl⟩
  by_cases h2 : e.typ = .MouseWheelDown
  · obtain ⟨l1, hl1⟩ := modifyAt_of_bounds Textarea.CursorDown hwf.focus_nonneg hwf.focus_lt
    simp only [if_neg h1, if_pos h2, hl1]
    exact ⟨0, _, fun _ _ => rfl⟩
  by_cases h3 : e.typ = .MouseLeft
  · have hc : 0 + w.zones.length ≤ m.inputs.length := by
      rcases hz with hz | ⟨hz, -⟩
      · omega
      · rw [hz]; simp
    obtain ⟨N, r, h⟩ := clickZones_total (w := w) e hwf hl w.zones 0 hc
    simp only [if_neg h1, if_neg h2, if_pos h3]
    cases r with
    | none => exact ⟨N, _, fun fuel hfuel => by rw [h fuel hfuel]⟩
    | some r =>
      obtain ⟨m1, c⟩ := r
      exact ⟨N, (w, m1, c), fun fuel hfuel => by rw [h fuel hfuel]⟩
  · simp only [if_neg h1, if_neg h2, if_neg h3]
    exact ⟨0, _, fun _ _ => rfl⟩

theorem Update_total (E : Env) {w : World} {m : model} (msg : Msg) (hwf : m.WF)
    (hz : w.isPresent = false → ZonesCover w m) (hl : m.Lines) :
    ∃ N r, ∀ fuel, N ≤ fuel → model.Update E fuel w m msg = .ok r := by
  unfold model.Update
  cases hp : w.isPresent
  swap
  · simp only [if_true]
    exact ⟨0, _, fun _ _ => rfl⟩
  simp only [Bool.false_eq_true, if_false]
  cases msg with
  | KeyMsg k =>
    obtain ⟨r, hr⟩ := updateKey_total E k hwf (hz hp)
    exact ⟨0, r, fun _ _ => hr⟩
  | WindowSizeMsg a b => exact ⟨0, _, fun _ _ => rfl⟩
  | MouseMsg e => exact updateMouse_total E e hwf (hz hp) hl
  | Other n => exact ⟨0, _, fun _ _ => rfl⟩

theorem viewZones_fields (E : Env) (inputs l : List Textarea) (i : Nat) (w : World) :
    (viewZones E inputs l i w).zones.length = w.zones.length + l.length ∧
    (viewZones E inputs l i w).isPresent = w.isPresent ∧
    (viewZones E inputs l i w).store = w.store ∧
    (viewZones E inputs l i w).text = w.text ∧
    (viewZones E inputs l i w).fs = w.fs := by
  induction l generalizing i w with
  | nil => simp [viewZones]
  | cons a rest ih =>
    unfold viewZones
    obtain ⟨h1, h2, h3, h4, h5⟩ := ih (i + 1) _
    refine ⟨?_, ?_, ?_, ?_, ?_⟩
    · rw [h1]; simp; omega
    · rw [h2]
    · rw [h3]
    · rw [h4]
    · rw [h5]

theorem View_fields (E : Env) (w : World) (m : model) :
    (model.View E w m).isPresent = w.isPresent ∧ (model.View E w m).store = w.store ∧
    (model.View E w m).text = w.text ∧ (model.View E w m).fs = w.fs := by
  unfold model.View
  dsimp only
  split
  · exact ⟨rfl, rfl, rfl, rfl⟩
  · obtain ⟨-, h2, h3, h4, h5⟩ := viewZones_fields E m.inputs m.inputs 0 { w with zones := [] }
    exact ⟨h2, h3, h4, h5⟩

theorem View_zones (E : Env) (w : World) (m : model) (hp : w.isPresent = false) :
    (model.View E w m).zones.length = m.inputs.length := by
  unfold model.View
  dsimp only
  rw [if_neg (by rw [hp]; decide)]
  rw [(viewZones_fields E m.inputs m.inputs 0 _).1]
  simp

theorem step_eq_ok {E : Env} {fuel : Nat} {s s1 : World × model} {msg : Msg}
    (h : step E fuel s msg = .ok s1) :
    ∃ w c, model.Update E fuel s.1 s.2 msg = .ok (w, s1.2, c) ∧ s1.1 = model.View E w s1.2 := by
  unfold step at h
  split at h
  · simp at h
  rename_i w m c hu
  simp only [Except.ok.injEq] at h
  subst h
  exact ⟨w, c, hu, rfl⟩

theorem step_inv {E : Env} {fuel : Nat} {s s1 : World × model} {msg : Msg}
    (hs : LoopInv s) (h : step E fuel s msg = .ok s1) : LoopInv s1 := by
  obtain ⟨w, c, hu, hv⟩ := step_eq_ok h
  refine ⟨Update_WF hs.wf hu, fun hp => Or.inl ?_⟩
  rw [hv] at hp ⊢
  rw [(View_fields E w s1.2).1] at hp
  exact View_zones E w s1.2 hp

theorem step_forall {E : Env} {P : Textarea → Prop} (hP : PaneInv E P) {fuel : Nat}
    {s s1 : World × model} {msg : Msg} (hl : ∀ t ∈ s.2.inputs, P t)
    (h : step E fuel s msg = .ok s1) : ∀ t ∈ s1.2.inputs, P t := by
  obtain ⟨w, c, hu, -⟩ := step_eq_ok h
  exact Update_forall hP hl hu

theorem step_total (E : Env) {s : World × model} (msg : Msg) (hs : LoopInv s)
    (hl : s.2.Lines) : ∃ N s1, ∀ fuel, N ≤ fuel → step E fuel s msg = .ok s1 := by
  obtain ⟨N, ⟨w, m, c⟩, h⟩ := Update_total E msg hs.wf hs.zones hl
  refine ⟨N, (model.View E w m, m), fun fuel hf => ?_⟩
  unfold step
  rw [h fuel hf]

theorem eventLoop_inv {E : Env} {fuel : Nat} (msgs : List Msg) {s s1 : World × model}
    (hs : LoopInv s) (h : eventLoop E fuel s msgs = .ok s1) : LoopInv s1 := by
  induction msgs generalizing s with
  | nil =>
    simp only [eventLoop, Except.ok.injEq] at h
    rw [← h]; exact hs
  | cons msg rest ih =>
    unfold eventLoop at h
    split at h
    · simp at h
    rename_i s2 hs2
    exact ih (step_inv hs hs2) h

theorem eventLoop_total {E : Env} (hE : E.KeepsLines) (msgs : List Msg) {s : World × model}
    (hs : LoopInv s) (hl : s.2.Lines) :
    ∃ N s1, ∀ fuel, N ≤ fuel → eventLoop E fuel s msgs = .ok s1 := by
  induction msgs generalizing s with
  | nil => exact ⟨0, s, fun _ _ => rfl⟩
  | cons msg rest ih =>
    obtain ⟨N1, s1, h1⟩ := step_total E msg hs hl
    have hstep := h1 N1 (Nat.le_refl _)
    obtain ⟨N2, s2, h2⟩ := ih (step_inv hs hstep) (step_forall (linesInv hE) hl hstep)
    refine ⟨N1 + N2, s2, fun fuel hf => ?_⟩
    unfold eventLoop
    rw [h1 fuel (by omega)]
    exact h2 fuel (by omega)

theorem init_inv (fs : FileSystem) : LoopInv (initWorld fs, newModel) :=
  ⟨newModel_WF, fun _ => Or.inr ⟨rfl, rfl⟩⟩

theorem newModel_lines : newModel.Lines := by
  intro t ht
  have : t = newTextarea.Focus := by
    have h : newModel.inputs = [newTextarea.Focus] := by decide
    rw [h] at ht
    simpa using ht
  rw [this]
  decide

/-- C1. Whatever finite sequence of events the event loop handles from `newModel`
(each `Update` followed by `View`), the loop returns once the fuel covers the cursor
loops of the click handler, and the session it returns has between 1 and 6 panes and a
focus index inside the pane list.  The hypothesis is about the widget only: its own event
handling never leaves a pane without a line (with no line the click handler would not
return). -/
theorem C1_pane_count_and_focus_in_bounds (E : Env) (hE : E.KeepsLines) (fs : FileSystem)
    (msgs : List Msg) :
    ∃ N s, (∀ fuel, N ≤ fuel → eventLoop E fuel (initWorld fs, newModel) msgs = .ok s) ∧
      1 ≤ s.2.inputs.length ∧ s.2.inputs.length ≤ 6 ∧
      0 ≤ s.2.focus ∧ s.2.focus < s.2.inputs.length := by
  obtain ⟨N, s, h⟩ := eventLoop_total hE msgs (init_inv fs) newModel_lines
  have hinv := eventLoop_inv msgs (init_inv fs) (h N (Nat.le_refl _))
  exact ⟨N, s, h, hinv.wf.len_pos, hinv.wf.len_le, hinv.wf.focus_nonneg, hinv.wf.focus_lt⟩

theorem typeRunes_length (l : List (List Char)) (n : Nat) (rs : List Char) :
    (typeRunes l n rs).length = l.length := by
  induction l generalizing n with
  | nil => rfl
  | cons a rest ih =>
    cases n with
    | zero => rfl
    | succ n => simp [typeRunes, ih]

theorem demoEnv_keepsLines : demoEnv.KeepsLines := by
  intro t msg h
  show 1 ≤ (demoTextarea t msg).LineCount
  unfold demoTextarea
  cases msg with
  | KeyMsg k =>
    simp only
    split
    · split
      · simp only [Textarea.LineCount, typeRunes_length]; exact h
      · simp only [Textarea.LineCount, List.length_append, List.length_singleton] at h ⊢
        push_cast
        omega
      · exact h
    · exact h
  | _ => exact h

/-- C1 at a concrete run of the worked examples. -/
theorem C1_witness :
    ∃ N s, (∀ fuel, N ≤ fuel →
        eventLoop demoEnv fuel (initWorld ⟨[]⟩, newModel)
          [.WindowSizeMsg 80 24, press .KeyCtrlN, runes "ab", press .KeyEnter,
           .MouseMsg ⟨10, 1, .MouseLeft⟩, .MouseMsg ⟨50, 3, .MouseLeft⟩, press .KeyCtrlW] = .ok s) ∧
      1 ≤ s.2.inputs.length ∧ s.2.inputs.length ≤ 6 ∧
      0 ≤ s.2.focus ∧ s.2.focus < s.2.inputs.length :=
  C1_pane_count_and_focus_in_bounds demoEnv demoEnv_keepsLines ⟨[]⟩ _

theorem updateKeybindings_Std {m : model} (h : m.keymap.Std) : m.updateKeybindings.keymap.Std := by
  obtain ⟨⟨a, b, c, d, e, f⟩, g⟩ := h
  exact ⟨⟨a, b, c, d, e, f⟩, g⟩

theorem finish_Std {E : Env} {w w1 : World} {m m1 : model} {msg : Msg} {c : Cmd}
    (h : model.finish E w m msg = (w1, m1, c)) (hk : m.keymap.Std) : m1.keymap.Std := by
  have hm : m1 = (model.finish E w m msg).2.1 := by rw [h]
  rw [hm, finish_keymap]
  exact updateKeybindings_Std hk

theorem updateKey_Std {E : Env} {w w1 : World} {m m1 : model} {k : Key} {c : Cmd}
    (hk : m.keymap.Std) (h : model.updateKey E w m k = .ok (w1, m1, c)) : m1.keymap.Std := by
  unfold model.updateKey at h
  split at h
  · simp only [Except.ok.injEq, Prod.mk.injEq] at h
    obtain ⟨-, rfl, -⟩ := h
    exact hk
  split at h
  · split at h
    · simp at h
    dsimp only at h
    split at h
    · simp at h
    simp only [Except.ok.injEq] at h
    exact finish_Std h hk
  split at h
  · split at h
    · simp at h
    dsimp only at h
    split at h
    · simp at h
    simp only [Except.ok.injEq] at h
    exact finish_Std h hk
  split at h
  · simp only [Except.ok.injEq] at h
    exact finish_Std h hk
  split at h
  · split at h
    · dsimp only at h
      split at h
      · simp at h
      split at h
      · simp at h
      split at h
      · simp at h
      simp only [Except.ok.injEq] at h
      exact finish_Std h hk
    · simp only [Except.ok.injEq] at h
      exact finish_Std h hk
  split at h
  · split at h
    · simp at h
    simp only [Except.ok.injEq] at h
    exact finish_Std h hk
  · simp only [Except.ok.injEq] at h
    exact finish_Std h hk

theorem clickZones_keymap {fuel : Nat} {w : World} {m m1 : model} {e : MouseEvent} {c : Cmd}
    (zs : List ZoneId) (i : Nat)
    (h : model.clickZones fuel w m e zs i = .ok (some (m1, c))) : m1.keymap = m.keymap := by
  induction zs generalizing i with
  | nil => simp [model.clickZones] at h
  | cons id rest ih =>
    unfold model.clickZones at h
    split at h
    · split at h
      · simp at h
      rename_i r hr
      simp only [Except.ok.injEq, Option.some.injEq] at h
      subst h
      split at hr
      · exact (clickFocused_fields hr).2.2.1
      · exact (clickOther_fields hr).2.2.2.1
    · exact ih _ h

theorem updateMouse_Std {E : Env} {fuel : Nat} {w w1 : World} {m m1 : model} {e : MouseEvent}
    {c : Cmd} (hk : m.keymap.Std) (h : model.updateMouse E fuel w m e = .ok (w1, m1, c)) :
    m1.keymap.Std := by
  unfold model.updateMouse at h
  split at h
  · split at h
    · simp at h
    simp only [Except.ok.injEq, Prod.mk.injEq] at h
    obtain ⟨-, rfl, -⟩ := h
    exact hk
  split at h
  · split at h
    · simp at h
    simp only [Except.ok.injEq, Prod.mk.injEq] at h
    obtain ⟨-, rfl, -⟩ := h
    exact hk
  split at h
  · split at h
    · simp at h
    · rename_i m2 c2 hz
      simp only [Except.ok.injEq, Prod.mk.injEq] at h
      obtain ⟨-, rfl, -⟩ := h
      rw [clickZones_keymap _ _ hz]
      exact hk
    · simp only [Except.ok.injEq] at h
      exact finish_Std h hk
  · simp only [Except.ok.injEq] at h
    exact finish_Std h hk

theorem Update_Std {E : Env} {fuel : Nat} {w w1 : World} {m m1 : model} {msg : Msg}
    {c : Cmd} (hk : m.keymap.Std) (h : model.Update E fuel w m msg = .ok (w1, m1, c)) :
    m1.keymap.Std := by
  unfold model.Update at h
  split at h
  · simp only [Except.ok.injEq, Prod.mk.injEq] at h
    obtain ⟨-, rfl, -⟩ := h
    exact hk
  split at h
  · exact updateKey_Std hk h
  · simp only [Except.ok.injEq] at h
    exact finish_Std h hk
  · exact updateMouse_Std hk h
  · simp only [Except.ok.injEq] at h
    exact finish_Std h hk

theorem newModel_Std : newModel.keymap.Std := by
  refine ⟨⟨?_, ?_, ?_, ?_, ?_, ?_⟩, ?_, ?_, ?_, ?_⟩ <;> decide

theorem step_Std {E : Env} {fuel : Nat} {s s1 : World × model} {msg : Msg}
    (hk : s.2.keymap.Std) (h : step E fuel s msg = .ok s1) : s1.2.keymap.Std := by
  obtain ⟨w, c, hu, -⟩ := step_eq_ok h
  exact Update_Std hk hu

theorem eventLoop_Std {E : Env} {fuel : Nat} (msgs : List Msg) {s s1 : World × model}
    (hk : s.2.keymap.Std) (h : eventLoop E fuel s msgs = .ok s1) : s1.2.keymap.Std := by
  induction msgs generalizing s with
  | nil =>
    simp only [eventLoop, Except.ok.injEq] at h
    rw [← h]; exact hk
  | cons msg rest ih =>
    unfold eventLoop at h
    split at h
    · simp at h
    rename_i s2 hs2
    exact ih (step_Std hk hs2) h

/-- Key-name facts: which bindings a key of a given name matches under the standard keys. -/
theorem Matches_std {k : Key} {km : keymap} (hk : stdKeys km) :
    (Matches k km.quit = true ↔ (k.String = "esc" ∨ k.String = "ctrl+c") ∧ km.quit.disabled = false) ∧
    (Matches k km.next = true ↔ k.String = "tab" ∧ km.next.disabled = false) ∧
    (Matches k km.prev = true ↔ k.String = "shift+tab" ∧ km.prev.disabled = false) ∧
    (Matches k km.add = true ↔ k.String = "ctrl+n" ∧ km.add.disabled = false) ∧
    (Matches k km.remove = true ↔ k.String = "ctrl+w" ∧ km.remove.disabled = false) ∧
    (Matches k km.save = true ↔ k.String = "ctrl+s" ∧ km.save.disabled = false) := by
  obtain ⟨a, b, c, d, e, f⟩ := hk
  simp only [Matches_iff, a, b, c, d, e, f, List.mem_cons, List.mem_singleton, List.not_mem_nil,
    or_false, and_self]

theorem prompt_other (E : Env) (w : World) (s : modelTextInput) (msg : Msg)
    (h1 : msg.isConfirm = false) (h2 : msg.isCancel = false) :
    (modelTextInput.Update E w s msg).1 = w := by
  cases msg with
  | KeyMsg k =>
    simp only [Msg.isConfirm, Msg.isCancel, decide_eq_false_iff_not, not_or] at h1 h2
    unfold modelTextInput.Update
    cases hk : k.typ <;> simp_all
  | _ => rfl

theorem prompt_cancel (E : Env) (w : World) (s : modelTextInput) (msg : Msg)
    (h : msg.isCancel = true) :
    (modelTextInput.Update E w s msg).1 = { w with isPresent := false } := by
  cases msg with
  | KeyMsg k =>
    simp only [Msg.isCancel, decide_eq_true_eq] at h
    unfold modelTextInput.Update
    rcases h with h | h <;> simp [h]
  | _ => simp [Msg.isCancel] at h

theorem prompt_confirm (E : Env) (w : World) (s : modelTextInput) (msg : Msg)
    (h : msg.isConfirm = true) :
    (modelTextInput.Update E w s msg).1 =
      { w with fs := osWriteFile E (osCreate E w.fs s.textInput.Value) s.textInput.Value w.text,
               isPresent := false } := by
  cases msg with
  | KeyMsg k =>
    simp only [Msg.isConfirm, decide_eq_true_eq] at h
    unfold modelTextInput.Update
    simp [h]
  | _ => simp [Msg.isConfirm] at h

theorem Update_prompt (E : Env) (fuel : Nat) (w : World) (m : model) (msg : Msg)
    (hp : w.isPresent = true) :
    model.Update E fuel w m msg = .ok (promptNext E w msg, m, .nil) := by
  unfold model.Update
  simp only [hp, if_true]
  rfl

theorem step_prompt (E : Env) (w : World) (m : model) (msg : Msg) (hp : w.isPresent = true) :
    ∃ w1, (∀ fuel, step E fuel (w, m) msg = .ok (w1, m)) ∧
      w1.fs = (modelTextInput.Update E w w.store msg).1.fs ∧
      w1.isPresent = (modelTextInput.Update E w w.store msg).1.isPresent ∧
      w1.text = (modelTextInput.Update E w w.store msg).1.text := by
  refine ⟨model.View E (promptNext E w msg) m, fun fuel => ?_, ?_, ?_, ?_⟩
  · unfold step
    simp only [Update_prompt E fuel w m msg hp]
  · rw [(View_fields E _ m).2.2.2]; rfl
  · rw [(View_fields E _ m).1]; rfl
  · rw [(View_fields E _ m).2.2.1]; rfl

theorem step_prompt_other (E : Env) (w : World) (m : model) (msg : Msg)
    (hp : w.isPresent = true) (h1 : msg.isConfirm = false) (h2 : msg.isCancel = false) :
    ∃ w1, (∀ fuel, step E fuel (w, m) msg = .ok (w1, m)) ∧
      w1.fs = w.fs ∧ w1.isPresent = true ∧ w1.text = w.text := by
  obtain ⟨w1, h, a, b, c⟩ := step_prompt E w m msg hp
  rw [prompt_other E w w.store msg h1 h2] at a b c
  exact ⟨w1, h, a, by rw [b, hp], c⟩

theorem eventLoop_prompt_mid (E : Env) (m : model) (mid : List Msg) (w : World)
    (hp : w.isPresent = true)
    (hmid : ∀ msg ∈ mid, msg.isConfirm = false ∧ msg.isCancel = false) :
    ∃ w1, (∀ fuel, eventLoop E fuel (w, m) mid = .ok (w1, m)) ∧
      w1.fs = w.fs ∧ w1.isPresent = true ∧ w1.text = w.text := by
  induction mid generalizing w with
  | nil => exact ⟨w, fun _ => rfl, rfl, hp, rfl⟩
  | cons msg rest ih =>
    obtain ⟨h1, h2⟩ := hmid msg (List.mem_cons_self _ _)
    obtain ⟨w1, hs, a, b, c⟩ := step_prompt_other E w m msg hp h1 h2
    obtain ⟨w2, hl, a2, b2, c2⟩ := ih w1 b (fun x hx => hmid x (List.mem_cons_of_mem _ hx))
    refine ⟨w2, fun fuel => ?_, by rw [a2, a], b2, by rw [c2, c]⟩
    unfold eventLoop
    rw [hs fuel]
    exact hl fuel

theorem eventLoop_append (E : Env) (fuel : Nat) (l1 l2 : List Msg) (s s1 : World × model)
    (h : eventLoop E fuel s l1 = .ok s1) :
    eventLoop E fuel s (l1 ++ l2) = eventLoop E fuel s1 l2 := by
  induction l1 generalizing s with
  | nil =>
    simp only [eventLoop, Except.ok.injEq] at h
    rw [h]; rfl
  | cons msg rest ih =>
    unfold eventLoop at h
    split at h
    · simp at h
    rename_i s2 hs2
    simp only [List.cons_append]
    rw [eventLoop]
    simp only [hs2]
    exact ih s2 h

theorem eventLoop_single (E : Env) (fuel : Nat) (s : World × model) (msg : Msg) :
    eventLoop E fuel s [msg] = step E fuel s msg := by
  unfold eventLoop
  cases step E fuel s msg <;> rfl

/-- Save key on an idle session: the prompt opens over a snapshot of the focused pane. -/
theorem step_save (E : Env) (w : World) (m : model) (k : Key) (t : Textarea)
    (hidle : w.isPresent = false) (hkeys : stdKeys m.keymap)
    (hen : m.keymap.save.disabled = false) (hk : k.String = "ctrl+s")
    (ht : getAt m.inputs m.focus = some t) :
    ∃ w1, (∀ fuel, step E fuel (w, m) (.KeyMsg k) = .ok (w1, m.updateKeybindings.sizeInputs)) ∧
      w1.isPresent = true ∧ w1.text = t.Value ∧ w1.fs = w.fs ∧
      w1.store = initialModel m.focus := by
  obtain ⟨e1, e2, e3, e4, e5, e6⟩ := Matches_std (k := k) hkeys
  rw [hk] at e1 e2 e3 e4 e5 e6
  simp at e1 e2 e3 e4 e5 e6
  replace e6 : Matches k m.keymap.save = true := by rw [e6, hen]; rfl
  have hu : ∀ fuel, model.Update E fuel w m (.KeyMsg k) = .ok
      ({ w with store := initialModel m.focus, isPresent := true, text := t.Value },
        m.updateKeybindings.sizeInputs, .Batch) := by
    intro fuel
    unfold model.Update
    simp only [hidle, Bool.false_eq_true, if_false]
    rw [updateKey_save e1 e2 e3 e4 e5 e6 ht]
    rfl
  refine ⟨model.View E { w with store := initialModel m.focus, isPresent := true, text := t.Value }
    m.updateKeybindings.sizeInputs, fun fuel => ?_, ?_, ?_, ?_, ?_⟩
  · unfold step
    simp only [hu fuel]
  · rw [(View_fields E _ _).1]
  · rw [(View_fields E _ _).2.2.1]
  · rw [(View_fields E _ _).2.2.2]
  · rw [(View_fields E _ _).2.1]

theorem put_read (fs : FileSystem) (file : FileId) (data : String) :
    (fs.put file data).read file = some data := by
  simp [FileSystem.put, FileSystem.read, List.lookup]

theorem sizeInputs_shown (m : model) :
    m.updateKeybindings.sizeInputs.inputs.map Textarea.shown = m.inputs.map Textarea.shown := by
  simp only [model.sizeInputs, model.updateKeybindings, List.map_map]
  apply List.map_congr_left
  intro t _
  rfl

theorem sizeInputs_of_Sized (m : model) (h : m.Sized) :
    m.updateKeybindings.sizeInputs.inputs = m.inputs := by
  simp only [model.sizeInputs, model.updateKeybindings]
  conv_rhs => rw [← List.map_id m.inputs]
  apply List.map_congr_left
  intro t ht
  obtain ⟨a, b⟩ := h t ht
  simp only [Textarea.SetWidth, Textarea.SetHeight, id, ← a, ← b]

theorem osWriteFile_read (E : Env) (fs : FileSystem) (name data : String)
    (h : E.writeOk fs name data = true) :
    (osWriteFile E fs name data).read (E.resolve name) = some data := by
  unfold osWriteFile
  rw [if_pos h]
  exact put_read fs _ data

/-- C2, amended.  On an idle session whose focused pane `t` holds `C = t.Value`, the
save key followed by any events that neither confirm nor cancel leaves the file system
as it was; with `F` the text then held by the filename input, a confirm key leaves the
file that `F` names holding exactly `C` (whatever was there before) provided
`os.WriteFile` succeeds on `F`, and a cancel key leaves the file system unchanged.  No
event of the flow needs fuel. -/
theorem C2_save_round_trip (E : Env) (w : World) (m : model) (k : Key) (t : Textarea)
    (mid : List Msg)
    (hidle : w.isPresent = false) (hkeys : stdKeys m.keymap)
    (hen : m.keymap.save.disabled = false) (hk : k.String = "ctrl+s")
    (ht : getAt m.inputs m.focus = some t)
    (hmid : ∀ msg ∈ mid, msg.isConfirm = false ∧ msg.isCancel = false) :
    ∃ s1, (∀ fuel, eventLoop E fuel (w, m) (.KeyMsg k :: mid) = .ok s1) ∧ s1.1.fs = w.fs ∧
      (∀ e, e.isConfirm = true → ∃ s2, (∀ fuel, step E fuel s1 e = .ok s2) ∧
        (E.writeOk (osCreate E w.fs s1.1.store.textInput.Value)
            s1.1.store.textInput.Value t.Value = true →
          s2.1.fs.read (E.resolve s1.1.store.textInput.Value) = some t.Value)) ∧
      (∀ e, e.isCancel = true → ∃ s2, (∀ fuel, step E fuel s1 e = .ok s2) ∧ s2.1.fs = w.fs) := by
  obtain ⟨w1, hs, p1, t1, f1, -⟩ := step_save E w m k t hidle hkeys hen hk ht
  obtain ⟨w2, hl, f2, p2, t2⟩ :=
    eventLoop_prompt_mid E m.updateKeybindings.sizeInputs mid w1 p1 hmid
  refine ⟨(w2, m.updateKeybindings.sizeInputs), fun fuel => ?_, by rw [f2, f1], ?_, ?_⟩
  · unfold eventLoop
    rw [hs fuel]
    exact hl fuel
  · intro e he
    obtain ⟨w3, h3, f3, -, -⟩ := step_prompt E w2 m.updateKeybindings.sizeInputs e p2
    refine ⟨(w3, _), h3, fun hok => ?_⟩
    rw [prompt_confirm E w2 w2.store e he] at f3
    simp only at f3 ⊢
    rw [f3, f2, f1, t2, t1]
    exact osWriteFile_read E _ _ _ hok
  · intro e he
    obtain ⟨w3, h3, f3, -, -⟩ := step_prompt E w2 m.updateKeybindings.sizeInputs e p2
    refine ⟨(w3, _), h3, ?_⟩
    rw [prompt_cancel E w2 w2.store e he] at f3
    simp only at f3 ⊢
    rw [f3, f2, f1]

/-- C2 as stated fails for the empty filename: the focused pane holds `hello`, the save
key opens the prompt with an empty filename, and after the confirm key the prompt is
closed and no file exists at the empty path. -/
theorem C2_counterexample_empty_filename :
    (getAt helloTyped.2.inputs helloTyped.2.focus).map Textarea.Value = some "hello" ∧
    (eventLoop demoEnv 0 helloTyped [press .KeyCtrlS]).map
        (fun s => (s.1.isPresent, s.1.store.textInput.Value)) = .ok (true, "") ∧
    (eventLoop demoEnv 0 helloTyped [press .KeyCtrlS, press .KeyEnter]).map
        (fun s => (s.1.isPresent, s.1.fs.read (demoEnv.resolve ""))) = .ok (false, none) := by
  refine ⟨?_, ?_, ?_⟩ <;> rfl

/-- C2 at the save scenario: `hello` typed, save, `out.txt` typed, confirm. -/
theorem C2_witness :
    ∃ s1 s2, eventLoop demoEnv 0 helloTyped [press .KeyCtrlS, runes "out.txt"] = .ok s1 ∧
      step demoEnv 0 s1 (press .KeyEnter) = .ok s2 ∧
      s2.1.fs.read (demoEnv.resolve "out.txt") = some "hello" := by
  obtain ⟨s1, h1, -, hc, -⟩ := C2_save_round_trip demoEnv helloTyped.1 helloTyped.2
    (plainKey .KeyCtrlS) (helloTyped.2.inputs.headD newTextarea) [runes "out.txt"]
    rfl ⟨rfl, rfl, rfl, rfl, rfl, rfl⟩ rfl (by decide) (by rfl) (by decide)
  obtain ⟨s2, h2, hr⟩ := hc (press .KeyEnter) rfl
  have e1 : s1.1.store.textInput.Value = "out.txt" := by
    have h3 : (eventLoop demoEnv 0 helloTyped [press .KeyCtrlS, runes "out.txt"]).map
        (fun s => s.1.store.textInput.Value) = .ok "out.txt" := by rfl
    rw [show eventLoop demoEnv 0 helloTyped [press .KeyCtrlS, runes "out.txt"] = .ok s1
      from h1 0] at h3
    simpa [Except.map] using h3
  rw [e1] at hr
  exact ⟨s1, s2, h1 0, h2 0, hr (by decide)⟩

theorem eventLoop_prompt (E : Env) (m : model) (msgs : List Msg) (w : World)
    (hp : w.isPresent = true)
    (hmid : ∀ msg ∈ msgs.dropLast, msg.isConfirm = false ∧ msg.isCancel = false) :
    ∃ w1, ∀ fuel, eventLoop E fuel (w, m) msgs = .ok (w1, m) := by
  rcases List.eq_nil_or_concat msgs with h | ⟨l, a, h⟩
  · subst h; exact ⟨w, fun _ => rfl⟩
  · subst h
    rw [List.concat_eq_append] at hmid ⊢
    rw [List.dropLast_concat] at hmid
    obtain ⟨w1, h1, -, p1, -⟩ := eventLoop_prompt_mid E m l w hp hmid
    obtain ⟨w2, h2, -⟩ := step_prompt E w1 m a p1
    refine ⟨w2, fun fuel => ?_⟩
    rw [eventLoop_append E fuel l [a] (w, m) (w1, m) (h1 fuel), eventLoop_single]
    exact h2 fuel

/-- C3. While the save prompt is open `model.Update` returns the session it was given,
for every event (first part).  Hence a whole save flow (the save key on an idle session,
then any events of which only the last may confirm or cancel) ends with the focus index
and the terminal size of the session before the save key, and with the same panes in the
same order, each showing the same lines, cursor and focus flag; the only thing the save key
itself does to the panes is the layout pass, so the pane list is literally the one before
the save key when that layout was already in place. -/
theorem C3_save_flow_leaves_session_unchanged (E : Env) (w : World) (m : model) (k : Key)
    (t : Textarea) (msgs : List Msg)
    (hidle : w.isPresent = false) (hkeys : stdKeys m.keymap)
    (hen : m.keymap.save.disabled = false) (hk : k.String = "ctrl+s")
    (ht : getAt m.inputs m.focus = some t)
    (hmid : ∀ msg ∈ msgs.dropLast, msg.isConfirm = false ∧ msg.isCancel = false) :
    (∀ (w1 : World) (m1 : model) (fuel : Nat) (msg : Msg), w1.isPresent = true →
        ∃ w2, model.Update E fuel w1 m1 msg = .ok (w2, m1, .nil)) ∧
    ∃ w2 m2, (∀ fuel, eventLoop E fuel (w, m) (.KeyMsg k :: msgs) = .ok (w2, m2)) ∧
      m2.focus = m.focus ∧ m2.width = m.width ∧ m2.height = m.height ∧
      m2.inputs.length = m.inputs.length ∧
      m2.inputs.map Textarea.shown = m.inputs.map Textarea.shown ∧
      (m.Sized → m2.inputs = m.inputs) := by
  refine ⟨fun w1 m1 fuel msg hp => ⟨_, Update_prompt E fuel w1 m1 msg hp⟩, ?_⟩
  obtain ⟨w1, hs, p1, -⟩ := step_save E w m k t hidle hkeys hen hk ht
  obtain ⟨w2, hl⟩ := eventLoop_prompt E m.updateKeybindings.sizeInputs msgs w1 p1 hmid
  refine ⟨w2, m.updateKeybindings.sizeInputs, fun fuel => ?_, rfl, rfl, rfl, ?_,
    sizeInputs_shown m, sizeInputs_of_Sized m⟩
  · unfold eventLoop
    rw [hs fuel]
    exact hl fuel
  · simp [model.sizeInputs, model.updateKeybindings]

/-- C3 at a save flow that is cancelled after a resize, a click and a tab. -/
theorem C3_witness :
    ∃ s2, eventLoop demoEnv 0 helloTyped
        [press .KeyCtrlS, runes "out.txt", .WindowSizeMsg 80 24,
         .MouseMsg ⟨1, 1, .MouseLeft⟩, press .KeyTab, press .KeyEsc] = .ok s2 ∧
      s2.2.focus = helloTyped.2.focus ∧ s2.2.inputs = helloTyped.2.inputs := by
  obtain ⟨-, w2, m2, h, hf, -, -, -, -, hsz⟩ :=
    C3_save_flow_leaves_session_unchanged demoEnv helloTyped.1 helloTyped.2
      (plainKey .KeyCtrlS) (helloTyped.2.inputs.headD newTextarea)
      [runes "out.txt", .WindowSizeMsg 80 24, .MouseMsg ⟨1, 1, .MouseLeft⟩, press .KeyTab,
        press .KeyEsc]
      rfl ⟨rfl, rfl, rfl, rfl, rfl, rfl⟩ rfl (by decide) (by rfl) (by decide)
  refine ⟨(w2, m2), h 0, hf, hsz ?_⟩
  intro t ht
  have : t = helloTyped.2.inputs.headD newTextarea := by
    have hl : helloTyped.2.inputs = [helloTyped.2.inputs.headD newTextarea] := by rfl
    rw [hl] at ht
    simpa using ht
  rw [this]
  exact ⟨by rfl, by rfl⟩

theorem reachable_inv {E : Env} {s : World × model} (h : Reachable E s) :
    LoopInv s ∧ s.2.keymap.Std := by
  obtain ⟨fs, msgs, fuel, h⟩ := h
  exact ⟨eventLoop_inv msgs (init_inv fs) h, eventLoop_Std msgs newModel_Std h⟩

theorem finish_idle (E : Env) (w : World) (m : model) (msg : Msg) (hp : w.isPresent = false) :
    model.finish E w m msg =
      (w, { m.updateKeybindings.sizeInputs with inputs := m.passed E msg }, .Batch) := by
  unfold model.finish model.passed
  simp only [hp, Bool.not_false, if_true]
  rfl

theorem passed_length (E : Env) (m : model) (msg : Msg) :
    (m.passed E msg).length = m.inputs.length := by
  simp [model.passed, model.sizeInputs]

theorem passed_shown (E : Env) (m : model) (msg : Msg) (h : ∀ t, E.taUpdate t msg = t) :
    (m.passed E msg).map Textarea.shown = m.inputs.map Textarea.shown := by
  simp only [model.passed, model.sizeInputs, List.map_map]
  apply List.map_congr_left
  intro t _
  simp only [Function.comp, h]
  rfl

theorem passed_of_Sized (E : Env) (m : model) (msg : Msg) (hs : m.Sized)
    (h : ∀ t, E.taUpdate t msg = t) : m.passed E msg = m.inputs := by
  simp only [model.passed, model.sizeInputs, List.map_map]
  conv_rhs => rw [← List.map_id m.inputs]
  apply List.map_congr_left
  intro t ht
  obtain ⟨a, b⟩ := hs t ht
  simp only [Function.comp, h, Textarea.SetWidth, Textarea.SetHeight, id, ← a, ← b]

theorem Enabled_iff (b : Binding) (h : b.keys ≠ []) : b.Enabled = !b.disabled := by
  unfold Binding.Enabled
  cases hk : b.keys with
  | nil => exact absurd hk h
  | cons a l => simp

/-- An event that reaches none of the cases of an idle session: the common tail only. -/
theorem Update_unmatched (E : Env) (fuel : Nat) (w : World) (m : model) (k : Key)
    (hp : w.isPresent = false)
    (hq : Matches k m.keymap.quit = false) (hn : Matches k m.keymap.next = false)
    (hv : Matches k m.keymap.prev = false) (ha : Matches k m.keymap.add = false)
    (hr : Matches k m.keymap.remove = false) (hs : Matches k m.keymap.save = false) :
    model.Update E fuel w m (.KeyMsg k) =
      .ok (w, { m.updateKeybindings.sizeInputs with inputs := m.passed E (.KeyMsg k) }, .Batch) := by
  unfold model.Update
  simp only [hp, Bool.false_eq_true, if_false]
  rw [updateKey_other hq hn hv ha hr hs, finish_idle E w m _ hp]

/-- C4. In every state reachable from `newModel`, an add-pane key with six panes and a
remove-pane key with one pane add and remove nothing: the handler returns, the focus index
and the number of panes are unchanged, and the pane list is the old one (while the save
prompt is open) or the old one after the tail every idle event runs through (layout pass,
event handed to each pane).  Where the widget ignores the key the panes show the same
lines, cursor and focus flag as before, and the list is literally unchanged when the
layout was already in place. -/
theorem C4_add_and_remove_do_nothing_at_the_limits (E : Env) (s : World × model) (k : Key)
    (hr : Reachable E s)
    (hk : (k.String = "ctrl+n" ∧ s.2.inputs.length = 6) ∨
          (k.String = "ctrl+w" ∧ s.2.inputs.length = 1)) :
    ∃ w1 m1 c, (∀ fuel, model.Update E fuel s.1 s.2 (.KeyMsg k) = .ok (w1, m1, c)) ∧
      m1.focus = s.2.focus ∧ m1.inputs.length = s.2.inputs.length ∧
      m1.inputs = (if s.1.isPresent then s.2.inputs else s.2.passed E (.KeyMsg k)) ∧
      ((∀ t, E.taUpdate t (.KeyMsg k) = t) →
        m1.inputs.map Textarea.shown = s.2.inputs.map Textarea.shown ∧
        (s.2.Sized → m1.inputs = s.2.inputs)) := by
  obtain ⟨hinv, hstd⟩ := reachable_inv hr
  cases hp : s.1.isPresent
  swap
  · refine ⟨_, s.2, .nil, fun fuel => Update_prompt E fuel s.1 s.2 _ hp, rfl, rfl, ?_,
      fun _ => ⟨rfl, fun _ => rfl⟩⟩
    simp
  obtain ⟨e1, e2, e3, e4, e5, e6⟩ := Matches_std (k := k) hstd.1
  have hadd := hinv.wf.add_flag
  have hrem := hinv.wf.remove_flag
  have hu : ∀ fuel, model.Update E fuel s.1 s.2 (.KeyMsg k) =
      .ok (s.1, { s.2.updateKeybindings.sizeInputs with inputs := s.2.passed E (.KeyMsg k) },
        .Batch) := by
    intro fuel
    rcases hk with ⟨hk, hlen⟩ | ⟨hk, hlen⟩
    · rw [hk] at e1 e2 e3 e4 e5 e6
      rw [hlen] at hadd
      simp at e1 e2 e3 e4 e5 e6
      have e4' : Matches k s.2.keymap.add = false := by rw [e4, hadd]; rfl
      exact Update_unmatched E fuel s.1 s.2 k hp e1 e2 e3 e4' e5 e6
    · rw [hk] at e1 e2 e3 e4 e5 e6
      rw [hlen] at hrem
      simp at e1 e2 e3 e4 e5 e6
      have e5' : Matches k s.2.keymap.remove = false := by rw [e5, hrem]; rfl
      exact Update_unmatched E fuel s.1 s.2 k hp e1 e2 e3 e4 e5' e6
  refine ⟨_, _, _, hu, rfl, passed_length E s.2 _, ?_,
    fun h => ⟨passed_shown E s.2 _ h, fun hs => passed_of_Sized E s.2 _ hs h⟩⟩
  simp

theorem step_of_Update {E : Env} {fuel : Nat} {s : World × model} {msg : Msg}
    {w1 : World} {m1 : model} {c : Cmd}
    (h : model.Update E fuel s.1 s.2 msg = .ok (w1, m1, c)) :
    step E fuel s msg = .ok (model.View E w1 m1, m1) := by
  unfold step
  rw [h]

theorem step_add (E : Env) (s : World × model) (k : Key) (hinv : LoopInv s)
    (hstd : s.2.keymap.Std) (hp : s.1.isPresent = false) (hlen : s.2.inputs.length < 6)
    (hk : k.String = "ctrl+n") :
    ∃ s1, (∀ fuel, step E fuel s (.KeyMsg k) = .ok s1) ∧
      s1.2.inputs.length = s.2.inputs.length + 1 ∧ s1.1.isPresent = false ∧
      s1.2.focus = s.2.focus := by
  obtain ⟨e1, e2, e3, e4, e5, e6⟩ := Matches_std (k := k) hstd.1
  have hadd := hinv.wf.add_flag
  rw [hk] at e1 e2 e3 e4
  simp at e1 e2 e3 e4
  have e4' : Matches k s.2.keymap.add = true := by
    rw [e4, hadd]
    simp [maxInputs, hlen]
  have hu : ∀ fuel, model.Update E fuel s.1 s.2 (.KeyMsg k) =
      .ok (model.finish E s.1 { s.2 with inputs := s.2.inputs ++ [newTextarea] } (.KeyMsg k)) := by
    intro fuel
    unfold model.Update
    simp only [hp, Bool.false_eq_true, if_false]
    exact updateKey_add e1 e2 e3 e4'
  refine ⟨(model.View E s.1 _, _), fun fuel => step_of_Update (hu fuel), ?_, ?_, ?_⟩
  · exact (finish_length E _ _ _).trans (by simp)
  · rw [(View_fields E _ _).1]; exact hp
  · exact finish_focus E _ _ _

theorem step_remove (E : Env) (s : World × model) (k : Key) (hinv : LoopInv s)
    (hstd : s.2.keymap.Std) (hp : s.1.isPresent = false) (hlen : 1 < s.2.inputs.length)
    (hk : k.String = "ctrl+w") :
    ∃ s1, (∀ fuel, step E fuel s (.KeyMsg k) = .ok s1) ∧
      s1.2.inputs.length + 1 = s.2.inputs.length ∧ s1.1.isPresent = false := by
  obtain ⟨e1, e2, e3, e4, e5, e6⟩ := Matches_std (k := k) hstd.1
  have hrem := hinv.wf.remove_flag
  rw [hk] at e1 e2 e3 e4 e5
  simp at e1 e2 e3 e4 e5
  have e5' : Matches k s.2.keymap.remove = true := by
    rw [e5, hrem]
    simp [minInputs, hlen]
  have hz : s.2.focus < s.1.zones.length := by
    rcases hinv.zones hp with hz | ⟨-, hz⟩
    · rw [hz]; exact hinv.wf.focus_lt
    · omega
  obtain ⟨l2, hl2, h⟩ := updateKey_remove (E := E) e1 e2 e3 e4 e5' hlen hinv.wf.focus_nonneg
    hinv.wf.focus_lt hz
  have hu : ∀ fuel, model.Update E fuel s.1 s.2 (.KeyMsg k) = .ok
      (model.finish E { s.1 with zones := s.1.zones.eraseIdx s.2.focus.toNat }
          { s.2 with inputs := l2, focus := Int.tmod s.2.focus ((s.2.inputs.length : Int) - 1) }
          (.KeyMsg k)) := by
    intro fuel
    unfold model.Update
    rw [if_neg (by rw [hp]; decide)]
    exact h
  refine ⟨(model.View E _ _, _), fun fuel => step_of_Update (hu fuel), ?_, ?_⟩
  · have hlt : s.2.focus.toNat < s.2.inputs.length := by
      have := hinv.wf.focus_lt
      have := hinv.wf.focus_nonneg
      omega
    have e : (model.finish E { s.1 with zones := s.1.zones.eraseIdx s.2.focus.toNat }
          { s.2 with inputs := l2, focus := Int.tmod s.2.focus ((s.2.inputs.length : Int) - 1) }
          (.KeyMsg k)).2.1.inputs.length = l2.length := finish_length E _ _ _
    show (model.finish E { s.1 with zones := s.1.zones.eraseIdx s.2.focus.toNat }
          { s.2 with inputs := l2, focus := Int.tmod s.2.focus ((s.2.inputs.length : Int) - 1) }
          (.KeyMsg k)).2.1.inputs.length + 1 = _
    rw [e, modifyAt_length hl2, List.length_eraseIdx]
    simp only [hlt, if_true]
    omega
  · rw [(View_fields E _ _).1]; exact hp

theorem steps_add (E : Env) (k : Key) (hk : k.String = "ctrl+n") (n : Nat) (s : World × model)
    (hinv : LoopInv s) (hstd : s.2.keymap.Std) (hp : s.1.isPresent = false)
    (hlen : s.2.inputs.length + n ≤ 6) :
    ∃ s1, (∀ fuel, eventLoop E fuel s (List.replicate n (.KeyMsg k)) = .ok s1) ∧
      LoopInv s1 ∧ s1.2.keymap.Std ∧ s1.1.isPresent = false ∧
      s1.2.inputs.length = s.2.inputs.length + n := by
  induction n generalizing s with
  | zero => exact ⟨s, fun _ => rfl, hinv, hstd, hp, rfl⟩
  | succ n ih =>
    obtain ⟨s1, h1, l1, p1, -⟩ := step_add E s k hinv hstd hp (by omega) hk
    obtain ⟨s2, h2, i2, k2, p2, l2⟩ :=
      ih s1 (step_inv hinv (h1 0)) (step_Std hstd (h1 0)) p1 (by omega)
    refine ⟨s2, fun fuel => ?_, i2, k2, p2, by omega⟩
    rw [List.replicate_succ, eventLoop]
    simp only [h1 fuel]
    exact h2 fuel

theorem steps_remove (E : Env) (k : Key) (hk : k.String = "ctrl+w") (n : Nat)
    (s : World × model)
    (hinv : LoopInv s) (hstd : s.2.keymap.Std) (hp : s.1.isPresent = false)
    (hlen : n < s.2.inputs.length) :
    ∃ s1, (∀ fuel, eventLoop E fuel s (List.replicate n (.KeyMsg k)) = .ok s1) ∧
      LoopInv s1 ∧ s1.2.keymap.Std ∧ s1.1.isPresent = false ∧
      s1.2.inputs.length + n = s.2.inputs.length := by
  induction n generalizing s with
  | zero => exact ⟨s, fun _ => rfl, hinv, hstd, hp, rfl⟩
  | succ n ih =>
    obtain ⟨s1, h1, l1, p1⟩ := step_remove E s k hinv hstd hp (by omega) hk
    obtain ⟨s2, h2, i2, k2, p2, l2⟩ :=
      ih s1 (step_inv hinv (h1 0)) (step_Std hstd (h1 0)) p1 (by omega)
    refine ⟨s2, fun fuel => ?_, i2, k2, p2, by omega⟩
    rw [List.replicate_succ, eventLoop]
    simp only [h1 fuel]
    exact h2 fuel

theorem flags_agree {s : World × model} (hinv : LoopInv s) (hstd : s.2.keymap.Std) :
    (s.2.keymap.add.Enabled = true ↔ s.2.inputs.length < 6) ∧
    (s.2.keymap.remove.Enabled = true ↔ s.2.inputs.length > 1) := by
  obtain ⟨-, -, hak, hrk, -, -⟩ := hstd.1
  rw [Enabled_iff _ (by rw [hak]; simp), Enabled_iff _ (by rw [hrk]; simp),
    hinv.wf.add_flag, hinv.wf.remove_flag]
  simp [maxInputs, minInputs]

/-- C5. In every state reachable from `newModel` the add binding is enabled exactly
when there are fewer than six panes and the remove binding exactly when there is more than
one.  In particular five add-pane presses from program start give six panes with add
disabled, and five remove-pane presses after that give one pane with remove disabled. -/
theorem C5_key_flags_agree_with_pane_count (E : Env) :
    (∀ s, Reachable E s →
      (s.2.keymap.add.Enabled = true ↔ s.2.inputs.length < 6) ∧
      (s.2.keymap.remove.Enabled = true ↔ s.2.inputs.length > 1)) ∧
    (∀ (fs : FileSystem) (ka kr : Key), ka.String = "ctrl+n" → kr.String = "ctrl+w" →
      ∃ s5 s10,
        (∀ fuel, eventLoop E fuel (initWorld fs, newModel)
          (List.replicate 5 (.KeyMsg ka)) = .ok s5) ∧
        s5.2.inputs.length = 6 ∧ s5.2.keymap.add.Enabled = false ∧
        (∀ fuel, eventLoop E fuel s5 (List.replicate 5 (.KeyMsg kr)) = .ok s10) ∧
        s10.2.inputs.length = 1 ∧ s10.2.keymap.remove.Enabled = false) := by
  refine ⟨fun s hr => flags_agree (reachable_inv hr).1 (reachable_inv hr).2, ?_⟩
  intro fs ka kr hka hkr
  obtain ⟨s5, h5, i5, k5, p5, l5⟩ :=
    steps_add E ka hka 5 (initWorld fs, newModel) (init_inv fs) newModel_Std rfl
      (by show newModel.inputs.length + 5 ≤ 6; decide)
  have l5' : s5.2.inputs.length = 6 := by rw [l5]; rfl
  obtain ⟨s10, h10, i10, k10, p10, l10⟩ := steps_remove E kr hkr 5 s5 i5 k5 p5 (by omega)
  have l10' : s10.2.inputs.length = 1 := by omega
  refine ⟨s5, s10, h5, l5', ?_, h10, l10', ?_⟩
  · have := (flags_agree i5 k5).1
    rw [l5'] at this
    cases h : s5.2.keymap.add.Enabled
    · rfl
    · exact absurd (this.mp h) (by decide)
  · have := (flags_agree i10 k10).2
    rw [l10'] at this
    cases h : s10.2.keymap.remove.Enabled
    · rfl
    · exact absurd (this.mp h) (by decide)

theorem Update_next (E : Env) (w : World) (m : model) (k : Key)
    (hp : w.isPresent = false) (hstd : m.keymap.Std)
    (h0 : 0 ≤ m.focus) (h1 : m.focus < m.inputs.length) (hk : k.String = "tab") :
    ∃ l1 l2, modifyAt Textarea.Blur m.inputs m.focus = some l1 ∧
      modifyAt Textarea.Focus l1 ((m.focus + 1) % m.inputs.length) = some l2 ∧
      ∀ fuel, model.Update E fuel w m (.KeyMsg k) =
        .ok (model.finish E w { m with inputs := l2, focus := (m.focus + 1) % m.inputs.length }
          (.KeyMsg k)) := by
  obtain ⟨e1, e2, e3, e4, e5, e6⟩ := Matches_std (k := k) hstd.1
  rw [hk] at e1 e2
  simp at e1 e2
  have e2' : Matches k m.keymap.next = true := by rw [e2, hstd.2.1]; rfl
  obtain ⟨l1, l2, a, b, c⟩ := updateKey_next (E := E) (w := w) e1 e2' h0 h1
  have hf : (if m.focus + 1 > (m.inputs.length : Int) - 1 then 0 else m.focus + 1) =
      (m.focus + 1) % m.inputs.length := by
    split
    · have : m.focus + 1 = m.inputs.length := by omega
      rw [this, Int.emod_self]
    · rw [Int.emod_eq_of_lt (by omega) (by omega)]
  rw [hf] at b c
  refine ⟨l1, l2, a, b, fun fuel => ?_⟩
  unfold model.Update
  rw [if_neg (by rw [hp]; decide)]
  exact c

theorem Update_prev (E : Env) (w : World) (m : model) (k : Key)
    (hp : w.isPresent = false) (hstd : m.keymap.Std)
    (h0 : 0 ≤ m.focus) (h1 : m.focus < m.inputs.length) (hk : k.String = "shift+tab") :
    ∃ l1 l2, modifyAt Textarea.Blur m.inputs m.focus = some l1 ∧
      modifyAt Textarea.Focus l1 ((m.focus + m.inputs.length - 1) % m.inputs.length) = some l2 ∧
      ∀ fuel, model.Update E fuel w m (.KeyMsg k) =
        .ok (model.finish E w
          { m with inputs := l2, focus := (m.focus + m.inputs.length - 1) % m.inputs.length }
          (.KeyMsg k)) := by
  obtain ⟨e1, e2, e3, e4, e5, e6⟩ := Matches_std (k := k) hstd.1
  rw [hk] at e1 e2 e3
  simp at e1 e2 e3
  have e3' : Matches k m.keymap.prev = true := by rw [e3, hstd.2.2.1]; rfl
  obtain ⟨l1, l2, a, b, c⟩ := updateKey_prev (E := E) (w := w) e1 e2 e3' h0 h1
  have hf : (if m.focus - 1 < 0 then (m.inputs.length : Int) - 1 else m.focus - 1) =
      (m.focus + m.inputs.length - 1) % m.inputs.length := by
    split
    · have : m.focus = 0 := by omega
      rw [this, Int.emod_eq_of_lt (by omega) (by omega)]
      omega
    · have : m.focus + m.inputs.length - 1 = (m.focus - 1) + m.inputs.length := by omega
      rw [this, Int.add_emod_self, Int.emod_eq_of_lt (by omega) (by omega)]
  rw [hf] at b c
  refine ⟨l1, l2, a, b, fun fuel => ?_⟩
  unfold model.Update
  rw [if_neg (by rw [hp]; decide)]
  exact c

/-- C7. On an idle session with `n` panes, the bindings of `newModel` and focus index
`f` in `[0, n)`, the focus-next key sets the focus index to `(f + 1) mod n` and the
focus-previous key to `(f + n - 1) mod n`.  Either way the pane list keeps its length and
order: it is the old list with pane `f` blurred and the newly focused pane focused in
place, after the tail every idle event runs through. -/
theorem C7_focus_next_and_previous_wrap_around (E : Env) (w : World) (m : model) (kn kp : Key)
    (hp : w.isPresent = false) (hstd : m.keymap.Std)
    (h0 : 0 ≤ m.focus) (h1 : m.focus < m.inputs.length)
    (hkn : kn.String = "tab") (hkp : kp.String = "shift+tab") :
    (∃ w1 m1 c l1 l2, (∀ fuel, model.Update E fuel w m (.KeyMsg kn) = .ok (w1, m1, c)) ∧
      m1.focus = (m.focus + 1) % m.inputs.length ∧
      m1.inputs.length = m.inputs.length ∧
      modifyAt Textarea.Blur m.inputs m.focus = some l1 ∧
      modifyAt Textarea.Focus l1 m1.focus = some l2 ∧
      m1.inputs = ({ m with inputs := l2 } : model).passed E (.KeyMsg kn)) ∧
    (∃ w1 m1 c l1 l2, (∀ fuel, model.Update E fuel w m (.KeyMsg kp) = .ok (w1, m1, c)) ∧
      m1.focus = (m.focus + m.inputs.length - 1) % m.inputs.length ∧
      m1.inputs.length = m.inputs.length ∧
      modifyAt Textarea.Blur m.inputs m.focus = some l1 ∧
      modifyAt Textarea.Focus l1 m1.focus = some l2 ∧
      m1.inputs = ({ m with inputs := l2 } : model).passed E (.KeyMsg kp)) := by
  constructor
  · obtain ⟨l1, l2, a, b, c⟩ := Update_next E w m kn hp hstd h0 h1 hkn
    rw [finish_idle E w _ _ hp] at c
    refine ⟨_, _, _, l1, l2, c, rfl, ?_, a, b, rfl⟩
    simp only [passed_length]
    rw [modifyAt_length b, modifyAt_length a]
  · obtain ⟨l1, l2, a, b, c⟩ := Update_prev E w m kp hp hstd h0 h1 hkp
    rw [finish_idle E w _ _ hp] at c
    refine ⟨_, _, _, l1, l2, c, rfl, ?_, a, b, rfl⟩
    simp only [passed_length]
    rw [modifyAt_length b, modifyAt_length a]

theorem next_prev_index (f n : Int) (h0 : 0 ≤ f) (h1 : f < n) :
    ((f + 1) % n + n - 1) % n = f := by
  by_cases h : f + 1 = n
  · rw [h, Int.emod_self]
    rw [Int.emod_eq_of_lt (by omega) (by omega)]
    omega
  · rw [Int.emod_eq_of_lt (a := f + 1) (by omega) (by omega)]
    have : f + 1 + n - 1 = f + n := by omega
    rw [this, Int.add_emod_self, Int.emod_eq_of_lt h0 h1]

theorem prev_next_index (f n : Int) (h0 : 0 ≤ f) (h1 : f < n) :
    ((f + n - 1) % n + 1) % n = f := by
  by_cases h : f = 0
  · subst h
    rw [Int.emod_eq_of_lt (a := 0 + n - 1) (by omega) (by omega)]
    have : 0 + n - 1 + 1 = n := by omega
    rw [this, Int.emod_self]
  · have : f + n - 1 = (f - 1) + n := by omega
    rw [this, Int.add_emod_self, Int.emod_eq_of_lt (a := f - 1) (by omega) (by omega)]
    have : f - 1 + 1 = f := by omega
    rw [this, Int.emod_eq_of_lt h0 h1]

theorem emod_bounds (a n : Int) (hn : 0 < n) : 0 ≤ a % n ∧ a % n < n :=
  ⟨Int.emod_nonneg _ (by omega), Int.emod_lt_of_pos _ hn⟩

theorem step_next (E : Env) (w : World) (m : model) (k : Key)
    (hp : w.isPresent = false) (hstd : m.keymap.Std)
    (h0 : 0 ≤ m.focus) (h1 : m.focus < m.inputs.length) (hk : k.String = "tab") :
    ∃ s1, (∀ fuel, step E fuel (w, m) (.KeyMsg k) = .ok s1) ∧
      s1.2.focus = (m.focus + 1) % m.inputs.length ∧
      s1.2.inputs.length = m.inputs.length ∧ s1.1.isPresent = false ∧ s1.2.keymap.Std := by
  obtain ⟨l1, l2, a, b, c⟩ := Update_next E w m k hp hstd h0 h1 hk
  rw [finish_idle E w _ _ hp] at c
  refine ⟨(model.View E w _, _), fun fuel => step_of_Update (s := (w, m)) (c fuel), rfl, ?_, ?_,
    hstd⟩
  · simp only [passed_length]
    rw [modifyAt_length b, modifyAt_length a]
  · rw [(View_fields E _ _).1]; exact hp

theorem step_prev (E : Env) (w : World) (m : model) (k : Key)
    (hp : w.isPresent = false) (hstd : m.keymap.Std)
    (h0 : 0 ≤ m.focus) (h1 : m.focus < m.inputs.length) (hk : k.String = "shift+tab") :
    ∃ s1, (∀ fuel, step E fuel (w, m) (.KeyMsg k) = .ok s1) ∧
      s1.2.focus = (m.focus + m.inputs.length - 1) % m.inputs.length ∧
      s1.2.inputs.length = m.inputs.length ∧ s1.1.isPresent = false ∧ s1.2.keymap.Std := by
  obtain ⟨l1, l2, a, b, c⟩ := Update_prev E w m k hp hstd h0 h1 hk
  rw [finish_idle E w _ _ hp] at c
  refine ⟨(model.View E w _, _), fun fuel => step_of_Update (s := (w, m)) (c fuel), rfl, ?_, ?_,
    hstd⟩
  · simp only [passed_length]
    rw [modifyAt_length b, modifyAt_length a]
  · rw [(View_fields E _ _).1]; exact hp

theorem eventLoop_two (E : Env) (fuel : Nat) (s s1 : World × model) (a b : Msg)
    (h : step E fuel s a = .ok s1) :
    eventLoop E fuel s [a, b] = step E fuel s1 b := by
  rw [eventLoop]
  simp only [h]
  exact eventLoop_single E fuel s1 b

/-- C6. On an idle session with `n >= 1` panes, the bindings of `newModel` and focus
index `f` in `[0, n)`, focus-next followed by focus-previous, and focus-previous followed
by focus-next, both end with the focus index `f` again. -/
theorem C6_focus_next_then_previous_returns (E : Env) (w : World) (m : model) (kn kp : Key)
    (hp : w.isPresent = false) (hstd : m.keymap.Std)
    (h0 : 0 ≤ m.focus) (h1 : m.focus < m.inputs.length)
    (hkn : kn.String = "tab") (hkp : kp.String = "shift+tab") :
    (∃ s2, (∀ fuel, eventLoop E fuel (w, m) [.KeyMsg kn, .KeyMsg kp] = .ok s2) ∧
      s2.2.focus = m.focus) ∧
    (∃ s2, (∀ fuel, eventLoop E fuel (w, m) [.KeyMsg kp, .KeyMsg kn] = .ok s2) ∧
      s2.2.focus = m.focus) := by
  have hn : (0 : Int) < m.inputs.length := by omega
  constructor
  · obtain ⟨s1, a1, f1, l1, p1, k1⟩ := step_next E w m kn hp hstd h0 h1 hkn
    obtain ⟨b0, b1⟩ := emod_bounds (m.focus + 1) m.inputs.length hn
    obtain ⟨s2, a2, f2, -⟩ := step_prev E s1.1 s1.2 kp p1 k1 (by rw [f1]; exact b0)
      (by rw [f1, l1]; exact b1) hkp
    refine ⟨s2, fun fuel => ?_, ?_⟩
    · rw [eventLoop_two E fuel _ s1 _ _ (a1 fuel)]
      exact a2 fuel
    · rw [f2, f1, l1]
      exact next_prev_index _ _ h0 h1
  · obtain ⟨s1, a1, f1, l1, p1, k1⟩ := step_prev E w m kp hp hstd h0 h1 hkp
    obtain ⟨b0, b1⟩ := emod_bounds (m.focus + m.inputs.length - 1) m.inputs.length hn
    obtain ⟨s2, a2, f2, -⟩ := step_next E s1.1 s1.2 kn p1 k1 (by rw [f1]; exact b0)
      (by rw [f1, l1]; exact b1) hkn
    refine ⟨s2, fun fuel => ?_, ?_⟩
    · rw [eventLoop_two E fuel _ s1 _ _ (a1 fuel)]
      exact a2 fuel
    · rw [f2, f1, l1]
      exact prev_next_index _ _ h0 h1

theorem modifyAt_map {α β : Type} {f : α → α} {g : α → β} {l l1 : List α} {i : Int}
    (hg : ∀ a, g (f a) = g a) (h : modifyAt f l i = some l1) : l1.map g = l.map g := by
  obtain ⟨a, ha, rfl⟩ := modifyAt_eq_some h
  obtain ⟨-, -, hget⟩ := getAt_eq_some ha
  apply List.ext_getElem?
  intro n
  rw [List.getElem?_map, List.getElem?_map, List.getElem?_set]
  split
  · rename_i hn
    subst hn
    rw [hget]
    split
    · simp [hg]
    · rename_i hlt
      have := (List.getElem?_eq_some_iff.mp hget).1
      exact absurd this hlt
  · rfl

theorem passed_buffer (E : Env) (m : model) (msg : Msg) (h : ∀ t, E.taUpdate t msg = t) :
    (m.passed E msg).map Textarea.buffer = m.inputs.map Textarea.buffer := by
  simp only [model.passed, model.sizeInputs, List.map_map]
  apply List.map_congr_left
  intro t _
  simp only [Function.comp, h]
  rfl

theorem Update_idle_key (E : Env) (fuel : Nat) (w : World) (m : model) (k : Key)
    (hp : w.isPresent = false) :
    model.Update E fuel w m (.KeyMsg k) = model.updateKey E w m k := by
  unfold model.Update
  rw [if_neg (by rw [hp]; decide)]

theorem Update_remove (E : Env) (w : World) (m : model) (k : Key)
    (hp : w.isPresent = false) (hstd : m.keymap.Std) (hen : m.keymap.remove.disabled = false)
    (hn : 2 ≤ m.inputs.length) (h0 : 0 ≤ m.focus) (h1 : m.focus < m.inputs.length)
    (hz : m.focus < w.zones.length) (hk : k.String = "ctrl+w") :
    ∃ l2, modifyAt Textarea.Focus (m.inputs.eraseIdx m.focus.toNat)
        (m.focus % ((m.inputs.length : Int) - 1)) = some l2 ∧
      ∀ fuel, model.Update E fuel w m (.KeyMsg k) =
        .ok ({ w with zones := w.zones.eraseIdx m.focus.toNat },
          { ({ m with inputs := l2, focus := m.focus % ((m.inputs.length : Int) - 1) }
              : model).updateKeybindings.sizeInputs with
            inputs := ({ m with inputs := l2 } : model).passed E (.KeyMsg k) }, .Batch) := by
  obtain ⟨e1, e2, e3, e4, e5, e6⟩ := Matches_std (k := k) hstd.1
  rw [hk] at e1 e2 e3 e4 e5
  simp at e1 e2 e3 e4 e5
  have e5' : Matches k m.keymap.remove = true := by rw [e5, hen]; rfl
  obtain ⟨l2, hl2, h⟩ := updateKey_remove (E := E) (w := w) e1 e2 e3 e4 e5' (by omega) h0 h1 hz
  have hmod : Int.tmod m.focus ((m.inputs.length : Int) - 1) =
      m.focus % ((m.inputs.length : Int) - 1) := Int.tmod_eq_emod h0 (by omega)
  rw [hmod] at hl2 h
  refine ⟨l2, hl2, fun fuel => ?_⟩
  rw [Update_idle_key E fuel w m k hp, h,
    finish_idle E { w with zones := w.zones.eraseIdx m.focus.toNat } _ _ hp]
  rfl

/-- C8. On an idle session with `n >= 2` panes, the remove binding enabled, focus index
`i` in `[0, n)` and a zone list that reaches position `i` (as it does after every render
pass), the remove-pane key leaves `n - 1` panes and the focus index `i mod (n - 1)`; in
particular removing the last pane moves the focus to index 0. -/
theorem C8_remove_moves_focus_modulo_new_count (E : Env) (w : World) (m : model) (k : Key)
    (hp : w.isPresent = false) (hstd : m.keymap.Std) (hen : m.keymap.remove.disabled = false)
    (hn : 2 ≤ m.inputs.length) (h0 : 0 ≤ m.focus) (h1 : m.focus < m.inputs.length)
    (hz : m.focus < w.zones.length) (hk : k.String = "ctrl+w") :
    ∃ w1 m1 c, (∀ fuel, model.Update E fuel w m (.KeyMsg k) = .ok (w1, m1, c)) ∧
      m1.inputs.length + 1 = m.inputs.length ∧
      m1.focus = m.focus % ((m.inputs.length : Int) - 1) ∧
      (m.focus = (m.inputs.length : Int) - 1 → m1.focus = 0) := by
  obtain ⟨l2, hl2, h⟩ := Update_remove E w m k hp hstd hen hn h0 h1 hz hk
  refine ⟨_, _, _, h, ?_, rfl, fun hlast => ?_⟩
  · simp only [passed_length]
    rw [modifyAt_length hl2, List.length_eraseIdx]
    have hlt : m.focus.toNat < m.inputs.length := by omega
    simp only [hlt, if_true]
    omega
  · show m.focus % ((m.inputs.length : Int) - 1) = 0
    rw [hlast, Int.emod_self]

/-- C9. On an idle session with `n >= 2` panes, a zone list of length `n` and focus index
`i`, the remove-pane key erases exactly entry `i` of the zone list and exactly pane `i` of
the pane list: the new pane list is the old one without position `i`, with the newly
focused pane focused in place, after the tail every idle event runs through; where the
widget ignores the key, the texts and cursors of the panes are those of the old list
without position `i`, in the same order. -/
theorem C9_remove_erases_focused_pane_and_its_zone (E : Env) (w : World) (m : model) (k : Key)
    (hp : w.isPresent = false) (hstd : m.keymap.Std) (hen : m.keymap.remove.disabled = false)
    (hn : 2 ≤ m.inputs.length) (h0 : 0 ≤ m.focus) (h1 : m.focus < m.inputs.length)
    (hz : w.zones.length = m.inputs.length) (hk : k.String = "ctrl+w") :
    ∃ w1 m1 c l2, (∀ fuel, model.Update E fuel w m (.KeyMsg k) = .ok (w1, m1, c)) ∧
      w1.zones = w.zones.eraseIdx m.focus.toNat ∧
      modifyAt Textarea.Focus (m.inputs.eraseIdx m.focus.toNat) m1.focus = some l2 ∧
      m1.inputs = ({ m with inputs := l2 } : model).passed E (.KeyMsg k) ∧
      ((∀ t, E.taUpdate t (.KeyMsg k) = t) →
        m1.inputs.map Textarea.buffer = (m.inputs.eraseIdx m.focus.toNat).map Textarea.buffer) := by
  obtain ⟨l2, hl2, h⟩ := Update_remove E w m k hp hstd hen hn h0 h1 (by omega) hk
  refine ⟨_, _, _, l2, h, rfl, hl2, rfl, fun hig => ?_⟩
  show (({ m with inputs := l2 } : model).passed E (.KeyMsg k)).map Textarea.buffer = _
  rw [passed_buffer E _ _ hig]
  exact modifyAt_map (f := Textarea.Focus) (g := Textarea.buffer) (fun _ => rfl) hl2

theorem wrap64_range (i : Int) : -2 ^ 63 ≤ wrap64 i ∧ wrap64 i < 2 ^ 63 := by
  unfold wrap64
  omega

theorem wrap64_id (i : Int) (h0 : -2 ^ 63 ≤ i) (h1 : i < 2 ^ 63) : wrap64 i = i := by
  unfold wrap64
  omega

theorem Pos_range (z : Option ZoneInfo) (e : MouseEvent) :
    (Pos z e).1 < 2 ^ 63 ∧ (Pos z e).2 < 2 ^ 63 := by
  unfold Pos
  split
  · exact ⟨by norm_num, by norm_num⟩
  · split
    · exact ⟨(wrap64_range _).2, (wrap64_range _).2⟩
    · exact ⟨by norm_num, by norm_num⟩

theorem clickZones_skip (fuel : Nat) (w : World) (m : model) (e : MouseEvent)
    (pre rest : List ZoneId) (i : Nat) (hpre : ∀ j ∈ pre, InBounds (w.Get j) e = false) :
    model.clickZones fuel w m e (pre ++ rest) i =
      model.clickZones fuel w m e rest (i + pre.length) := by
  induction pre generalizing i with
  | nil => simp
  | cons a l ih =>
    have ha := hpre a (List.mem_cons_self _ _)
    rw [List.cons_append, model.clickZones]
    simp only [ha, Bool.false_eq_true, if_false]
    rw [ih (i + 1) (fun j hj => hpre j (List.mem_cons_of_mem _ hj))]
    simp only [List.length_cons]
    congr 1
    omega

theorem getAt_set_self {α : Type} (l : List α) (i : Int) (a b : α) (h : getAt l i = some a) :
    getAt (l.set i.toNat b) i = some b := by
  obtain ⟨h0, h1, -⟩ := getAt_eq_some h
  unfold getAt
  rw [if_pos h0, List.getElem?_set]
  have : i.toNat < l.length := by omega
  simp [this]

theorem SetCursor_at (t : Textarea) (r c : Int) (line : List Char)
    (h : getAt t.value r = some line) :
    Textarea.SetCursor { t with row := r } c =
      { t with row := r, col := min (max 0 c) line.length } := by
  unfold Textarea.SetCursor Textarea.clamp
  simp only [h, Option.getD_some]
  rw [if_neg (by omega)]
  have e : min (line.length : Int) (max 0 c) = min (max 0 c) line.length := by
    unfold min
    split <;> split <;> omega
  rw [e]

/-- C10, amended.  A left click whose first containing zone is the zone of the focused
pane, at zone-relative offset `(x, y)` (not negative, so the 64-bit subtraction did not
wrap), on a pane with at least one line: the handler returns once the fuel covers the
distance the cursor steps, the cursor row of the focused pane becomes `y - 1` clamped to
`[0, lineCount - 1]`, its column becomes the requested `x - 4` clamped by the widget to
`[0, length of the line at that row]`, which is `x - 4` itself when the line is that
long, and the focus index, the number of panes and every other pane are unchanged.  For
`x = 10`, `y = 3` and at least three lines the cursor ends at row 2, at column 6 or at the
end of the third line if that comes first. -/
theorem C10_click_in_focused_pane_moves_cursor (E : Env) (w : World) (m : model)
    (e : MouseEvent) (pre post : List ZoneId) (id : ZoneId) (t : Textarea) (x y : Int)
    (hp : w.isPresent = false) (hleft : e.typ = .MouseLeft)
    (hzones : w.zones = pre ++ id :: post) (hidx : (pre.length : Int) = m.focus)
    (hpre : ∀ j ∈ pre, InBounds (w.Get j) e = false) (hin : InBounds (w.Get id) e = true)
    (hpos : Pos (w.Get id) e = (x, y)) (hx : 0 ≤ x) (hy : 0 ≤ y)
    (ht : getAt m.inputs m.focus = some t) (hl : 1 ≤ t.LineCount) :
    ∃ m1 line, (∀ fuel, t.row.natAbs + t.value.length ≤ fuel →
        model.Update E fuel w m (.MouseMsg e) = .ok (w, m1, .nil)) ∧
      m1.focus = m.focus ∧ m1.inputs.length = m.inputs.length ∧
      getAt t.value (min (max 0 (y - 1)) (t.LineCount - 1)) = some line ∧
      getAt m1.inputs m.focus =
        some { t with row := min (max 0 (y - 1)) (t.LineCount - 1), col := min (max 0 (x - 4)) line.length } ∧
      (4 ≤ x → x - 4 ≤ line.length → getAt m1.inputs m.focus =
        some { t with row := min (max 0 (y - 1)) (t.LineCount - 1), col := x - 4 }) ∧
      (∀ j : Nat, (j : Int) ≠ m.focus → m1.inputs[j]? = m.inputs[j]?) ∧
      (x = 10 → y = 3 → 3 ≤ t.LineCount →
        getAt t.value 2 = some line ∧
        getAt m1.inputs m.focus = some { t with row := 2, col := min 6 line.length } ∧
        (6 ≤ line.length → getAt m1.inputs m.focus = some { t with row := 2, col := 6 })) := by
  have hx1 : x < 2 ^ 63 := by have := (Pos_range (w.Get id) e).1; rw [hpos] at this; exact this
  have hy1 : y < 2 ^ 63 := by have := (Pos_range (w.Get id) e).2; rw [hpos] at this; exact this
  have ex : wrap64 (x - 4) = x - 4 := wrap64_id _ (by omega) (by omega)
  have ey : wrap64 (y - 1) = y - 1 := wrap64_id _ (by omega) (by omega)
  have hb := clamp_bounds (y - 1) t.LineCount hl
  have hlc : t.LineCount = (t.value.length : Int) := rfl
  obtain ⟨line, hline⟩ := getAt_of_bounds (l := t.value) hb.1 (by omega)
  have hu : ∀ fuel, t.row.natAbs + t.value.length ≤ fuel →
      model.Update E fuel w m (.MouseMsg e) = .ok (w, { m with inputs := m.inputs.set m.focus.toNat { t with row := min (max 0 (y - 1)) (t.LineCount - 1), col := min (max 0 (x - 4)) line.length } }, .nil) := by
    intro fuel hf
    have hc := clickFocused_eq fuel m (w.Get id) e t ht hl hf
    rw [hpos] at hc
    simp only [clickRow, ex, ey] at hc
    rw [SetCursor_at t _ _ line hline] at hc
    unfold model.Update
    rw [if_neg (by rw [hp]; decide)]
    simp only
    unfold model.updateMouse
    rw [if_neg (by rw [hleft]; decide), if_neg (by rw [hleft]; decide), if_pos hleft, hzones,
      clickZones_skip fuel w m e pre _ 0 hpre, model.clickZones]
    simp only [hin, if_true, Nat.zero_add, hidx, hc]
  refine ⟨_, line, hu, rfl, by simp, hline, getAt_set_self _ _ _ _ ht, ?_, ?_, ?_⟩
  · intro h4 hlen
    rw [getAt_set_self _ _ _ _ ht]
    have e1 : min (max 0 (x - 4)) (line.length : Int) = x - 4 := by
      unfold min max
      split <;> split <;> omega
    rw [e1]
  · intro j hj
    simp only
    rw [List.getElem?_set]
    have h0 := (getAt_eq_some ht).1
    have : m.focus.toNat ≠ j := by omega
    simp [this]
  · intro hx10 hy3 hl3
    subst hx10 hy3
    have e1 : min (max 0 ((3 : Int) - 1)) (t.LineCount - 1) = 2 := by
      unfold min max
      split <;> split <;> omega
    have e2 : max 0 ((10 : Int) - 4) = 6 := by decide
    rw [e1] at hline
    rw [getAt_set_self _ _ _ _ ht, e1, e2]
    refine ⟨hline, rfl, fun h6 => ?_⟩
    have e3 : min 6 (line.length : Int) = 6 := by
      unfold min
      split <;> omega
    rw [e3]

/-- C10 as stated fails on a short line.  The focused pane of two holds the lines `ab`,
`cd`, `ef`; a left click at zone-relative offset `(10, 3)` leaves the cursor at row 2,
column 2, the end of `ef`, not at column 6; a click at offset `(1, 3)`, left of the
text, leaves it at column 0, not at `1 - 4`. -/
theorem C10_counterexample_short_line :
    (getAt twoPanes.2.inputs twoPanes.2.focus).map (fun t => t.value.map String.mk) =
      some ["ab", "cd", "ef"] ∧
    twoPanes.1.zones.head?.map (fun id => (Pos (twoPanes.1.Get id) ⟨10, 3, .MouseLeft⟩,
      Pos (twoPanes.1.Get id) ⟨1, 3, .MouseLeft⟩)) = some ((10, 3), (1, 3)) ∧
    (model.Update demoEnv 5 twoPanes.1 twoPanes.2 (.MouseMsg ⟨10, 3, .MouseLeft⟩)).map
        (fun r => (r.2.1.focus, (getAt r.2.1.inputs 0).map (fun t => (t.row, t.col)))) =
      .ok (0, some (2, 2)) ∧
    (model.Update demoEnv 5 twoPanes.1 twoPanes.2 (.MouseMsg ⟨1, 3, .MouseLeft⟩)).map
        (fun r => (r.2.1.focus, (getAt r.2.1.inputs 0).map (fun t => (t.row, t.col)))) =
      .ok (0, some (2, 0)) := by
  refine ⟨by rfl, by rfl, by rfl, by rfl⟩

theorem twoPanes_Std : twoPanes.2.keymap.Std :=
  ⟨⟨rfl, rfl, rfl, rfl, rfl, rfl⟩, rfl, rfl, rfl, rfl⟩

/-- C4 at six panes. -/
theorem C4_witness :
    ∃ w1 m1 c, model.Update demoEnv 0 sixPanes.1 sixPanes.2 (press .KeyCtrlN) = .ok (w1, m1, c) ∧
      m1.focus = sixPanes.2.focus ∧ m1.inputs.length = 6 := by
  obtain ⟨w1, m1, c, h, hf, hl, -⟩ :=
    C4_add_and_remove_do_nothing_at_the_limits demoEnv sixPanes (plainKey .KeyCtrlN)
      ⟨⟨[]⟩, List.replicate 5 (press .KeyCtrlN), 0, rfl⟩ (Or.inl ⟨rfl, rfl⟩)
  exact ⟨w1, m1, c, h 0, hf, hl⟩

/-- C6 at two panes with the first focused. -/
theorem C6_witness :
    (∃ s2, eventLoop demoEnv 0 twoPanes [press .KeyTab, press .KeyShiftTab] = .ok s2 ∧
      s2.2.focus = 0) ∧
    (∃ s2, eventLoop demoEnv 0 twoPanes [press .KeyShiftTab, press .KeyTab] = .ok s2 ∧
      s2.2.focus = 0) := by
  obtain ⟨⟨s2, h2, f2⟩, ⟨s3, h3, f3⟩⟩ :=
    C6_focus_next_then_previous_returns demoEnv twoPanes.1 twoPanes.2 (plainKey .KeyTab)
      (plainKey .KeyShiftTab) rfl twoPanes_Std (by decide) (by decide) rfl rfl
  exact ⟨⟨s2, h2 0, f2⟩, ⟨s3, h3 0, f3⟩⟩

/-- C7 at two panes with the first focused. -/
theorem C7_witness :
    (∃ w1 m1 c, model.Update demoEnv 0 twoPanes.1 twoPanes.2 (press .KeyTab) = .ok (w1, m1, c) ∧
      m1.focus = 1 ∧ m1.inputs.length = 2) ∧
    (∃ w1 m1 c, model.Update demoEnv 0 twoPanes.1 twoPanes.2 (press .KeyShiftTab) =
        .ok (w1, m1, c) ∧ m1.focus = 1 ∧ m1.inputs.length = 2) := by
  obtain ⟨⟨w1, m1, c1, -, -, h1, f1, l1, -⟩, ⟨w2, m2, c2, -, -, h2, f2, l2, -⟩⟩ :=
    C7_focus_next_and_previous_wrap_around demoEnv twoPanes.1 twoPanes.2 (plainKey .KeyTab)
      (plainKey .KeyShiftTab) rfl twoPanes_Std (by decide) (by decide) rfl rfl
  exact ⟨⟨w1, m1, c1, h1 0, f1, l1⟩, ⟨w2, m2, c2, h2 0, f2, l2⟩⟩

/-- C8 at two panes with the first focused. -/
theorem C8_witness :
    ∃ w1 m1 c, model.Update demoEnv 0 twoPanes.1 twoPanes.2 (press .KeyCtrlW) = .ok (w1, m1, c) ∧
      m1.inputs.length + 1 = 2 ∧ m1.focus = 0 := by
  obtain ⟨w1, m1, c, h, hl, hf, -⟩ :=
    C8_remove_moves_focus_modulo_new_count demoEnv twoPanes.1 twoPanes.2 (plainKey .KeyCtrlW)
      rfl twoPanes_Std rfl (by decide) (by decide) (by decide) (by decide) rfl
  exact ⟨w1, m1, c, h 0, hl, hf⟩

/-- C9 at two panes with the first focused. -/
theorem C9_witness :
    ∃ w1 m1 c, model.Update demoEnv 0 twoPanes.1 twoPanes.2 (press .KeyCtrlW) = .ok (w1, m1, c) ∧
      w1.zones = twoPanes.1.zones.eraseIdx 0 ∧
      m1.inputs.map Textarea.buffer = (twoPanes.2.inputs.eraseIdx 0).map Textarea.buffer := by
  obtain ⟨w1, m1, c, l2, h, hz, -, -, hb⟩ :=
    C9_remove_erases_focused_pane_and_its_zone demoEnv twoPanes.1 twoPanes.2
      (plainKey .KeyCtrlW) rfl twoPanes_Std rfl (by decide) (by decide) (by decide) rfl rfl
  refine ⟨w1, m1, c, h 0, hz, hb ?_⟩
  intro t
  show demoTextarea t (.KeyMsg (plainKey .KeyCtrlW)) = t
  unfold demoTextarea
  simp only [plainKey]
  split <;> rfl

/-- C10 at a click on the third line of the focused pane of two, a line of eight
characters. -/
theorem C10_witness :
    ∃ m1, model.Update demoEnv 5 longLine.1 longLine.2 (.MouseMsg ⟨10, 3, .MouseLeft⟩) =
        .ok (longLine.1, m1, .nil) ∧
      m1.focus = 0 ∧
      (getAt m1.inputs 0).map (fun t => (t.row, t.col)) = some (2, 6) := by
  obtain ⟨m1, line, h, hf, -, -, -, -, -, hex⟩ :=
    C10_click_in_focused_pane_moves_cursor demoEnv longLine.1 longLine.2
      ⟨10, 3, .MouseLeft⟩ [] (longLine.1.zones.drop 1) (longLine.1.zones.headD 0)
      (longLine.2.inputs.headD newTextarea) 10 3
      rfl rfl rfl rfl (by simp) (by rfl) (by rfl) (by decide) (by decide) rfl (by decide)
  obtain ⟨h2, -, h6⟩ := hex rfl rfl (by decide)
  have h8 : getAt (longLine.2.inputs.headD newTextarea).value 2 = some "efghijkl".toList := by
    rfl
  have hline : line = "efghijkl".toList := Option.some.inj (h2.symm.trans h8)
  refine ⟨m1, h 5 (by decide), hf, ?_⟩
  rw [show (0 : Int) = longLine.2.focus from rfl, h6 (by rw [hline]; decide)]
  rfl

theorem Update_idle_mouse (E : Env) (fuel : Nat) (w : World) (m : model) (e : MouseEvent)
    (hp : w.isPresent = false) :
    model.Update E fuel w m (.MouseMsg e) = model.updateMouse E fuel w m e := by
  unfold model.Update
  rw [if_neg (by rw [hp]; decide)]

/-- The left-click case of `updateMouse` when the first zone that contains the click is at
position `pre.length`: the click goes to that pane. -/
theorem updateMouse_hit (E : Env) (fuel : Nat) (w : World) (m : model) (e : MouseEvent)
    (pre post : List ZoneId) (id : ZoneId) (hleft : e.typ = .MouseLeft)
    (hzones : w.zones = pre ++ id :: post)
    (hpre : ∀ j ∈ pre, InBounds (w.Get j) e = false) (hin : InBounds (w.Get id) e = true) :
    model.updateMouse E fuel w m e =
      match (if (pre.length : Int) = m.focus then m.clickFocused fuel (w.Get id) e
             else m.clickOther pre.length) with
      | .error f => .error f
      | .ok (m1, c) => .ok (w, m1, c) := by
  unfold model.updateMouse
  rw [if_neg (by rw [hleft]; decide), if_neg (by rw [hleft]; decide), if_pos hleft, hzones,
    clickZones_skip fuel w m e pre _ 0 hpre, model.clickZones]
  simp only [hin, if_true, Nat.zero_add]
  cases (if (pre.length : Int) = m.focus then m.clickFocused fuel (w.Get id) e
      else m.clickOther pre.length) with
  | error f => rfl
  | ok r => rfl

theorem clickZones_miss (fuel : Nat) (w : World) (m : model) (e : MouseEvent)
    (zs : List ZoneId) (i : Nat) (h : ∀ j ∈ zs, InBounds (w.Get j) e = false) :
    model.clickZones fuel w m e zs i = .ok none := by
  have := clickZones_skip fuel w m e zs [] i h
  rw [List.append_nil] at this
  rw [this]
  rfl

theorem updateMouse_miss (E : Env) (fuel : Nat) (w : World) (m : model) (e : MouseEvent)
    (hleft : e.typ = .MouseLeft) (h : ∀ j ∈ w.zones, InBounds (w.Get j) e = false) :
    model.updateMouse E fuel w m e = .ok (model.finish E w m (.MouseMsg e)) := by
  unfold model.updateMouse
  rw [if_neg (by rw [hleft]; decide), if_neg (by rw [hleft]; decide), if_pos hleft,
    clickZones_miss fuel w m e w.zones 0 h]

theorem clickOther_eq (m : model) (j : Nat) (h0 : 0 ≤ m.focus) (h1 : m.focus < m.inputs.length)
    (hj : j < m.inputs.length) :
    ∃ l1 l2, modifyAt Textarea.Blur m.inputs m.focus = some l1 ∧
      modifyAt Textarea.Focus l1 j = some l2 ∧
      m.clickOther j = .ok ({ m with inputs := l2, focus := j }, .Batch) := by
  obtain ⟨l1, hl1⟩ := modifyAt_of_bounds Textarea.Blur h0 h1
  have hlen := modifyAt_length hl1
  obtain ⟨l2, hl2⟩ := modifyAt_of_bounds Textarea.Focus (l := l1) (i := (j : Int))
    (by omega) (by omega)
  refine ⟨l1, l2, hl1, hl2, ?_⟩
  unfold model.clickOther
  simp only [hl1, hl2]

theorem getAt_set_ne {α : Type} (l : List α) (i j : Int) (b : α) (h0 : 0 ≤ i) (h1 : 0 ≤ j)
    (h : i ≠ j) : getAt (l.set j.toNat b) i = getAt l i := by
  unfold getAt
  rw [if_pos h0, if_pos h0, List.getElem?_set]
  have : j.toNat ≠ i.toNat := by omega
  simp [this]

theorem getAt_nat {α : Type} (l : List α) (j : Nat) : getAt l (j : Int) = l[j]? := by
  unfold getAt
  simp

/-- C11. A left click whose first containing zone belongs to a pane `j` other than the
focused pane `f` (both inside the pane list): the handler returns at once, the focus index
becomes `j`, pane `f` is blurred and pane `j` focused in place, every other pane is the
pane it was, and the text and cursor (row and column) of every pane, pane `j` included,
are the same as before the click. -/
theorem C11_click_on_other_pane_only_moves_focus (E : Env) (w : World) (m : model)
    (e : MouseEvent) (pre post : List ZoneId) (id : ZoneId) (tf tj : Textarea)
    (hp : w.isPresent = false) (hleft : e.typ = .MouseLeft)
    (hzones : w.zones = pre ++ id :: post)
    (hpre : ∀ i ∈ pre, InBounds (w.Get i) e = false) (hin : InBounds (w.Get id) e = true)
    (hne : (pre.length : Int) ≠ m.focus)
    (hf : getAt m.inputs m.focus = some tf) (hj : m.inputs[pre.length]? = some tj) :
    ∃ m1 c, (∀ fuel, model.Update E fuel w m (.MouseMsg e) = .ok (w, m1, c)) ∧
      m1.focus = pre.length ∧ m1.inputs.length = m.inputs.length ∧
      getAt m1.inputs m.focus = some tf.Blur ∧
      m1.inputs[pre.length]? = some tj.Focus ∧
      (∀ i : Nat, (i : Int) ≠ m.focus → i ≠ pre.length → m1.inputs[i]? = m.inputs[i]?) ∧
      m1.inputs.map Textarea.buffer = m.inputs.map Textarea.buffer := by
  obtain ⟨h0, h1, hfget⟩ := getAt_eq_some hf
  have hjl : pre.length < m.inputs.length := (List.getElem?_eq_some_iff.mp hj).1
  obtain ⟨l1, l2, a, b, c⟩ := clickOther_eq m pre.length h0 h1 hjl
  obtain ⟨tf1, htf1, rfl⟩ := modifyAt_eq_some a
  obtain ⟨tj1, htj1, rfl⟩ := modifyAt_eq_some b
  have e1 : tf1 = tf := by rw [hf] at htf1; exact (Option.some.inj htf1).symm
  have e2 : tj1 = tj := by
    rw [getAt_nat, List.getElem?_set] at htj1
    have : ¬ m.focus.toNat = pre.length := by omega
    simp only [this, if_false] at htj1
    rw [hj] at htj1
    exact (Option.some.inj htj1).symm
  rw [e1] at a b c
  rw [e2] at b c
  have hnat : Int.toNat (pre.length : Int) = pre.length := by simp
  rw [hnat] at b c
  refine ⟨{ m with inputs := (m.inputs.set m.focus.toNat tf.Blur).set pre.length tj.Focus,
                   focus := (pre.length : Int) }, .Batch, fun fuel => ?_, rfl, by simp, ?_, ?_,
    ?_, ?_⟩
  · rw [Update_idle_mouse E fuel w m e hp, updateMouse_hit E fuel w m e pre post id hleft hzones
      hpre hin, if_neg hne, c]
  · show getAt ((m.inputs.set m.focus.toNat tf.Blur).set pre.length tj.Focus) m.focus = _
    rw [← hnat, getAt_set_ne _ _ _ _ h0 (by omega) (fun h => hne h.symm),
      getAt_set_self _ _ _ _ hf]
  · show ((m.inputs.set m.focus.toNat tf.Blur).set pre.length tj.Focus)[pre.length]? = _
    rw [List.getElem?_set]
    simp [hjl]
  · intro i hi1 hi2
    show ((m.inputs.set m.focus.toNat tf.Blur).set pre.length tj.Focus)[i]? = _
    rw [List.getElem?_set, List.getElem?_set]
    have x1 : ¬ pre.length = i := fun h => hi2 h.symm
    have x2 : ¬ m.focus.toNat = i := by omega
    simp only [x1, x2, if_false]
  · show (List.map Textarea.buffer
      ((m.inputs.set m.focus.toNat tf.Blur).set pre.length tj.Focus)) = _
    rw [← hnat] at b
    rw [← hnat, modifyAt_map (f := Textarea.Focus) (g := Textarea.buffer) (fun _ => rfl) b,
      modifyAt_map (f := Textarea.Blur) (g := Textarea.buffer) (fun _ => rfl) a]

/-- C12. A left click on an idle session is dispatched by position in the zone list: when
`pre.length` is the smallest index whose zone contains the click, the handler does what the
branch for that pane does (cursor move when it is the focused pane, focus change otherwise),
and when it returns the focus index is `pre.length`.  When no zone contains the click the
handler returns through the common tail: the focus index is unchanged and each pane is only
resized and handed the event, so the texts and cursors are unchanged where the widget
ignores the click. -/
theorem C12_click_goes_to_first_containing_zone (E : Env) (w : World) (m : model)
    (e : MouseEvent) (hp : w.isPresent = false) (hleft : e.typ = .MouseLeft) :
    (∀ (pre post : List ZoneId) (id : ZoneId), w.zones = pre ++ id :: post →
      (∀ j ∈ pre, InBounds (w.Get j) e = false) → InBounds (w.Get id) e = true →
      ∀ fuel,
        (model.Update E fuel w m (.MouseMsg e) =
          match (if (pre.length : Int) = m.focus then m.clickFocused fuel (w.Get id) e
                 else m.clickOther pre.length) with
          | .error f => .error f
          | .ok (m1, c) => .ok (w, m1, c)) ∧
        ∀ w1 m1 c, model.Update E fuel w m (.MouseMsg e) = .ok (w1, m1, c) →
          m1.focus = pre.length ∧ m1.inputs.length = m.inputs.length) ∧
    ((∀ j ∈ w.zones, InBounds (w.Get j) e = false) →
      ∃ m1, (∀ fuel, model.Update E fuel w m (.MouseMsg e) = .ok (w, m1, .Batch)) ∧
        m1.focus = m.focus ∧ m1.inputs = m.passed E (.MouseMsg e) ∧
        ((∀ t, E.taUpdate t (.MouseMsg e) = t) →
          m1.inputs.map Textarea.shown = m.inputs.map Textarea.shown)) := by
  constructor
  · intro pre post id hz hpre hin fuel
    have hd := updateMouse_hit E fuel w m e pre post id hleft hz hpre hin
    rw [Update_idle_mouse E fuel w m e hp]
    refine ⟨hd, fun w1 m1 c h => ?_⟩
    rw [hd] at h
    by_cases hf : (pre.length : Int) = m.focus
    · rw [if_pos hf] at h
      cases hc : m.clickFocused fuel (w.Get id) e with
      | error f => rw [hc] at h; simp at h
      | ok r =>
        rw [hc] at h
        obtain ⟨m2, c2⟩ := r
        simp only [Except.ok.injEq, Prod.mk.injEq] at h
        obtain ⟨-, rfl, -⟩ := h
        obtain ⟨a, b, -⟩ := clickFocused_fields hc
        exact ⟨by rw [b, hf], a⟩
    · rw [if_neg hf] at h
      cases hc : m.clickOther pre.length with
      | error f => rw [hc] at h; simp at h
      | ok r =>
        rw [hc] at h
        obtain ⟨m2, c2⟩ := r
        simp only [Except.ok.injEq, Prod.mk.injEq] at h
        obtain ⟨-, rfl, -⟩ := h
        obtain ⟨a, b, -⟩ := clickOther_fields hc
        exact ⟨b, a⟩
  · intro hmiss
    refine ⟨{ m.updateKeybindings.sizeInputs with inputs := m.passed E (.MouseMsg e) },
      fun fuel => ?_, rfl, rfl, fun hig => passed_shown E m _ hig⟩
    rw [Update_idle_mouse E fuel w m e hp, updateMouse_miss E fuel w m e hleft hmiss,
      finish_idle E w m _ hp]

theorem Update_add (E : Env) (w : World) (m : model) (k : Key)
    (hp : w.isPresent = false) (hstd : m.keymap.Std) (hen : m.keymap.add.disabled = false)
    (hk : k.String = "ctrl+n") (fuel : Nat) :
    model.Update E fuel w m (.KeyMsg k) = .ok (w,
      { ({ m with inputs := m.inputs ++ [newTextarea] } : model).updateKeybindings.sizeInputs with
        inputs := ({ m with inputs := m.inputs ++ [newTextarea] } : model).passed E (.KeyMsg k) },
      .Batch) := by
  obtain ⟨e1, e2, e3, e4, e5, e6⟩ := Matches_std (k := k) hstd.1
  rw [hk] at e1 e2 e3 e4
  simp at e1 e2 e3 e4
  have e4' : Matches k m.keymap.add = true := by rw [e4, hen]; rfl
  rw [Update_idle_key E fuel w m k hp, updateKey_add e1 e2 e3 e4', finish_idle E w _ _ hp]

theorem passed_append (E : Env) (m : model) (msg : Msg) (h : ∀ t, E.taUpdate t msg = t)
    (l : List Textarea) :
    (({ m with inputs := l } : model).passed E msg).map Textarea.shown = l.map Textarea.shown :=
  passed_shown E { m with inputs := l } msg h

/-- C13. On an idle session with fewer than six panes, the bindings of `newModel` and the
add binding enabled, the add-pane key appends exactly one pane built by `newTextarea`,
which is empty and not focused, to the end of the pane list and leaves the focus index and
the zone list unchanged: the new pane list is the old list followed by the new pane, after
the tail every idle event runs through, and where the widget ignores the key the panes
show what the old panes showed, followed by the empty, unfocused pane. -/
theorem C13_add_appends_one_unfocused_empty_pane (E : Env) (w : World) (m : model) (k : Key)
    (hp : w.isPresent = false) (hstd : m.keymap.Std) (hen : m.keymap.add.disabled = false)
    (hlen : m.inputs.length < 6) (hk : k.String = "ctrl+n") :
    ∃ m1 c, (∀ fuel, model.Update E fuel w m (.KeyMsg k) = .ok (w, m1, c)) ∧
      m1.focus = m.focus ∧ m1.inputs.length = m.inputs.length + 1 ∧
      m1.inputs.length ≤ 6 ∧
      m1.inputs = ({ m with inputs := m.inputs ++ [newTextarea] } : model).passed E (.KeyMsg k) ∧
      newTextarea.Value = "" ∧ newTextarea.Focused = false ∧
      ((∀ t, E.taUpdate t (.KeyMsg k) = t) →
        m1.inputs.map Textarea.shown = m.inputs.map Textarea.shown ++ [newTextarea.shown]) := by
  have hl : (({ m with inputs := m.inputs ++ [newTextarea] } : model).passed E
      (.KeyMsg k)).length = m.inputs.length + 1 := by
    rw [passed_length]; simp
  refine ⟨_, _, fun fuel => Update_add E w m k hp hstd hen hk fuel, rfl, hl, ?_, rfl, by decide,
    by decide, fun hig => ?_⟩
  · show (({ m with inputs := m.inputs ++ [newTextarea] } : model).passed E
      (.KeyMsg k)).length ≤ 6
    rw [hl]; omega
  · show (({ m with inputs := m.inputs ++ [newTextarea] } : model).passed E
      (.KeyMsg k)).map Textarea.shown = _
    rw [passed_append E m _ hig]
    simp

theorem finish_Sized {E : Env} (hE : E.KeepsSize) {w w1 : World} {m m1 : model} {msg : Msg}
    {c : Cmd} (h : model.finish E w m msg = (w1, m1, c)) : m1.Sized := by
  have hm : m1 = (model.finish E w m msg).2.1 := by rw [h]
  rw [hm]
  unfold model.finish model.Sized
  cases hp : w.isPresent
  · simp only [Bool.not_false, if_true, model.sizeInputs, model.updateKeybindings, List.mem_map,
      List.length_map]
    rintro t ⟨a, ⟨b, hb, rfl⟩, rfl⟩
    obtain ⟨x, y⟩ := hE ((b.SetWidth (Int.tdiv m.width m.inputs.length)).SetHeight
      (wrap64 (m.height - helpHeight))) msg
    rw [x, y]
    exact ⟨rfl, rfl⟩
  · simp only [Bool.not_true, Bool.false_eq_true, if_false, model.sizeInputs,
      model.updateKeybindings, List.mem_map, List.length_map]
    rintro t ⟨b, hb, rfl⟩
    exact ⟨rfl, rfl⟩

theorem updateKey_tail {E : Env} {w : World} {m : model} {k : Key}
    {r : World × model × Cmd} (hq : Matches k m.keymap.quit = false)
    (h : model.updateKey E w m k = .ok r) :
    ∃ w0 m0, r = model.finish E w0 m0 (.KeyMsg k) := by
  unfold model.updateKey at h
  rw [if_neg (by rw [hq]; decide)] at h
  split at h
  · split at h
    · simp at h
    dsimp only at h
    split at h
    · simp at h
    simp only [Except.ok.injEq] at h
    exact ⟨_, _, h.symm⟩
  split at h
  · split at h
    · simp at h
    dsimp only at h
    split at h
    · simp at h
    simp only [Except.ok.injEq] at h
    exact ⟨_, _, h.symm⟩
  split at h
  · simp only [Except.ok.injEq] at h
    exact ⟨_, _, h.symm⟩
  split at h
  · split at h
    · dsimp only at h
      split at h
      · simp at h
      split at h
      · simp at h
      split at h
      · simp at h
      simp only [Except.ok.injEq] at h
      exact ⟨_, _, h.symm⟩
    · simp only [Except.ok.injEq] at h
      exact ⟨_, _, h.symm⟩
  split at h
  · split at h
    · simp at h
    simp only [Except.ok.injEq] at h
    exact ⟨_, _, h.symm⟩
  · simp only [Except.ok.injEq] at h
    exact ⟨_, _, h.symm⟩

theorem cursorDownLoop_size (fuel : Nat) (t t1 : Textarea) (y : Int)
    (h : cursorDownLoop fuel t y = .ok t1) : t1.size = t.size := by
  induction fuel generalizing t with
  | zero =>
    unfold cursorDownLoop at h
    split at h
    · simp at h
    · simp only [Except.ok.injEq] at h; rw [← h]
  | succ n ih =>
    unfold cursorDownLoop at h
    split at h
    · rw [ih _ h]
      unfold Textarea.CursorDown
      split <;> rfl
    · simp only [Except.ok.injEq] at h; rw [← h]

theorem cursorUpLoop_size (fuel : Nat) (t t1 : Textarea) (y : Int)
    (h : cursorUpLoop fuel t y = .ok t1) : t1.size = t.size := by
  induction fuel generalizing t with
  | zero =>
    unfold cursorUpLoop at h
    split at h
    · simp at h
    · simp only [Except.ok.injEq] at h; rw [← h]
  | succ n ih =>
    unfold cursorUpLoop at h
    split at h
    · rw [ih _ h]
      unfold Textarea.CursorUp
      split <;> rfl
    · simp only [Except.ok.injEq] at h; rw [← h]

theorem set_map_same {α β : Type} (g : α → β) (l : List α) (i : Int) (a b : α)
    (ha : getAt l i = some a) (hg : g b = g a) : (l.set i.toNat b).map g = l.map g := by
  obtain ⟨-, -, hget⟩ := getAt_eq_some ha
  apply List.ext_getElem?
  intro n
  rw [List.getElem?_map, List.getElem?_map, List.getElem?_set]
  split
  · rename_i hn
    subst hn
    rw [hget]
    split
    · simp [hg]
    · rename_i hlt
      exact absurd (List.getElem?_eq_some_iff.mp hget).1 hlt
  · rfl

theorem clickFocused_sizes {fuel : Nat} {m m1 : model} {z : Option ZoneInfo} {e : MouseEvent}
    {c : Cmd} (h : m.clickFocused fuel z e = .ok (m1, c)) :
    m1.inputs.map Textarea.size = m.inputs.map Textarea.size := by
  unfold model.clickFocused at h
  split at h
  split at h
  · simp at h
  rename_i t0 ht0
  dsimp only at h
  split at h
  · simp at h
  rename_i t1 ht1
  split at h
  · simp at h
  rename_i t2 ht2
  simp only [Except.ok.injEq, Prod.mk.injEq] at h
  obtain ⟨rfl, -⟩ := h
  apply set_map_same Textarea.size _ _ t0 _ ht0
  have a := cursorDownLoop_size _ _ _ _ ht1
  have b := cursorUpLoop_size _ _ _ _ ht2
  rw [← a, ← b]
  rfl

theorem clickOther_sizes {m m1 : model} {i : Nat} {c : Cmd}
    (h : m.clickOther i = .ok (m1, c)) :
    m1.inputs.map Textarea.size = m.inputs.map Textarea.size := by
  unfold model.clickOther at h
  split at h
  · simp at h
  rename_i inputs1 hi1
  split at h
  · simp at h
  rename_i inputs2 hi2
  simp only [Except.ok.injEq, Prod.mk.injEq] at h
  obtain ⟨rfl, -⟩ := h
  show inputs2.map Textarea.size = _
  rw [modifyAt_map (f := Textarea.Focus) (g := Textarea.size) (fun _ => rfl) hi2,
    modifyAt_map (f := Textarea.Blur) (g := Textarea.size) (fun _ => rfl) hi1]

theorem clickZones_sizes {fuel : Nat} {w : World} {m m1 : model} {e : MouseEvent} {c : Cmd}
    (zs : List ZoneId) (i : Nat)
    (h : model.clickZones fuel w m e zs i = .ok (some (m1, c))) :
    m1.inputs.map Textarea.size = m.inputs.map Textarea.size ∧
      m1.width = m.width ∧ m1.height = m.height := by
  induction zs generalizing i with
  | nil => simp [model.clickZones] at h
  | cons id rest ih =>
    unfold model.clickZones at h
    split at h
    · split at h
      · simp at h
      rename_i r hr
      simp only [Except.ok.injEq, Option.some.injEq] at h
      subst h
      split at hr
      · exact ⟨clickFocused_sizes hr, (clickFocused_fields hr).2.2.2⟩
      · exact ⟨clickOther_sizes hr, (clickOther_fields hr).2.2.2.2⟩
    · exact ih _ h

theorem clickZones_none {fuel : Nat} {w : World} {m : model} {e : MouseEvent}
    (zs : List ZoneId) (i : Nat) (h : model.clickZones fuel w m e zs i = .ok none) :
    ∀ j ∈ zs, InBounds (w.Get j) e = false := by
  induction zs generalizing i with
  | nil => intro j hj; simp at hj
  | cons id rest ih =>
    unfold model.clickZones at h
    split at h
    · split at h
      · simp at h
      · simp at h
    · rename_i hb
      intro j hj
      rcases List.mem_cons.mp hj with rfl | hj
      · simpa using hb
      · exact ih _ h j hj

theorem Sized_of_sizes {m m1 : model} (hs : m.Sized)
    (h : m1.inputs.map Textarea.size = m.inputs.map Textarea.size)
    (hw : m1.width = m.width) (hh : m1.height = m.height) : m1.Sized := by
  have hlen : m1.inputs.length = m.inputs.length := by
    have := congrArg List.length h
    simpa using this
  intro t ht
  have hmem : t.size ∈ m.inputs.map Textarea.size := by
    rw [← h]; exact List.mem_map_of_mem _ ht
  obtain ⟨a, ha, hsa⟩ := List.mem_map.mp hmem
  obtain ⟨x, y⟩ := hs a ha
  have hx : t.width = a.width := (congrArg Prod.fst hsa).symm
  have hy : t.height = a.height := (congrArg Prod.snd hsa).symm
  rw [hx, hy, hw, hh, hlen]
  exact ⟨x, y⟩

theorem updateMouse_early_sizes {E : Env} {fuel : Nat} {w w1 : World} {m m1 : model}
    {e : MouseEvent} {c : Cmd} (he : earlyReturn w m (.MouseMsg e) = true)
    (h : model.updateMouse E fuel w m e = .ok (w1, m1, c)) :
    m1.inputs.map Textarea.size = m.inputs.map Textarea.size ∧
      m1.width = m.width ∧ m1.height = m.height := by
  unfold model.updateMouse at h
  split at h
  · split at h
    · simp at h
    rename_i inputs1 hi1
    simp only [Except.ok.injEq, Prod.mk.injEq] at h
    obtain ⟨-, rfl, -⟩ := h
    refine ⟨?_, rfl, rfl⟩
    exact modifyAt_map (f := Textarea.CursorUp) (g := Textarea.size)
      (fun a => by unfold Textarea.CursorUp; split <;> rfl) hi1
  split at h
  · split at h
    · simp at h
    rename_i inputs1 hi1
    simp only [Except.ok.injEq, Prod.mk.injEq] at h
    obtain ⟨-, rfl, -⟩ := h
    refine ⟨?_, rfl, rfl⟩
    exact modifyAt_map (f := Textarea.CursorDown) (g := Textarea.size)
      (fun a => by unfold Textarea.CursorDown; split <;> rfl) hi1
  rename_i hu hd
  split at h
  · split at h
    · simp at h
    · rename_i m2 c2 hz
      simp only [Except.ok.injEq, Prod.mk.injEq] at h
      obtain ⟨-, rfl, -⟩ := h
      exact clickZones_sizes _ _ hz
    · rename_i hz
      have hmiss := clickZones_none _ _ hz
      simp only [earlyReturn, hu, hd, decide_False, Bool.false_or, Bool.and_eq_true,
        List.any_eq_true] at he
      obtain ⟨-, id, hid, hin⟩ := he
      rw [hmiss id hid] at hin
      simp at hin
  · rename_i hl
    simp [earlyReturn, hu, hd, hl] at he

theorem updateMouse_tail (E : Env) (fuel : Nat) (w : World) (m : model) (e : MouseEvent)
    (he : earlyReturn w m (.MouseMsg e) = false) :
    model.updateMouse E fuel w m e = .ok (model.finish E w m (.MouseMsg e)) := by
  simp only [earlyReturn, Bool.or_eq_false_iff, decide_eq_false_iff_not,
    Bool.and_eq_false_iff] at he
  obtain ⟨⟨hu, hd⟩, hl⟩ := he
  by_cases hleft : e.typ = .MouseLeft
  · rcases hl with hl | hl
    · exact absurd hleft hl
    · apply updateMouse_miss E fuel w m e hleft
      intro j hj
      cases hb : InBounds (w.Get j) e
      · rfl
      · have : w.zones.any (fun id => InBounds (w.Get id) e) = true :=
          List.any_eq_true.mpr ⟨j, hj, hb⟩
        rw [this] at hl
        simp at hl
  · unfold model.updateMouse
    rw [if_neg hu, if_neg hd, if_neg hleft]

theorem tail_Sized {E : Env} (hE : E.KeepsSize) {w : World} {m : model} {msg : Msg}
    {r : World × model × Cmd} (hr : ∀ fuel, model.Update E fuel w m msg = .ok r)
    (hfin : ∃ w0 m0, r = model.finish E w0 m0 msg) :
    ∃ w1 m1 c, (∀ fuel, model.Update E fuel w m msg = .ok (w1, m1, c)) ∧ m1.Sized := by
  obtain ⟨w0, m0, rfl⟩ := hfin
  exact ⟨(model.finish E w0 m0 msg).1, (model.finish E w0 m0 msg).2.1,
    (model.finish E w0 m0 msg).2.2, hr, @finish_Sized E hE w0 _ m0 _ msg _ rfl⟩

/-- C14, amended.  On a well-formed idle session, with a widget whose own event handling
keeps the size it was given: every event that reaches the tail of `Update` (any key but the
quit key, a resize, a left click outside every zone, other mouse events, any other event)
returns with the layout recomputed, every pane `width / len(inputs)` wide and `height - 5`
high; the quit key, the mouse wheel and a left click inside a zone return before the layout
pass and leave the stored terminal size and the size of every pane as they were, so the
layout is current after them exactly when it was current before. -/
theorem C14_layout_recomputed_by_the_tail (E : Env) (w : World) (m : model) (msg : Msg)
    (hp : w.isPresent = false) (hwf : m.WF) (hz : ZonesCover w m) (hl : m.Lines)
    (hE : E.KeepsSize) :
    (earlyReturn w m msg = false →
      ∃ w1 m1 c, (∀ fuel, model.Update E fuel w m msg = .ok (w1, m1, c)) ∧ m1.Sized) ∧
    (earlyReturn w m msg = true →
      ∃ N w1 m1 c, (∀ fuel, N ≤ fuel → model.Update E fuel w m msg = .ok (w1, m1, c)) ∧
        m1.width = m.width ∧ m1.height = m.height ∧
        m1.inputs.map Textarea.size = m.inputs.map Textarea.size ∧
        (m.Sized → m1.Sized)) := by
  constructor
  · intro he
    cases msg with
    | KeyMsg k =>
      obtain ⟨r, hr⟩ := updateKey_total E k hwf hz
      exact tail_Sized hE (fun fuel => by rw [Update_idle_key E fuel w m k hp, hr])
        (updateKey_tail he hr)
    | WindowSizeMsg a b =>
      refine tail_Sized hE (r := model.finish E w { m with height := b, width := a }
        (.WindowSizeMsg a b)) (fun fuel => ?_) ⟨_, _, rfl⟩
      unfold model.Update
      rw [if_neg (by rw [hp]; decide)]
    | MouseMsg e =>
      exact tail_Sized hE (fun fuel => by
        rw [Update_idle_mouse E fuel w m e hp, updateMouse_tail E fuel w m e he]) ⟨_, _, rfl⟩
    | Other n =>
      refine tail_Sized hE (r := model.finish E w m (.Other n)) (fun fuel => ?_) ⟨_, _, rfl⟩
      unfold model.Update
      rw [if_neg (by rw [hp]; decide)]
  · intro he
    obtain ⟨N, ⟨w1, m1, c⟩, hN⟩ := Update_total E msg hwf (fun _ => hz) hl
    have hfacts : m1.inputs.map Textarea.size = m.inputs.map Textarea.size ∧
        m1.width = m.width ∧ m1.height = m.height := by
      have h := hN N (Nat.le_refl _)
      cases msg with
      | KeyMsg k =>
        rw [Update_idle_key E N w m k hp, updateKey_quit he] at h
        simp only [Except.ok.injEq, Prod.mk.injEq] at h
        obtain ⟨-, rfl, -⟩ := h
        refine ⟨?_, rfl, rfl⟩
        simp only [List.map_map]
        apply List.map_congr_left
        intro t _
        rfl
      | WindowSizeMsg a b => simp [earlyReturn] at he
      | MouseMsg e =>
        rw [Update_idle_mouse E N w m e hp] at h
        exact updateMouse_early_sizes he h
      | Other n => simp [earlyReturn] at he
    obtain ⟨a, b, c1⟩ := hfacts
    exact ⟨N, w1, m1, c, hN, b, c1, a, fun hs => Sized_of_sizes hs a b c1⟩

/-- C14 as stated fails at program start: a mouse-wheel event handled first returns with
the stored size 0 by 0 and the one pane still 40 by 6, not 0 wide and -5 high. -/
theorem C14_counterexample_wheel_at_start :
    (model.Update demoEnv 0 (initWorld ⟨[]⟩) newModel (.MouseMsg ⟨0, 0, .MouseWheelUp⟩)).map
        (fun r => (r.2.1.width, r.2.1.height, r.2.1.inputs.map Textarea.size)) =
      .ok (0, 0, [(40, 6)]) ∧
    Int.tdiv 0 (1 : Nat) = 0 ∧ wrap64 (0 - helpHeight) = -5 := by
  refine ⟨?_, ?_, ?_⟩ <;> rfl

theorem demoEnv_keepsSize : demoEnv.KeepsSize := by
  intro t msg
  show (demoTextarea t msg).width = t.width ∧ (demoTextarea t msg).height = t.height
  unfold demoTextarea
  cases msg with
  | KeyMsg k =>
    simp only
    split
    · split <;> exact ⟨rfl, rfl⟩
    · exact ⟨rfl, rfl⟩
  | _ => exact ⟨rfl, rfl⟩

theorem lookup_filter_ne (l : List (FileId × String)) (p q : FileId) (h : q ≠ p) :
    (l.filter (fun x => x.1 != p)).lookup q = l.lookup q := by
  induction l with
  | nil => rfl
  | cons a rest ih =>
    obtain ⟨k, v⟩ := a
    by_cases hk : k = p
    · subst hk
      have hq : (q == k) = false := by simpa using h
      simp [List.filter, List.lookup, hq, ih]
    · have hk1 : (k != p) = true := by simpa using hk
      simp only [List.filter, hk1, List.lookup]
      rw [ih]

theorem put_read_other (fs : FileSystem) (p q : FileId) (data : String) (h : q ≠ p) :
    (fs.put p data).read q = fs.read q := by
  unfold FileSystem.put FileSystem.read
  have hq : (q == p) = false := by simpa using h
  simp only [List.lookup, hq]
  exact lookup_filter_ne fs.files p q h

theorem osCreate_read_other (E : Env) (fs : FileSystem) (name : String) (q : FileId)
    (h : q ≠ E.resolve name) : (osCreate E fs name).read q = fs.read q := by
  unfold osCreate
  split
  · exact put_read_other _ _ _ _ h
  · rfl

theorem osWriteFile_read_other (E : Env) (fs : FileSystem) (name data : String) (q : FileId)
    (h : q ≠ E.resolve name) : (osWriteFile E fs name data).read q = fs.read q := by
  unfold osWriteFile
  split
  · exact put_read_other _ _ _ _ h
  · split
    · rfl
    · exact put_read_other _ _ _ _ h

theorem promptNext_confirm (E : Env) (w : World) (e : Msg) (he : e.isConfirm = true) :
    promptNext E w e =
      { w with
        fs := osWriteFile E (osCreate E w.fs w.store.textInput.Value)
          w.store.textInput.Value w.text,
        isPresent := false,
        store := { w.store with textInput := E.tiUpdate w.store.textInput e } } := by
  unfold promptNext
  rw [prompt_confirm E w w.store e he]

/-- C15. While the save prompt is open, a confirm key closes it whatever `os.Create` and
`os.WriteFile` answer: the handler returns the session it was given, `isPresent` becomes
false, and the prompt's error field, the snapshot and the zone list are what they were.
Nothing but the file system depends on the outcome of the two calls: an environment that
differs only in those outcomes (one where both always succeed, say) ends in the same
state apart from the files. -/
theorem C15_confirm_closes_prompt_whatever_the_io_outcome (E : Env) (w : World) (m : model)
    (e : Msg) (hp : w.isPresent = true) (he : e.isConfirm = true) :
    ∃ w1, (∀ fuel, model.Update E fuel w m e = .ok (w1, m, .nil)) ∧
      w1.isPresent = false ∧ w1.store.err = w.store.err ∧ w1.store.idx = w.store.idx ∧
      w1.text = w.text ∧ w1.zones = w.zones ∧
      ∀ E2 : Env, E2.taUpdate = E.taUpdate → E2.tiUpdate = E.tiUpdate →
        ∃ w2, (∀ fuel, model.Update E2 fuel w m e = .ok (w2, m, .nil)) ∧
          { w2 with fs := w1.fs } = w1 := by
  refine ⟨promptNext E w e, fun fuel => Update_prompt E fuel w m e hp, ?_, ?_, ?_, ?_, ?_, ?_⟩
  · rw [promptNext_confirm E w e he]
  · rw [promptNext_confirm E w e he]
  · rw [promptNext_confirm E w e he]
  · rw [promptNext_confirm E w e he]
  · rw [promptNext_confirm E w e he]
  · intro E2 _ h2
    refine ⟨promptNext E2 w e, fun fuel => Update_prompt E2 fuel w m e hp, ?_⟩
    rw [promptNext_confirm E w e he, promptNext_confirm E2 w e he, h2]

/-- C16, amended.  A confirm key while the save prompt is open, with `F` the filename held
by the input.  Whatever `os.Create` and `os.WriteFile` answer, no file other than the one
`F` names is changed.  When `os.Create` fails and `os.WriteFile` fails without having
opened the file, the file system afterwards is the one before; when `os.Create` fails and
`os.WriteFile` fails after opening the file, the file holds what the failed write left in
it.  When `os.Create` succeeds and `os.WriteFile` fails, the file exists afterwards and is
empty or holds what the failed write left in it: a file that was there has lost its
bytes.  When `os.Create` fails and `os.WriteFile` succeeds the file holds the snapshot. -/
theorem C16_failed_save_and_the_file_system (E : Env) (w : World) (m : model) (e : Msg)
    (F : String) (hp : w.isPresent = true) (he : e.isConfirm = true)
    (hF : w.store.textInput.Value = F) :
    ∃ w1, (∀ fuel, model.Update E fuel w m e = .ok (w1, m, .nil)) ∧
      (∀ file, file ≠ E.resolve F → w1.fs.read file = w.fs.read file) ∧
      (E.createOk w.fs F = false → E.writeOk w.fs F w.text = false →
        (E.writeLeft w.fs F w.text = none → w1.fs = w.fs) ∧
        (∀ left, E.writeLeft w.fs F w.text = some left →
          w1.fs.read (E.resolve F) = some left)) ∧
      (E.createOk w.fs F = true → E.writeOk (w.fs.put (E.resolve F) "") F w.text = false →
        w1.fs.read (E.resolve F) =
          some ((E.writeLeft (w.fs.put (E.resolve F) "") F w.text).getD "")) ∧
      (E.createOk w.fs F = false → E.writeOk w.fs F w.text = true →
        w1.fs.read (E.resolve F) = some w.text) := by
  have hfs : (promptNext E w e).fs = osWriteFile E (osCreate E w.fs F) F w.text := by
    rw [promptNext_confirm E w e he, hF]
  refine ⟨promptNext E w e, fun fuel => Update_prompt E fuel w m e hp, ?_, ?_, ?_, ?_⟩
  · intro file hne
    rw [hfs, osWriteFile_read_other E _ _ _ _ hne, osCreate_read_other E _ _ _ hne]
  · intro hc hw
    refine ⟨fun hl => ?_, fun left hl => ?_⟩
    · rw [hfs]
      simp only [osCreate, osWriteFile, hc, hw, hl, Bool.false_eq_true, if_false]
    · rw [hfs]
      simp only [osCreate, osWriteFile, hc, hw, hl, Bool.false_eq_true, if_false]
      exact put_read _ _ _
  · intro hc hw
    rw [hfs]
    simp only [osCreate, osWriteFile, hc, hw, Bool.false_eq_true, if_false, if_true]
    cases E.writeLeft (w.fs.put (E.resolve F) "") F w.text with
    | none => exact put_read _ _ _
    | some left => exact put_read _ _ _
  · intro hc hw
    rw [hfs]
    simp only [osCreate, osWriteFile, hc, hw, Bool.false_eq_true, if_false, if_true]
    exact put_read _ _ _

/-- C16 as stated fails on a full disk: `out.txt` holds `old`, the pane holds `hello`, the
prompt holds `out.txt`; `os.Create` truncates the file, the write step of the confirm
fails, and afterwards `out.txt` is empty. -/
theorem C16_counterexample_truncated_file :
    (eventLoop fullDiskEnv 0 (initWorld ⟨[(⟨"out.txt"⟩, "old")]⟩, newModel)
        [runes "hello", press .KeyCtrlS, runes "out.txt"]).map
        (fun s => (s.1.isPresent, s.1.text, s.1.store.textInput.Value,
          s.1.fs.read (fullDiskEnv.resolve "out.txt"))) =
      .ok (true, "hello", "out.txt", some "old") ∧
    (∀ fs name data, fullDiskEnv.writeOk fs name data = false) ∧
    (eventLoop fullDiskEnv 0 (initWorld ⟨[(⟨"out.txt"⟩, "old")]⟩, newModel)
        [runes "hello", press .KeyCtrlS, runes "out.txt", press .KeyEnter]).map
        (fun s => (s.1.isPresent, s.1.fs.read (fullDiskEnv.resolve "out.txt"))) =
      .ok (false, some "") := by
  refine ⟨by rfl, fun _ _ _ => rfl, by rfl⟩

/-- C15 at the save prompt of the worked examples. -/
theorem C15_witness :
    ∃ w1, model.Update demoEnv 0 promptOpen.1 promptOpen.2 (press .KeyEnter) =
        .ok (w1, promptOpen.2, .nil) ∧
      w1.isPresent = false ∧ w1.store.err = none := by
  obtain ⟨w1, h, a, b, -⟩ :=
    C15_confirm_closes_prompt_whatever_the_io_outcome demoEnv promptOpen.1 promptOpen.2
      (press .KeyEnter) rfl rfl
  exact ⟨w1, h 0, a, b⟩

/-- C16 on a full disk: the prompt holds `./out.txt`, the disk holds `out.txt` and `b.txt`;
after the confirm key `out.txt` is empty and `b.txt` is what it was. -/
theorem C16_witness :
    ∃ w1, model.Update fullDiskEnv 0 { promptDotSlash.1 with fs := twoFiles } promptDotSlash.2
        (press .KeyEnter) = .ok (w1, promptDotSlash.2, .nil) ∧
      twoFiles.read (fullDiskEnv.resolve "out.txt") = some "old" ∧
      w1.fs.read (fullDiskEnv.resolve "out.txt") = some "" ∧
      w1.fs.read (fullDiskEnv.resolve "b.txt") = some "keep" := by
  obtain ⟨w1, h, a, -, b, -⟩ :=
    C16_failed_save_and_the_file_system fullDiskEnv { promptDotSlash.1 with fs := twoFiles }
      promptDotSlash.2 (press .KeyEnter) "./out.txt" rfl rfl rfl
  exact ⟨w1, h 0, rfl, b rfl rfl, (a (fullDiskEnv.resolve "b.txt") (by decide)).trans rfl⟩

theorem cursorDownCount_fst (fuel : Nat) (t : Textarea) (y : Int) :
    (cursorDownCount fuel t y).map Prod.fst = cursorDownLoop fuel t y := by
  induction fuel generalizing t with
  | zero =>
    unfold cursorDownCount cursorDownLoop
    split <;> rfl
  | succ n ih =>
    unfold cursorDownCount cursorDownLoop
    split
    · rw [← ih]
      cases cursorDownCount n t.CursorDown y with
      | error f => rfl
      | ok r => rfl
    · rfl

theorem cursorUpCount_fst (fuel : Nat) (t : Textarea) (y : Int) :
    (cursorUpCount fuel t y).map Prod.fst = cursorUpLoop fuel t y := by
  induction fuel generalizing t with
  | zero =>
    unfold cursorUpCount cursorUpLoop
    split <;> rfl
  | succ n ih =>
    unfold cursorUpCount cursorUpLoop
    split
    · rw [← ih]
      cases cursorUpCount n t.CursorUp y with
      | error f => rfl
      | ok r => rfl
    · rfl

theorem cursorDownCount_eq (fuel : Nat) (t : Textarea) (y : Int)
    (hy : y ≤ t.LineCount - 1) (hf : (y - t.row).toNat ≤ fuel) :
    cursorDownCount fuel t y = .ok ({ t with row := max t.row y }, (y - t.row).toNat) := by
  induction fuel generalizing t with
  | zero =>
    have hle : y ≤ t.row := by omega
    have : ¬ (t.Line < y) := by simp only [Textarea.Line]; omega
    have e : max t.row y = t.row := by unfold max; split <;> omega
    have e0 : (y - t.row).toNat = 0 := by omega
    simp only [cursorDownCount, this, if_false, e, e0]
  | succ n ih =>
    unfold cursorDownCount
    by_cases hlt : t.Line < y
    · simp only [hlt, if_true]
      have hlt1 : t.row < y := hlt
      have hcd : t.CursorDown = { t with row := t.row + 1 } := by
        unfold Textarea.CursorDown
        rw [if_pos (by omega)]
      rw [hcd, ih]
      · have e1 : max (t.row + 1) y = y := by unfold max; split <;> omega
        have e2 : max t.row y = y := by unfold max; split <;> omega
        have e3 : (y - (t.row + 1)).toNat + 1 = (y - t.row).toNat := by omega
        simp only [e1, e2, e3]
      · simpa [Textarea.LineCount] using hy
      · simp only; omega
    · simp only [hlt, if_false]
      have hle : y ≤ t.row := by simp only [Textarea.Line] at hlt; omega
      have e : max t.row y = t.row := by unfold max; split <;> omega
      have e0 : (y - t.row).toNat = 0 := by omega
      rw [e, e0]

theorem cursorUpCount_eq (fuel : Nat) (t : Textarea) (y : Int)
    (hy : 0 ≤ y) (hf : (t.row - y).toNat ≤ fuel) :
    cursorUpCount fuel t y = .ok ({ t with row := min t.row y }, (t.row - y).toNat) := by
  induction fuel generalizing t with
  | zero =>
    have hle : t.row ≤ y := by omega
    have : ¬ (y < t.Line) := by simp only [Textarea.Line]; omega
    have e : min t.row y = t.row := by unfold min; split <;> omega
    have e0 : (t.row - y).toNat = 0 := by omega
    simp only [cursorUpCount, this, if_false, e, e0]
  | succ n ih =>
    unfold cursorUpCount
    by_cases hlt : y < t.Line
    · simp only [hlt, if_true]
      have hlt1 : y < t.row := hlt
      have hcd : t.CursorUp = { t with row := t.row - 1 } := by
        unfold Textarea.CursorUp
        rw [if_pos (by omega)]
      rw [hcd, ih]
      · have e1 : min (t.row - 1) y = y := by unfold min; split <;> omega
        have e2 : min t.row y = y := by unfold min; split <;> omega
        have e3 : (t.row - 1 - y).toNat + 1 = (t.row - y).toNat := by omega
        simp only [e1, e2, e3]
      · simp only; omega
    · simp only [hlt, if_false]
      have hle : t.row ≤ y := by simp only [Textarea.Line] at hlt; omega
      have e : min t.row y = t.row := by unfold min; split <;> omega
      have e0 : (t.row - y).toNat = 0 := by omega
      rw [e, e0]

/-- C18. For a pane with at least one line and its cursor on any row `r`, and a
click at zone-relative height `y` asking for row `T` (`y - 1` clamped to
`[0, lineCount - 1]`): given fuel for `|r - T|` steps, the two cursor loops of the click
handler return, the down loop after `T - r` calls of `CursorDown` when `T` is below `r`
and none otherwise, the up loop after `r - T` calls of `CursorUp` when `T` is above and
none otherwise, `|r - T|` single-line steps together, and the cursor row is `T` at the
end.  The counted loops return the panes the loops of the handler return. -/
theorem C18_cursor_loops_take_the_distance_in_steps (t : Textarea) (y : Int) (fuel : Nat)
    (hl : 1 ≤ t.LineCount)
    (hf : (t.row - clickRow t y).natAbs ≤ fuel) :
    cursorDownCount fuel t (clickRow t y) =
      .ok ({ t with row := max t.row (clickRow t y) }, (clickRow t y - t.row).toNat) ∧
    cursorUpCount fuel { t with row := max t.row (clickRow t y) } (clickRow t y) =
      .ok ({ t with row := clickRow t y }, (t.row - clickRow t y).toNat) ∧
    (clickRow t y - t.row).toNat + (t.row - clickRow t y).toNat =
      (t.row - clickRow t y).natAbs ∧
    cursorDownLoop fuel t (clickRow t y) = .ok { t with row := max t.row (clickRow t y) } ∧
    cursorUpLoop fuel { t with row := max t.row (clickRow t y) } (clickRow t y) =
      .ok { t with row := clickRow t y } ∧
    0 ≤ clickRow t y ∧ clickRow t y ≤ t.LineCount - 1 ∧
    (-2 ^ 63 < y → y ≤ 2 ^ 63 → clickRow t y = min (max 0 (y - 1)) (t.LineCount - 1)) := by
  have hb : 0 ≤ clickRow t y ∧ clickRow t y ≤ t.LineCount - 1 :=
    clamp_bounds (wrap64 (y - 1)) t.LineCount hl
  have hwrap : -2 ^ 63 < y → y ≤ 2 ^ 63 →
      clickRow t y = min (max 0 (y - 1)) (t.LineCount - 1) := by
    intro h1 h2
    unfold clickRow
    rw [wrap64_id _ (by omega) (by omega)]
  generalize clickRow t y = T at hb hf hwrap ⊢
  obtain ⟨hb0, hb1⟩ := hb
  have hd := cursorDownCount_eq fuel t T hb1 (by omega)
  have e1 : max t.row T - T = t.row - T ∨ max t.row T = T := by
    unfold max; split <;> omega
  have hmax : (max t.row T - T).toNat = (t.row - T).toNat := by
    unfold max; split <;> omega
  have hmin : min (max t.row T) T = T := by unfold min max; split <;> split <;> omega
  have hu := cursorUpCount_eq fuel { t with row := max t.row T } T hb0
    (by simp only; rw [hmax]; omega)
  simp only [hmin, hmax] at hu
  refine ⟨hd, hu, by omega, ?_, ?_, hb0, hb1, hwrap⟩
  · rw [← cursorDownCount_fst, hd]; rfl
  · rw [← cursorUpCount_fst, hu]; rfl

/-- C18 at a three-line pane with the cursor on the last row and a click on the first. -/
theorem C18_witness :
    cursorDownCount 2 (twoPanes.2.inputs.headD newTextarea) 0 =
      .ok (twoPanes.2.inputs.headD newTextarea, 0) ∧
    (cursorUpCount 2 (twoPanes.2.inputs.headD newTextarea) 0).map (fun r => (r.1.row, r.2)) =
      .ok (0, 2) := by
  have h := C18_cursor_loops_take_the_distance_in_steps (twoPanes.2.inputs.headD newTextarea)
    1 2 (by decide) (by decide)
  obtain ⟨hd, hu, -⟩ := h
  constructor
  · rw [show (0 : Int) = clickRow (twoPanes.2.inputs.headD newTextarea) 1 from by rfl, hd]
    rfl
  · have e : ({ (twoPanes.2.inputs.headD newTextarea) with
        row := max (twoPanes.2.inputs.headD newTextarea).row
          (clickRow (twoPanes.2.inputs.headD newTextarea) 1) } : Textarea) =
        twoPanes.2.inputs.headD newTextarea := by rfl
    rw [e] at hu
    rw [show (0 : Int) = clickRow (twoPanes.2.inputs.headD newTextarea) 1 from by rfl, hu]
    rfl

theorem tdiv_facts (W : Int) (n : Nat) (hW : 0 ≤ W) (hn : 1 ≤ n) :
    Int.tdiv W n = W / n ∧ (n : Int) * (W / n) ≤ W ∧ W - n * (W / n) < n := by
  have hn0 : (0 : Int) < n := by omega
  have h1 : Int.tdiv W n = W / n := Int.tdiv_eq_ediv hW (by omega)
  have h2 := Int.emod_add_ediv W n
  have h3 := Int.emod_nonneg W (show (n : Int) ≠ 0 by omega)
  have h4 := Int.emod_lt_of_pos W hn0
  refine ⟨h1, ?_, ?_⟩
  · omega
  · omega

/-- C17. A resize event with width `W >= 0` and height `H` on an idle session with
`n >= 1` panes: the handler returns, stores `W` and `H`, and the layout pass sets every
pane `W / n` wide (the divisor `n` is not zero; Go's truncating division, which here is
the floor) and `H - 5` high (Go's 64-bit subtraction, the number `H - 5` whenever that is
representable) before each pane is handed the event, so the panes end with that size where
the widget keeps the size it is given.  The widths add up to `n * (W / n)`, which is at
most `W` and misses `W` by fewer than `n` columns. -/
theorem C17_resize_divides_width_among_panes (E : Env) (w : World) (m : model) (W H : Int)
    (hp : w.isPresent = false) (hn : 1 ≤ m.inputs.length) (hW : 0 ≤ W) :
    ∃ (m1 : model) (sized : List Textarea),
      (∀ fuel, model.Update E fuel w m (.WindowSizeMsg W H) = .ok (w, m1, .Batch)) ∧
      m1.width = W ∧ m1.height = H ∧ m1.inputs.length = m.inputs.length ∧
      (m.inputs.length : Int) ≠ 0 ∧
      sized.length = m.inputs.length ∧
      (∀ t ∈ sized, t.width = Int.tdiv W m.inputs.length ∧ t.height = wrap64 (H - helpHeight)) ∧
      m1.inputs = sized.map (fun t => E.taUpdate t (.WindowSizeMsg W H)) ∧
      (E.KeepsSize → ∀ t ∈ m1.inputs,
        t.width = W / m.inputs.length ∧ t.height = wrap64 (H - 5)) ∧
      (-2 ^ 63 + 5 ≤ H → H < 2 ^ 63 → wrap64 (H - 5) = H - 5) ∧
      Int.tdiv W m.inputs.length = W / m.inputs.length ∧
      (m.inputs.length : Int) * (W / m.inputs.length) ≤ W ∧
      W - m.inputs.length * (W / m.inputs.length) < m.inputs.length := by
  obtain ⟨d1, d2, d3⟩ := tdiv_facts W m.inputs.length hW hn
  have hsz : ∀ t ∈ ({ m with height := H, width := W } : model).sizeInputs.inputs,
      t.width = Int.tdiv W m.inputs.length ∧ t.height = wrap64 (H - helpHeight) := by
    intro t ht
    simp only [model.sizeInputs, List.mem_map] at ht
    obtain ⟨a, -, rfl⟩ := ht
    exact ⟨rfl, rfl⟩
  refine ⟨{ ({ m with height := H, width := W } : model).updateKeybindings.sizeInputs with
      inputs := ({ m with height := H, width := W } : model).passed E (.WindowSizeMsg W H) },
    ({ m with height := H, width := W } : model).sizeInputs.inputs,
    fun fuel => ?_, rfl, rfl, ?_, by omega, ?_, hsz, rfl, ?_, ?_, d1, d2, d3⟩
  · unfold model.Update
    rw [if_neg (by rw [hp]; decide)]
    simp only
    rw [finish_idle E w _ _ hp]
  · exact passed_length E _ _
  · simp [model.sizeInputs]
  · intro hE t ht
    simp only [model.passed, List.mem_map] at ht
    obtain ⟨a, ha, rfl⟩ := ht
    obtain ⟨x, y⟩ := hE a (.WindowSizeMsg W H)
    obtain ⟨p, q⟩ := hsz a ha
    rw [x, y, p, q, d1]
    exact ⟨rfl, rfl⟩
  · intro h1 h2
    exact wrap64_id _ (by omega) (by omega)

/-- C17 at two panes and an 81 by 24 terminal: 40 columns each, one column left over. -/
theorem C17_witness :
    ∃ m1, model.Update demoEnv 0 twoPanes.1 twoPanes.2 (.WindowSizeMsg 81 24) =
        .ok (twoPanes.1, m1, .Batch) ∧
      m1.inputs.map Textarea.size = [(40, 19), (40, 19)] ∧ (81 : Int) - 2 * 40 < 2 := by
  obtain ⟨m1, sized, h, -⟩ :=
    C17_resize_divides_width_among_panes demoEnv twoPanes.1 twoPanes.2 81 24 rfl (by decide)
      (by decide)
  refine ⟨m1, h 0, ?_, by decide⟩
  have h1 : (model.Update demoEnv 0 twoPanes.1 twoPanes.2 (.WindowSizeMsg 81 24)).map
      (fun r => r.2.1.inputs.map Textarea.size) = .ok [(40, 19), (40, 19)] := by rfl
  rw [h 0] at h1
  simpa [Except.map] using h1

/-- C14 at two panes: a resize recomputes the layout, a mouse wheel leaves it as it is. -/
theorem C14_witness :
    (∃ w1 m1 c, model.Update demoEnv 0 twoPanes.1 twoPanes.2 (.WindowSizeMsg 81 24) =
        .ok (w1, m1, c) ∧ m1.Sized) ∧
    (∃ N w1 m1 c, model.Update demoEnv N twoPanes.1 twoPanes.2
        (.MouseMsg ⟨0, 0, .MouseWheelUp⟩) = .ok (w1, m1, c) ∧
      m1.inputs.map Textarea.size = twoPanes.2.inputs.map Textarea.size) := by
  have hwf : twoPanes.2.WF := by
    refine ⟨?_, ?_, ?_, ?_, ?_, ?_⟩ <;> decide
  have hl : twoPanes.2.Lines := by
    intro t ht
    have hi : twoPanes.2.inputs = [twoPanes.2.inputs.headD newTextarea,
        (twoPanes.2.inputs.drop 1).headD newTextarea] := by rfl
    rw [hi] at ht
    simp only [List.mem_cons, List.mem_singleton, List.not_mem_nil, or_false] at ht
    rcases ht with rfl | rfl <;> decide
  obtain ⟨h1, h2⟩ := C14_layout_recomputed_by_the_tail demoEnv twoPanes.1 twoPanes.2
    (.WindowSizeMsg 81 24) rfl hwf (Or.inl rfl) hl demoEnv_keepsSize
  obtain ⟨-, h4⟩ := C14_layout_recomputed_by_the_tail demoEnv twoPanes.1 twoPanes.2
    (.MouseMsg ⟨0, 0, .MouseWheelUp⟩) rfl hwf (Or.inl rfl) hl demoEnv_keepsSize
  obtain ⟨w1, m1, c, a, b⟩ := h1 rfl
  obtain ⟨N, w2, m2, c2, a2, -, -, b2, -⟩ := h4 rfl
  exact ⟨⟨w1, m1, c, a 0, b⟩, ⟨N, w2, m2, c2, a2 N (Nat.le_refl _), b2⟩⟩

theorem blurred_of_blur {l l1 : List Textarea} {f : Int} (h : OnlyFocused l f.toNat)
    (hb : modifyAt Textarea.Blur l f = some l1) : AllBlurred l1 := by
  obtain ⟨a, ha, rfl⟩ := modifyAt_eq_some hb
  intro t ht
  obtain ⟨n, hn⟩ := List.mem_iff_getElem?.mp ht
  rw [List.getElem?_set] at hn
  split at hn
  · split at hn
    · rw [← Option.some.inj hn]; rfl
    · simp at hn
  · rename_i hne
    cases hf : t.Focused
    · rfl
    · exact absurd ((h n t hn).mp hf).symm hne

theorem focused_of_focus {l l1 : List Textarea} {j : Int} (h : AllBlurred l)
    (hb : modifyAt Textarea.Focus l j = some l1) : OnlyFocused l1 j.toNat := by
  obtain ⟨a, ha, rfl⟩ := modifyAt_eq_some hb
  intro i t hi
  rw [List.getElem?_set] at hi
  split at hi
  · rename_i hji
    split at hi
    · rw [← Option.some.inj hi]
      exact ⟨fun _ => hji.symm, fun _ => rfl⟩
    · simp at hi
  · rename_i hne
    have := h t (List.getElem?_mem hi)
    rw [this]
    exact ⟨fun h => by simp at h, fun h => absurd h.symm hne⟩

theorem blurred_of_erase {l l1 : List Textarea} {f : Int} (h : OnlyFocused l f.toNat)
    (hb : removeAt l f = some l1) : AllBlurred l1 := by
  obtain ⟨-, -, rfl⟩ := removeAt_eq_some hb
  intro t ht
  obtain ⟨n, hn⟩ := List.mem_iff_getElem?.mp ht
  rw [List.getElem?_eraseIdx] at hn
  cases hf : t.Focused
  · rfl
  · split at hn
    · have := (h n t hn).mp hf
      omega
    · have := (h (n + 1) t hn).mp hf
      omega

theorem onlyFocused_map {l : List Textarea} {j : Nat} (g : Textarea → Textarea)
    (hg : ∀ t, (g t).Focused = t.Focused) (h : OnlyFocused l j) : OnlyFocused (l.map g) j := by
  intro i t hi
  rw [List.getElem?_map] at hi
  cases hli : l[i]? with
  | none => rw [hli] at hi; simp at hi
  | some a =>
    rw [hli] at hi
    simp only [Option.map_some', Option.some.injEq] at hi
    rw [← hi, hg]
    exact h i a hli

theorem onlyFocused_modify {l l1 : List Textarea} {j : Nat} {i : Int} (g : Textarea → Textarea)
    (hg : ∀ t, (g t).Focused = t.Focused) (h : OnlyFocused l j)
    (hm : modifyAt g l i = some l1) : OnlyFocused l1 j := by
  obtain ⟨a, ha, rfl⟩ := modifyAt_eq_some hm
  obtain ⟨-, -, hget⟩ := getAt_eq_some ha
  intro n t hn
  rw [List.getElem?_set] at hn
  split at hn
  · rename_i hin
    split at hn
    · rw [← Option.some.inj hn, hg, ← hin]
      exact h _ a hget
    · simp at hn
  · exact h n t hn

theorem onlyFocused_append {l : List Textarea} {j : Nat} (h : OnlyFocused l j)
    (hj : j < l.length) : OnlyFocused (l ++ [newTextarea]) j := by
  intro i t hi
  by_cases hlt : i < l.length
  · rw [List.getElem?_append_left hlt] at hi
    exact h i t hi
  · rw [List.getElem?_append_right (by omega)] at hi
    have hi0 : i - l.length = 0 := by
      cases hk : i - l.length with
      | zero => rfl
      | succ k => rw [hk] at hi; simp at hi
    rw [hi0] at hi
    simp only [List.getElem?_cons_zero, Option.some.injEq] at hi
    rw [← hi]
    exact ⟨fun h => by simp [newTextarea, Textarea.Focused, Textarea.Blur] at h, fun h => by omega⟩

theorem finish_FocusOk {E : Env} (hE : E.KeepsFocus) {w w1 : World} {m m1 : model} {msg : Msg}
    {c : Cmd} (h : model.finish E w m msg = (w1, m1, c)) (hf : m.FocusOk) : m1.FocusOk := by
  have hm : m1 = (model.finish E w m msg).2.1 := by rw [h]
  rw [hm]
  refine ⟨by rw [finish_focus]; exact hf.1, ?_⟩
  rw [finish_focus]
  have hs : OnlyFocused m.updateKeybindings.sizeInputs.inputs m.focus.toNat :=
    onlyFocused_map _ (fun _ => rfl) hf.2
  unfold model.finish
  cases hp : w.isPresent
  · simp only [Bool.not_false, if_true]
    exact onlyFocused_map _ (fun t => hE t msg) hs
  · simp only [Bool.not_true, Bool.false_eq_true, if_false]
    exact hs

theorem cursorDownLoop_focused (fuel : Nat) (t t1 : Textarea) (y : Int)
    (h : cursorDownLoop fuel t y = .ok t1) : t1.Focused = t.Focused := by
  induction fuel generalizing t with
  | zero =>
    unfold cursorDownLoop at h
    split at h
    · simp at h
    · simp only [Except.ok.injEq] at h; rw [← h]
  | succ n ih =>
    unfold cursorDownLoop at h
    split at h
    · rw [ih _ h]
      unfold Textarea.CursorDown
      split <;> rfl
    · simp only [Except.ok.injEq] at h; rw [← h]

theorem cursorUpLoop_focused (fuel : Nat) (t t1 : Textarea) (y : Int)
    (h : cursorUpLoop fuel t y = .ok t1) : t1.Focused = t.Focused := by
  induction fuel generalizing t with
  | zero =>
    unfold cursorUpLoop at h
    split at h
    · simp at h
    · simp only [Except.ok.injEq] at h; rw [← h]
  | succ n ih =>
    unfold cursorUpLoop at h
    split at h
    · rw [ih _ h]
      unfold Textarea.CursorUp
      split <;> rfl
    · simp only [Except.ok.injEq] at h; rw [← h]

theorem clickFocused_FocusOk {fuel : Nat} {m m1 : model} {z : Option ZoneInfo} {e : MouseEvent}
    {c : Cmd} (hf : m.FocusOk) (h : m.clickFocused fuel z e = .ok (m1, c)) : m1.FocusOk := by
  unfold model.clickFocused at h
  split at h
  split at h
  · simp at h
  rename_i t0 ht0
  dsimp only at h
  split at h
  · simp at h
  rename_i t1 ht1
  split at h
  · simp at h
  rename_i t2 ht2
  simp only [Except.ok.injEq, Prod.mk.injEq] at h
  obtain ⟨rfl, -⟩ := h
  refine ⟨hf.1, ?_⟩
  obtain ⟨-, -, hget⟩ := getAt_eq_some ht0
  intro n t hn
  simp only at hn
  rw [List.getElem?_set] at hn
  split at hn
  · rename_i hin
    split at hn
    · have e1 := cursorDownLoop_focused _ _ _ _ ht1
      have e2 := cursorUpLoop_focused _ _ _ _ ht2
      have e3 : t.Focused = t0.Focused := by
        rw [← Option.some.inj hn, ← e1, ← e2]
        rfl
      rw [e3, ← hin]
      exact hf.2 _ t0 hget
    · simp at hn
  · exact hf.2 n t hn

theorem clickOther_FocusOk {m m1 : model} {i : Nat} {c : Cmd}
    (hf : m.FocusOk) (h : m.clickOther i = .ok (m1, c)) : m1.FocusOk := by
  unfold model.clickOther at h
  split at h
  · simp at h
  rename_i inputs1 hi1
  split at h
  · simp at h
  rename_i inputs2 hi2
  simp only [Except.ok.injEq, Prod.mk.injEq] at h
  obtain ⟨rfl, -⟩ := h
  exact ⟨by simp, focused_of_focus (blurred_of_blur hf.2 hi1) hi2⟩

theorem clickZones_FocusOk {fuel : Nat} {w : World} {m m1 : model} {e : MouseEvent} {c : Cmd}
    (hf : m.FocusOk) (zs : List ZoneId) (i : Nat)
    (h : model.clickZones fuel w m e zs i = .ok (some (m1, c))) : m1.FocusOk := by
  induction zs generalizing i with
  | nil => simp [model.clickZones] at h
  | cons id rest ih =>
    unfold model.clickZones at h
    split at h
    · split at h
      · simp at h
      rename_i r hr
      simp only [Except.ok.injEq, Option.some.injEq] at h
      subst h
      split at hr
      · exact clickFocused_FocusOk hf hr
      · exact clickOther_FocusOk hf hr
    · exact ih _ h

theorem updateKey_FocusOk {E : Env} (hE : E.KeepsFocus) {w w1 : World} {m m1 : model} {k : Key}
    {c : Cmd} (hwf : m.WF) (hf : m.FocusOk) (hc : c ≠ .Quit)
    (h : model.updateKey E w m k = .ok (w1, m1, c)) : m1.FocusOk := by
  unfold model.updateKey at h
  split at h
  · simp only [Except.ok.injEq, Prod.mk.injEq] at h
    exact absurd h.2.2.symm hc
  split at h
  · split at h
    · simp at h
    rename_i inputs1 hi1
    dsimp only at h
    split at h
    · simp at h
    rename_i inputs2 hi2
    simp only [Except.ok.injEq] at h
    refine finish_FocusOk hE h ⟨?_, focused_of_focus (blurred_of_blur hf.2 hi1) hi2⟩
    have := hf.1
    simp only
    split <;> omega
  split at h
  · split at h
    · simp at h
    rename_i inputs1 hi1
    dsimp only at h
    split at h
    · simp at h
    rename_i inputs2 hi2
    simp only [Except.ok.injEq] at h
    refine finish_FocusOk hE h ⟨?_, focused_of_focus (blurred_of_blur hf.2 hi1) hi2⟩
    have := hf.1
    have := hwf.len_pos
    simp only
    rw [modifyAt_length hi1]
    split <;> omega
  split at h
  · simp only [Except.ok.injEq] at h
    refine finish_FocusOk hE h ⟨hf.1, onlyFocused_append hf.2 ?_⟩
    have := hwf.focus_lt
    have := hf.1
    show m.focus.toNat < m.inputs.length
    omega
  split at h
  · split at h
    · dsimp only at h
      split at h
      · simp at h
      rename_i inputs1 hi1
      split at h
      · simp at h
      split at h
      · simp at h
      rename_i inputs2 hi2
      simp only [Except.ok.injEq] at h
      exact finish_FocusOk hE h
        ⟨Int.tmod_nonneg _ hf.1, focused_of_focus (blurred_of_erase hf.2 hi1) hi2⟩
    · simp only [Except.ok.injEq] at h
      exact finish_FocusOk hE h hf
  split at h
  · split at h
    · simp at h
    simp only [Except.ok.injEq] at h
    exact finish_FocusOk hE h hf
  · simp only [Except.ok.injEq] at h
    exact finish_FocusOk hE h hf

theorem updateMouse_FocusOk {E : Env} (hE : E.KeepsFocus) {fuel : Nat} {w w1 : World}
    {m m1 : model} {e : MouseEvent} {c : Cmd} (hf : m.FocusOk)
    (h : model.updateMouse E fuel w m e = .ok (w1, m1, c)) : m1.FocusOk := by
  unfold model.updateMouse at h
  split at h
  · split at h
    · simp at h
    rename_i inputs1 hi1
    simp only [Except.ok.injEq, Prod.mk.injEq] at h
    obtain ⟨-, rfl, -⟩ := h
    exact ⟨hf.1, onlyFocused_modify Textarea.CursorUp
      (fun t => by unfold Textarea.CursorUp; split <;> rfl) hf.2 hi1⟩
  split at h
  · split at h
    · simp at h
    rename_i inputs1 hi1
    simp only [Except.ok.injEq, Prod.mk.injEq] at h
    obtain ⟨-, rfl, -⟩ := h
    exact ⟨hf.1, onlyFocused_modify Textarea.CursorDown
      (fun t => by unfold Textarea.CursorDown; split <;> rfl) hf.2 hi1⟩
  split at h
  · split at h
    · simp at h
    · rename_i m2 c2 hz
      simp only [Except.ok.injEq, Prod.mk.injEq] at h
      obtain ⟨-, rfl, -⟩ := h
      exact clickZones_FocusOk hf _ _ hz
    · simp only [Except.ok.injEq] at h
      exact finish_FocusOk hE h hf
  · simp only [Except.ok.injEq] at h
    exact finish_FocusOk hE h hf

theorem Update_FocusOk {E : Env} (hE : E.KeepsFocus) {fuel : Nat} {w w1 : World}
    {m m1 : model} {msg : Msg} {c : Cmd} (hwf : m.WF) (hf : m.FocusOk) (hc : c ≠ .Quit)
    (h : model.Update E fuel w m msg = .ok (w1, m1, c)) : m1.FocusOk := by
  unfold model.Update at h
  split at h
  · simp only [Except.ok.injEq, Prod.mk.injEq] at h
    obtain ⟨-, rfl, -⟩ := h
    exact hf
  split at h
  · exact updateKey_FocusOk hE hwf hf hc h
  · simp only [Except.ok.injEq] at h
    exact finish_FocusOk hE h hf
  · exact updateMouse_FocusOk hE hf h
  · simp only [Except.ok.injEq] at h
    exact finish_FocusOk hE h hf

theorem newModel_FocusOk : newModel.FocusOk := by
  refine ⟨by decide, ?_⟩
  intro i t hi
  have h : newModel.inputs = [newTextarea.Focus] := by decide
  rw [h] at hi
  cases i with
  | zero =>
    simp only [List.getElem?_cons_zero, Option.some.injEq] at hi
    rw [← hi]
    exact ⟨fun _ => rfl, fun _ => rfl⟩
  | succ n => simp at hi

theorem eventLoop_FocusOk {E : Env} (hE : E.KeepsFocus) {fuel : Nat} (msgs : List Msg)
    {s s1 : World × model} (hwf : s.2.WF) (hf : s.2.FocusOk)
    (hq : quitFree E fuel s msgs = true) (h : eventLoop E fuel s msgs = .ok s1) :
    s1.2.WF ∧ s1.2.FocusOk := by
  induction msgs generalizing s with
  | nil =>
    simp only [eventLoop, Except.ok.injEq] at h
    rw [← h]; exact ⟨hwf, hf⟩
  | cons msg rest ih =>
    unfold eventLoop step at h
    unfold quitFree at hq
    cases hu : model.Update E fuel s.1 s.2 msg with
    | error f => rw [hu] at h; simp at h
    | ok r =>
      obtain ⟨w, m, c⟩ := r
      rw [hu] at h hq
      simp only [Bool.and_eq_true, decide_eq_true_eq] at hq
      simp only at h
      exact ih (s := (model.View E w m, m)) (Update_WF hwf hu) (Update_FocusOk hE hwf hf hq.1 hu)
        hq.2 h

/-- C19. With a widget whose own event handling keeps the focus flag, in every state
reached from `newModel` by events none of which is handled as the quit key, a pane is in
the focused state exactly when its position is the focus index, and the pane at the focus
index exists: exactly one pane is focused. -/
theorem C19_exactly_the_focus_index_is_focused (E : Env) (hE : E.KeepsFocus)
    (s : World × model) (hr : ReachableNoQuit E s) :
    (∀ (i : Nat) (t : Textarea), s.2.inputs[i]? = some t →
      (t.Focused = true ↔ (i : Int) = s.2.focus)) ∧
    ∃ t, getAt s.2.inputs s.2.focus = some t ∧ t.Focused = true := by
  obtain ⟨fs, msgs, fuel, hq, h⟩ := hr
  obtain ⟨hwf, hf0, hf⟩ := eventLoop_FocusOk hE msgs (s := (initWorld fs, newModel)) newModel_WF
    newModel_FocusOk hq h
  constructor
  · intro i t hi
    rw [hf i t hi]
    omega
  · obtain ⟨t, ht⟩ := getAt_of_bounds hwf.focus_nonneg hwf.focus_lt
    refine ⟨t, ht, ?_⟩
    exact (hf _ t (getAt_eq_some ht).2.2).mpr rfl

theorem demoEnv_keepsFocus : demoEnv.KeepsFocus := by
  intro t msg
  show (demoTextarea t msg).Focused = t.Focused
  unfold demoTextarea
  cases msg with
  | KeyMsg k =>
    simp only
    split
    · split <;> rfl
    · rfl
  | _ => rfl

/-- C19 at two panes, after a resize, an added pane and some typing. -/
theorem C19_witness :
    (twoPanes.2.inputs.map Textarea.Focused = [true, false] ∧ twoPanes.2.focus = 0) ∧
    ((∀ (i : Nat) (t : Textarea), twoPanes.2.inputs[i]? = some t →
      (t.Focused = true ↔ (i : Int) = twoPanes.2.focus)) ∧
    ∃ t, getAt twoPanes.2.inputs twoPanes.2.focus = some t ∧ t.Focused = true) :=
  ⟨⟨by rfl, by rfl⟩,
    C19_exactly_the_focus_index_is_focused demoEnv demoEnv_keepsFocus twoPanes
      ⟨⟨[]⟩, [.WindowSizeMsg 80 24, press .KeyCtrlN, runes "ab", press .KeyEnter, runes "cd",
        press .KeyEnter, runes "ef"], 0, by rfl, by rfl⟩⟩

theorem eventLoop_inStep {E : Env} {fuel : Nat} (msgs : List Msg) {s s1 : World × model}
    (hs : s.1.isPresent = false → s.1.zones.length = s.2.inputs.length)
    (h : eventLoop E fuel s msgs = .ok s1) :
    s1.1.isPresent = false → s1.1.zones.length = s1.2.inputs.length := by
  induction msgs generalizing s with
  | nil =>
    simp only [eventLoop, Except.ok.injEq] at h
    rw [← h]; exact hs
  | cons msg rest ih =>
    unfold eventLoop at h
    split at h
    · simp at h
    rename_i s2 hs2
    refine ih ?_ h
    obtain ⟨w, c, hu, hv⟩ := step_eq_ok hs2
    intro hp
    rw [hv] at hp ⊢
    rw [(View_fields E w s2.2).1] at hp
    exact View_zones E w s2.2 hp

theorem program_start_inv (E : Env) (fs : FileSystem) :
    LoopInv (model.View E (initWorld fs) newModel, newModel) ∧
    ((model.View E (initWorld fs) newModel).isPresent = false →
      (model.View E (initWorld fs) newModel).zones.length = newModel.inputs.length) := by
  have hz : (model.View E (initWorld fs) newModel).zones.length = newModel.inputs.length :=
    View_zones E (initWorld fs) newModel rfl
  exact ⟨⟨newModel_WF, fun _ => Or.inl hz⟩, fun _ => hz⟩

/-- C20. In every run of the program (first frame rendered, then `Update` and `View` for
each event), whenever the session is idle the zone list is as long as the pane list.
Hence the remove handler's slice of the zone list at the focus index is in bounds, and a
click that returns leaves the focus index inside the pane list.  `Update` alone does not
keep the lists in step: an add-pane key on such a state with fewer than six panes returns
with one more pane and the zone list as it was; the render pass that follows brings them
back in step. -/
theorem C20_zone_list_in_step_with_pane_list (E : Env) (fuel : Nat) (fs : FileSystem)
    (msgs : List Msg) (s : World × model) (h : program E fuel fs msgs = .ok s)
    (hp : s.1.isPresent = false) :
    s.1.zones.length = s.2.inputs.length ∧
    (removeAt s.1.zones s.2.focus).isSome = true ∧
    (∀ e fuel2 w1 m1 c, model.Update E fuel2 s.1 s.2 (.MouseMsg e) = .ok (w1, m1, c) →
      0 ≤ m1.focus ∧ m1.focus < m1.inputs.length) ∧
    (s.2.inputs.length < 6 → ∀ k : Key, k.String = "ctrl+n" →
      ∃ w1 m1 c, (∀ fuel2, model.Update E fuel2 s.1 s.2 (.KeyMsg k) = .ok (w1, m1, c)) ∧
        w1.zones.length = s.2.inputs.length ∧ m1.inputs.length = s.2.inputs.length + 1 ∧
        (model.View E w1 m1).zones.length = m1.inputs.length) := by
  obtain ⟨hinv0, hstep0⟩ := program_start_inv E fs
  have hinv := eventLoop_inv msgs hinv0 h
  have hstd := eventLoop_Std msgs (s := (model.View E (initWorld fs) newModel, newModel))
    newModel_Std h
  have hz := eventLoop_inStep msgs hstep0 h hp
  refine ⟨hz, ?_, ?_, ?_⟩
  · rw [removeAt_of_bounds hinv.wf.focus_nonneg (by rw [hz]; exact hinv.wf.focus_lt)]
    rfl
  · intro e fuel2 w1 m1 c hu
    have := Update_WF hinv.wf hu
    exact ⟨this.focus_nonneg, this.focus_lt⟩
  · intro hlen k hk
    have hen : s.2.keymap.add.disabled = false := by
      rw [hinv.wf.add_flag]
      simp [maxInputs, hlen]
    have hu := Update_add E s.1 s.2 k hp hstd hen hk
    refine ⟨_, _, _, hu, hz, ?_, ?_⟩
    · show (({ s.2 with inputs := s.2.inputs ++ [newTextarea] } : model).passed E
        (.KeyMsg k)).length = _
      rw [passed_length]; simp
    · exact View_zones E _ _ hp

/-- C20 at the run that leads to six panes. -/
theorem C20_witness :
    sixPanesRun.1.zones.length = sixPanesRun.2.inputs.length ∧
    (removeAt sixPanesRun.1.zones sixPanesRun.2.focus).isSome = true := by
  obtain ⟨a, b, -⟩ := C20_zone_list_in_step_with_pane_list demoEnv 0 ⟨[]⟩
    (List.replicate 5 (press .KeyCtrlN)) sixPanesRun (by rfl) (by rfl)
  exact ⟨a, b⟩

/-- C11 at two panes: a click inside the second pane while the first is focused. -/
theorem C11_witness :
    ∃ m1 c, model.Update demoEnv 0 twoPanes.1 twoPanes.2 (.MouseMsg ⟨50, 3, .MouseLeft⟩) =
        .ok (twoPanes.1, m1, c) ∧
      m1.focus = 1 ∧
      m1.inputs.map Textarea.buffer = twoPanes.2.inputs.map Textarea.buffer := by
  obtain ⟨m1, c, h, hf, -, -, -, -, hb⟩ :=
    C11_click_on_other_pane_only_moves_focus demoEnv twoPanes.1 twoPanes.2
      ⟨50, 3, .MouseLeft⟩ [twoPanes.1.zones.headD 0] [] ((twoPanes.1.zones.drop 1).headD 0)
      (twoPanes.2.inputs.headD newTextarea) ((twoPanes.2.inputs.drop 1).headD newTextarea)
      rfl rfl (by rfl)
      (by intro i hi; rw [List.mem_singleton] at hi; rw [hi]; rfl)
      (by rfl) (by decide) (by rfl) (by rfl)
  exact ⟨m1, c, h 0, hf, hb⟩

/-- C12 at two panes: a click to the right of every zone changes neither focus nor text. -/
theorem C12_witness :
    ∃ m1, model.Update demoEnv 0 twoPanes.1 twoPanes.2 (.MouseMsg ⟨200, 3, .MouseLeft⟩) =
        .ok (twoPanes.1, m1, .Batch) ∧
      m1.focus = twoPanes.2.focus ∧
      m1.inputs.map Textarea.shown = twoPanes.2.inputs.map Textarea.shown := by
  obtain ⟨-, h2⟩ := C12_click_goes_to_first_containing_zone demoEnv twoPanes.1 twoPanes.2
    ⟨200, 3, .MouseLeft⟩ rfl rfl
  obtain ⟨m1, h, hf, -, hs⟩ := h2 (by
    intro j hj
    have hz : twoPanes.1.zones =
        [twoPanes.1.zones.headD 0, (twoPanes.1.zones.drop 1).headD 0] := by rfl
    rw [hz] at hj
    simp only [List.mem_cons, List.mem_singleton, List.not_mem_nil, or_false] at hj
    rcases hj with rfl | rfl <;> rfl)
  exact ⟨m1, h 0, hf, hs (fun t => rfl)⟩

/-- C13 at two panes: the add-pane key gives three, the focus stays on the first. -/
theorem C13_witness :
    ∃ m1 c, model.Update demoEnv 0 twoPanes.1 twoPanes.2 (press .KeyCtrlN) =
        .ok (twoPanes.1, m1, c) ∧
      m1.focus = twoPanes.2.focus ∧ m1.inputs.length = 3 := by
  obtain ⟨m1, c, h, hf, hl, -⟩ :=
    C13_add_appends_one_unfocused_empty_pane demoEnv twoPanes.1 twoPanes.2 (plainKey .KeyCtrlN)
      rfl twoPanes_Std rfl (by decide) rfl
  exact ⟨m1, c, h 0, hf, hl⟩

end Goit
